import Mathlib

/-!
# goml/algo: regression tree construction and evaluation

A shallow embedding of `regression_tree.go`, `sort_offsets.go` and `structs.go`.

Modelling conventions.

* Go slices are `List`s.  An index or slice expression that would panic in Go
  (index out of range, nil dereference) makes the enclosing function return `none`.
* `int` values are unbounded (`Nat`, and `Int` where the code stores `-1`).  The only
  place where the machine width could be felt is `1 << uint(maxDepth)`; the tree arrays of
  `2^maxDepth` entries stop being allocatable long before that shift overflows.
* `float32`/`float64` data (outputs, weights, feature values) are rationals (a caller can
  only pass `float32` values; the examples use such values).  The values the program computes
  from them can be infinite or NaN (`0/0`), and the control flow of the split search depends
  on that, so computed values live in `Flt`: a rational, `+Inf`, `-Inf` or `NaN`, with the
  IEEE rules for these.  Signed zeros are not modelled (every zero divisor the program can
  form is `+0`).
* The arithmetic is embedded twice.  The functions `sumWeight.Add`, `ComputeSumWeight`,
  `FindBestSplitForInput`, `TryToSplitRegion`, `ProcessRegion`, `BuildTree` compute with the
  exact sums, products and quotients; they carry the properties stated for the values as
  real numbers.  The functions with the suffix `Rounded` are the same code with every operation
  rounded as IEEE 754 prescribes (to the nearest value, ties to even, overflow to an
  infinity, subnormal values included): `float32` for `prevValue+1e-6` and for the midpoint
  `(prevValue + value) / 2`, `float64` for the running sums, the gains and `gain+1e-6`, and the
  conversion `float32(...)` for the adjustment.  Every operation is rounded on its own (no
  fused multiply-add).  They carry the properties that rounding decides: the boundaries
  between values (C12), the accumulators of the scan (C13) and the depth-1 tree (C6).  The
  order independence of the reduction (C7) is proved for the results of either embedding.
* Goroutines are run one after the other, in the order the `go` statements are issued
  (per region: the per-feature searches in feature order, then the in-split child, then the
  excluded child).  The `done` channel is the number of values sent on it.
* `sort.Sort` belongs to the Go standard library.  It is modelled by that library's
  `insertionSort`, the routine `sort.Sort` runs on short slices, driven through the
  `Len`/`Less`/`Swap` methods that this repository defines.
-/

namespace Goml

/-! ## Floating point values -/

/-- A float value: an exact rational, an infinity, or NaN. -/
inductive Flt where
  | fin (q : ℚ)
  | pinf
  | ninf
  | nan
deriving DecidableEq

namespace Flt

/-- IEEE addition (exact on finite values). -/
def add : Flt → Flt → Flt
  | fin a, fin b => fin (a + b)
  | fin _, pinf => pinf
  | fin _, ninf => ninf
  | pinf, fin _ => pinf
  | pinf, pinf => pinf
  | ninf, fin _ => ninf
  | ninf, ninf => ninf
  | _, _ => nan

/-- IEEE multiplication (exact on finite values). -/
def mul : Flt → Flt → Flt
  | fin a, fin b => fin (a * b)
  | fin a, pinf => if a = 0 then nan else if 0 < a then pinf else ninf
  | fin a, ninf => if a = 0 then nan else if 0 < a then ninf else pinf
  | pinf, fin b => if b = 0 then nan else if 0 < b then pinf else ninf
  | ninf, fin b => if b = 0 then nan else if 0 < b then ninf else pinf
  | pinf, pinf => pinf
  | ninf, ninf => pinf
  | pinf, ninf => ninf
  | ninf, pinf => ninf
  | _, _ => nan

/-- IEEE division (exact on finite values); a zero divisor is `+0`. -/
def div : Flt → Flt → Flt
  | fin a, fin b =>
    if b = 0 then (if a = 0 then nan else if 0 < a then pinf else ninf) else fin (a / b)
  | fin _, pinf => fin 0
  | fin _, ninf => fin 0
  | pinf, fin b => if 0 ≤ b then pinf else ninf
  | ninf, fin b => if 0 ≤ b then ninf else pinf
  | _, _ => nan

/-- The comparison `a < b`: false as soon as one side is NaN. -/
def lt : Flt → Flt → Bool
  | fin a, fin b => decide (a < b)
  | fin _, pinf => true
  | ninf, fin _ => true
  | ninf, pinf => true
  | _, _ => false

/-- The comparison `a <= b`: false as soon as one side is NaN. -/
def le : Flt → Flt → Bool
  | fin a, fin b => decide (a ≤ b)
  | fin _, pinf => true
  | ninf, fin _ => true
  | ninf, pinf => true
  | pinf, pinf => true
  | ninf, ninf => true
  | _, _ => false

/-- The comparison `a > b`. -/
def gt (a b : Flt) : Bool := lt b a

/-- The comparison `a == b`: NaN is not equal to itself. -/
def eq : Flt → Flt → Bool
  | fin a, fin b => decide (a = b)
  | pinf, pinf => true
  | ninf, ninf => true
  | _, _ => false

end Flt

/-- The literal `1e-6`. -/
def eps : ℚ := 1 / 1000000

/-! ## Rounding to float32 and float64 -/

/-- The power `2^k` of an integer exponent. -/
def pow2 (k : Int) : ℚ :=
  if 0 ≤ k then ((2 ^ k.toNat : Nat) : ℚ) else 1 / ((2 ^ (-k).toNat : Nat) : ℚ)

/-- The number of halvings that bring `n` below 2, counted in at most `fuel` steps. -/
def log2Aux : Nat → Nat → Nat
  | 0, _ => 0
  | fuel + 1, n => if n < 2 then 0 else log2Aux fuel (n / 2) + 1

/-- The binary logarithm of `n >= 1`, rounded down (`n` steps are more than enough). -/
def natLog2 (n : Nat) : Nat := log2Aux n n

/-- The exponent `e` with `2^e <= q < 2^(e+1)`, for `q > 0`: the difference of the
logarithms of numerator and denominator, or one below it. -/
def floorLog2 (q : ℚ) : Int :=
  let k : Int := (natLog2 q.num.natAbs : Int) - (natLog2 q.den : Int)
  if pow2 k ≤ q then k else k - 1

/-- The natural number nearest to `x >= 0`; of two that are equally near, the even one. -/
def nearestEven (x : ℚ) : Nat :=
  let f : Nat := x.num.natAbs / x.den
  let r := x - (f : ℚ)
  if r < 1 / 2 then f else if 1 / 2 < r then f + 1 else if f % 2 = 0 then f else f + 1

/-- IEEE rounding of the number `q` to the nearest value of the binary format with `p`
significant bits and exponents from `emin` to `emax`, ties to the even significand.  Below
`2^emin` the spacing of the values stays that of `2^emin` (subnormal values); a result past
the largest finite value is an infinity. -/
def roundTo (p : Nat) (emin emax : Int) (q : ℚ) : Flt :=
  if q = 0 then Flt.fin 0
  else
    let a := |q|
    let e := max (floorLog2 a) emin
    let ulp := pow2 (e - ((p : Int) - 1))
    let m := (nearestEven (a / ulp) : ℚ) * ulp
    if pow2 (emax + 1) ≤ m then (if 0 < q then Flt.pinf else Flt.ninf)
    else Flt.fin (if 0 < q then m else -m)

/-- Rounding to `float32`: 24 significant bits, exponents -126 to 127. -/
def round32 (q : ℚ) : Flt := roundTo 24 (-126) 127 q

/-- Rounding to `float64`: 53 significant bits, exponents -1022 to 1023. -/
def round64 (q : ℚ) : Flt := roundTo 53 (-1022) 1023 q

namespace Flt

/-- IEEE negation. -/
def neg : Flt → Flt
  | fin a => fin (-a)
  | pinf => ninf
  | ninf => pinf
  | nan => nan

/-- IEEE subtraction (exact on finite values). -/
def sub (a b : Flt) : Flt := add a (neg b)

/-- The value as a `float32`: a number is rounded, infinities and NaN stay. -/
def to32 : Flt → Flt
  | fin q => round32 q
  | x => x

/-- The value as a `float64`: a number is rounded, infinities and NaN stay. -/
def to64 : Flt → Flt
  | fin q => round64 q
  | x => x

/-- The `float32` operation `a + b`. -/
def add32 (a b : Flt) : Flt := to32 (add a b)

/-- The `float32` operation `a / b`. -/
def div32 (a b : Flt) : Flt := to32 (div a b)

/-- The `float64` operation `a + b`. -/
def add64 (a b : Flt) : Flt := to64 (add a b)

/-- The `float64` operation `a - b`. -/
def sub64 (a b : Flt) : Flt := to64 (sub a b)

/-- The `float64` operation `a * b`. -/
def mul64 (a b : Flt) : Flt := to64 (mul a b)

/-- The `float64` operation `a / b`. -/
def div64 (a b : Flt) : Flt := to64 (div a b)

end Flt

/-- The literal `1e-6` as a `float32` constant. -/
def eps32 : Flt := round32 eps

/-- The literal `1e-6` as a `float64` constant. -/
def eps64 : Flt := round64 eps

/-! ## Slice helpers -/

/-- A loop that computes one value per element of a list; it panics as soon as one of the
computations does. -/
def mapOpt {α β : Type} (f : α → Option β) : List α → Option (List β)
  | [] => some []
  | a :: l =>
    match f a with
    | none => none
    | some b =>
      match mapOpt f l with
      | none => none
      | some bs => some (b :: bs)

/-- The assignment `a[i] = v`: panics when `i` is out of range. -/
def setAt {α : Type} (a : List α) (i : Nat) (v : α) : Option (List α) :=
  if i < a.length then some (a.set i v) else none

/-- The slice expression `a[lo:hi]`: panics unless `lo <= hi <= len(a)`. -/
def slice {α : Type} (a : List α) (lo hi : Nat) : Option (List α) :=
  if lo ≤ hi ∧ hi ≤ a.length then some ((a.drop lo).take (hi - lo)) else none

/-- The array `a` after its window starting at `lo` was overwritten in place with `s`
(`s` is what a slice `a[lo:lo+len(s)]` holds after the writes made through it). -/
def splice {α : Type} (a : List α) (lo : Nat) (s : List α) : List α :=
  a.take lo ++ s ++ a.drop (lo + s.length)

/-! ## structs.go -/

/-- Half-open range `[begin, end)` of offsets.  Every range the program builds has
`begin <= end`, so `Size` is a natural number. -/
structure offsetRange where
  begin : Nat
  end_ : Nat
deriving DecidableEq

namespace offsetRange

def Size (b : offsetRange) : Nat := b.end_ - b.begin

def Empty (b : offsetRange) : Bool := decide (b.begin = b.end_)

end offsetRange

/-- Running weighted sum and total weight.  Both stay finite: they are only ever
changed by adding or subtracting products of finite data. -/
structure sumWeight where
  weightedSum : ℚ
  totalWeight : ℚ
deriving DecidableEq

namespace sumWeight

def Add (sw : sumWeight) (value weight : ℚ) : sumWeight :=
  ⟨sw.weightedSum + value * weight, sw.totalWeight + weight⟩

def Subtract (sw : sumWeight) (value weight : ℚ) : sumWeight :=
  ⟨sw.weightedSum - value * weight, sw.totalWeight - weight⟩

end sumWeight

/-! ## The tree and its evaluation -/

/-- One entry of `Tree.splits`.  If `inputIdx` is `-1` there is no split and `thresh`
is an adjustment. -/
structure split where
  inputIdx : Int
  thresh : Flt
deriving DecidableEq

/-- The tree: node `i` has children `2*i+1` and `2*i+2`; nodes past `splits` are the
entries of `adjs`. -/
structure Tree where
  splits : List split
  adjs : List Flt
deriving DecidableEq

/-- The inner `for` loop of `Tree.Eval` for row `i`, started at node `region`.  Every
iteration that does not stop moves to a larger node index, so `len(splits) + 1`
iterations always suffice; `fuel` counts the iterations still allowed. -/
def evalRow (t : Tree) (inputs : List (List ℚ)) (i : Nat) : Nat → Nat → Option Flt
  | 0, _ => none
  | fuel + 1, region =>
    if t.splits.length ≤ region then t.adjs[region - t.splits.length]?
    else
      match t.splits[region]? with
      | none => none
      | some sp =>
        if sp.inputIdx = -1 then some sp.thresh
        else if sp.inputIdx < 0 then none
        else
          match inputs[sp.inputIdx.toNat]? with
          | none => none
          | some col =>
            match col[i]? with
            | none => none
            | some x =>
              evalRow t inputs i fuel
                (if Flt.le (Flt.fin x) sp.thresh then 2 * region + 1 + 1 else 2 * region + 1)

/-- The method `Tree.Eval`: one output per row of the batch, the rows being counted on the
first feature column. -/
def Eval (t : Tree) (inputs : List (List ℚ)) : Option (List Flt) :=
  match inputs[0]? with
  | none => none
  | some col0 =>
    (List.range col0.length).foldlM
      (fun output i =>
        match evalRow t inputs i (t.splits.length + 1) 0 with
        | none => none
        | some v => setAt output i v)
      (List.replicate col0.length (Flt.fin 0))

/-! ## sort.Sort -/

/-- The inner loop of the library's `insertionSort`:
`for j := i; j > 0 && data.Less(j, j-1); j-- { data.Swap(j, j-1) }`. -/
def insertionInner {σ : Type} (less : σ → Nat → Nat → Option Bool)
    (swap : σ → Nat → Nat → Option σ) : Nat → σ → Option σ
  | 0, s => some s
  | j + 1, s =>
    match less s (j + 1) j with
    | none => none
    | some true =>
      match swap s (j + 1) j with
      | none => none
      | some s1 => insertionInner less swap j s1
    | some false => some s

/-- The call `sort.Sort(data)` for data of length `n`, as the library's
`insertionSort(data, 0, n)`: `for i := 1; i < n; i++ { inner loop from i }`. -/
def sortSort {σ : Type} (less : σ → Nat → Nat → Option Bool)
    (swap : σ → Nat → Nat → Option σ) (n : Nat) (s : σ) : Option σ :=
  (List.range (n - 1)).foldlM (fun s k => insertionInner less swap (k + 1) s) s

/-! ## sort_offsets.go -/

structure offsetsAndValues where
  offsets : List Nat
  values : List ℚ
deriving DecidableEq

namespace offsetsAndValues

def Len (s : offsetsAndValues) : Nat := s.values.length

def Less (s : offsetsAndValues) (i j : Nat) : Option Bool :=
  match s.values[i]?, s.values[j]? with
  | some vi, some vj => some (decide (vi < vj))
  | _, _ => none

def Swap (s : offsetsAndValues) (i j : Nat) : Option offsetsAndValues :=
  match s.offsets[i]?, s.offsets[j]?, s.values[i]?, s.values[j]? with
  | some oi, some oj, some vi, some vj =>
    some ⟨(s.offsets.set i oj).set j oi, (s.values.set i vj).set j vi⟩
  | _, _, _, _ => none

end offsetsAndValues

/-- The function `SortOffsetsByValue`: the offsets `0..len(arr)-1`, sorted together with a
copy of the values. -/
def SortOffsetsByValue (arr : List ℚ) : Option (List Nat) :=
  let s : offsetsAndValues := ⟨List.range arr.length, arr⟩
  (sortSort offsetsAndValues.Less offsetsAndValues.Swap s.Len s).map offsetsAndValues.offsets

/-! ## The tree builder -/

/-- Ghost record of one `ProcessRegion` call: its arguments, what `TryToSplitRegion`
returned for it, the row ids held by its slice of `byRegionIds` at that moment, and the
adjustment it computed when it finalised the region. -/
structure regionCall where
  region : offsetRange
  regionIdx : Nat
  depth : Nat
  spEnd : Nat
  ids : List Nat
  adj : Option Flt
deriving DecidableEq

/-- The builder state.  `done` counts the values sent on the `done` channel and `calls`
is a ghost log of the `ProcessRegion` calls made so far; neither is read by the program. -/
structure treeBuilder where
  output : List ℚ
  weight : List ℚ
  inputs : List (List ℚ)
  maxDepth : Nat
  minItems : Nat
  byRegionIds : List Nat
  byRegionInputs : List (List Nat)
  t : Tree
  done : Nat
  calls : List regionCall
deriving DecidableEq

/-- The body of the loop of `ComputeSumWeight` at position `i`. -/
def sumStep (tb : treeBuilder) (res : sumWeight) (i : Nat) : Option sumWeight :=
  match tb.byRegionIds[i]? with
  | none => none
  | some offset =>
    match tb.output[offset]?, tb.weight[offset]? with
    | some o, some w => some (res.Add o w)
    | _, _ => none

/-- The method `ComputeSumWeight`. -/
def ComputeSumWeight (tb : treeBuilder) (region : offsetRange) : Option sumWeight :=
  (List.range' region.begin (region.end_ - region.begin)).foldlM (sumStep tb) ⟨0, 0⟩

structure splitInfo where
  inputIdx : Nat
  region : offsetRange
  thresh : Flt
  gain : Flt
deriving DecidableEq

/-- The closure `gain` of `FindBestSplitForInput`:
`sw.weightedSum * (sw.weightedSum / sw.totalWeight)`. -/
def gain (sw : sumWeight) : Flt :=
  Flt.mul (Flt.fin sw.weightedSum) (Flt.div (Flt.fin sw.weightedSum) (Flt.fin sw.totalWeight))

/-- The variables carried around the scan loop of `FindBestSplitForInput`. -/
structure scanState where
  spSumWeight : sumWeight
  exSumWeight : sumWeight
  prevValue : Flt
  bestSplit : splitInfo
deriving DecidableEq

/-- One iteration (index `i`) of the scan loop of `FindBestSplitForInput`. -/
def scanStep (tb : treeBuilder) (inputIdx : Nat) (input : List ℚ) (byValue : List Nat)
    (st : scanState) (i : Nat) : Option scanState :=
  match byValue[i]? with
  | none => none
  | some id =>
    match input[id]?, tb.output[id]?, tb.weight[id]? with
    | some value, some output, some weight =>
      let curGain := Flt.add (gain st.spSumWeight) (gain st.exSumWeight)
      let sp := st.spSumWeight.Subtract output weight
      let ex := st.exSumWeight.Add output weight
      if Flt.lt (Flt.fin value) (Flt.add st.prevValue (Flt.fin eps)) then
        some ⟨sp, ex, Flt.fin value, st.bestSplit⟩
      else
        let prevMid := Flt.div (Flt.add st.prevValue (Flt.fin value)) (Flt.fin 2)
        if i < tb.minItems ∨ ((byValue.length : Int) - (i : Int) < (tb.minItems : Int)) then
          some ⟨sp, ex, Flt.fin value, st.bestSplit⟩
        else if Flt.gt curGain (Flt.add st.bestSplit.gain (Flt.fin eps)) then
          some ⟨sp, ex, Flt.fin value, ⟨inputIdx, ⟨i, byValue.length⟩, prevMid, curGain⟩⟩
        else
          some ⟨sp, ex, Flt.fin value, st.bestSplit⟩
    | _, _, _ => none

/-- The method `FindBestSplitForInput`; the value it sends on the channel is returned. -/
def FindBestSplitForInput (tb : treeBuilder) (region : offsetRange) (inputIdx : Nat) :
    Option splitInfo :=
  match ComputeSumWeight tb region, tb.inputs[inputIdx]?, tb.byRegionInputs[inputIdx]? with
  | some spSumWeight, some input, some ids =>
    match slice ids region.begin region.end_ with
    | none => none
    | some byValue =>
      ((List.range byValue.length).foldlM (scanStep tb inputIdx input byValue)
        ⟨spSumWeight, ⟨0, 0⟩, Flt.ninf, ⟨0, ⟨0, 0⟩, Flt.fin 0, Flt.fin (-1)⟩⟩).map
        scanState.bestSplit
  | _, _, _ => none

/-- The body of the reduction loop of `TryToSplitRegion`: `bestSplit` after result `si`
was received. -/
def betterSplit (bestSplit : Option splitInfo) (si : splitInfo) : Option splitInfo :=
  match bestSplit with
  | none => some si
  | some b =>
    if Flt.gt si.gain b.gain ∨ (Flt.eq si.gain b.gain = true ∧ si.inputIdx < b.inputIdx) then
      some si
    else some b

/-- The reduction loop of `TryToSplitRegion` over the results in their order of arrival;
`none` is the nil pointer. -/
def reduceSplits (results : List splitInfo) : Option splitInfo :=
  results.foldl betterSplit none

/-! ### sortByRegionInputsStruct -/

structure sortByRegionInputsStruct where
  idsInRegion : List Nat
  idIsInSplit : List Bool
deriving DecidableEq

namespace sortByRegionInputsStruct

def Len (s : sortByRegionInputsStruct) : Nat := s.idsInRegion.length

def Less (s : sortByRegionInputsStruct) (i j : Nat) : Option Bool :=
  match s.idsInRegion[i]?, s.idsInRegion[j]? with
  | some iId, some jId =>
    match s.idIsInSplit[iId]? with
    | none => none
    | some true =>
      match s.idIsInSplit[jId]? with
      | none => none
      | some false => some true
      | some true => some (decide (i < j))
    | some false =>
      match s.idIsInSplit[jId]? with
      | none => none
      | some true => some false
      | some false => some (decide (i < j))
  | _, _ => none

def Swap (s : sortByRegionInputsStruct) (i j : Nat) : Option sortByRegionInputsStruct :=
  match s.idsInRegion[i]?, s.idsInRegion[j]? with
  | some iId, some jId => some ⟨(s.idsInRegion.set i jId).set j iId, s.idIsInSplit⟩
  | _, _ => none

end sortByRegionInputsStruct

/-! ### TryToSplitRegion -/

/-- The loop that marks the in-split ids:
`for i := 0; i < len(idsInSplit); i++ { idIsInSplit[idsInSplit[i]] = true }`. -/
def markInSplit (idsInSplit : List Nat) (idIsInSplit : List Bool) : Option (List Bool) :=
  idsInSplit.foldlM (fun m id => setAt m id true) idIsInSplit

/-- The first re-sorting loop of `TryToSplitRegion`, from index `i - 1` down to `0`:
not-in-split ids are moved to the end of the slice.  `exIdx` may reach `-1`. -/
def moveExcluded (idIsInSplit : List Bool) : Nat → List Nat → Int → Option (List Nat)
  | 0, sl, _ => some sl
  | i + 1, sl, exIdx =>
    match sl[i]? with
    | none => none
    | some id =>
      match idIsInSplit[id]? with
      | none => none
      | some true => moveExcluded idIsInSplit i sl exIdx
      | some false =>
        if exIdx < 0 then none
        else
          match setAt sl exIdx.toNat id with
          | none => none
          | some sl1 => moveExcluded idIsInSplit i sl1 (exIdx - 1)

/-- The body of the second re-sorting loop of `TryToSplitRegion` for id `i`; the state is
the slice and `spIdx`. -/
def includeStep (idIsInSplit : List Bool) (st : List Nat × Nat) (i : Nat) :
    Option (List Nat × Nat) :=
  match idIsInSplit[i]? with
  | none => none
  | some true =>
    match setAt st.1 st.2 i with
    | none => none
    | some sl1 => some (sl1, st.2 + 1)
  | some false => some st

/-- The second re-sorting loop of `TryToSplitRegion`: the in-split ids are written, in
increasing id order, from the start of the slice. -/
def moveIncluded (idIsInSplit : List Bool) (sl : List Nat) : Option (List Nat) :=
  ((List.range idIsInSplit.length).foldlM (includeStep idIsInSplit) (sl, 0)).map Prod.fst

/-- The body of the last loop of `TryToSplitRegion` for one per-input ordering `arr`:
its region slice is sorted with `sortByRegionInputsStruct`. -/
def resortInput (idIsInSplit : List Bool) (region : offsetRange) (arr : List Nat) :
    Option (List Nat) :=
  match slice arr region.begin region.end_ with
  | none => none
  | some byValueIds =>
    let s : sortByRegionInputsStruct := ⟨byValueIds, idIsInSplit⟩
    match sortSort sortByRegionInputsStruct.Less sortByRegionInputsStruct.Swap s.Len s with
    | none => none
    | some s1 => some (splice arr region.begin s1.idsInRegion)

/-- The per-feature results of one region, in feature order (the order in which they are
taken to arrive on the channel). -/
def splitResults (tb : treeBuilder) (region : offsetRange) : Option (List splitInfo) :=
  mapOpt (FindBestSplitForInput tb region) (List.range tb.inputs.length)

/-- The part of `TryToSplitRegion` after the winner was chosen and found non-empty: the
split is written into the tree and the orderings are re-sorted. -/
def commitSplit (tb : treeBuilder) (region : offsetRange) (splitIdx : Nat)
    (bestSplit : splitInfo) : Option (treeBuilder × Nat) :=
  match tb.byRegionInputs[bestSplit.inputIdx]? with
  | none => none
  | some winner =>
    match slice winner bestSplit.region.begin bestSplit.region.end_,
      setAt tb.t.splits splitIdx ⟨(bestSplit.inputIdx : Int), bestSplit.thresh⟩ with
    | some idsInSplit, some splits =>
      match markInSplit idsInSplit (List.replicate tb.output.length false),
        slice tb.byRegionIds region.begin region.end_ with
      | some idIsInSplit, some byRegionIdsSlice =>
        match moveExcluded idIsInSplit byRegionIdsSlice.length byRegionIdsSlice
            ((byRegionIdsSlice.length : Int) - 1) with
        | none => none
        | some sl1 =>
          match moveIncluded idIsInSplit sl1, mapOpt (resortInput idIsInSplit region)
              tb.byRegionInputs with
          | some sl2, some byRegionInputs =>
            some (⟨tb.output, tb.weight, tb.inputs, tb.maxDepth, tb.minItems,
              splice tb.byRegionIds region.begin sl2, byRegionInputs,
              ⟨splits, tb.t.adjs⟩, tb.done, tb.calls⟩, bestSplit.region.Size)
          | _, _ => none
      | _, _ => none
    | _, _ => none

/-- The method `TryToSplitRegion`: the new state and the returned count (`0` when no
split was made). -/
def TryToSplitRegion (tb : treeBuilder) (region : offsetRange) (splitIdx depth : Nat) :
    Option (treeBuilder × Nat) :=
  if depth + 1 > tb.maxDepth ∨ ((region.Size : Int) < 2 * (tb.minItems : Int)) then
    some (tb, 0)
  else
    match splitResults tb region with
    | none => none
    | some results =>
      match reduceSplits results with
      | none => none
      | some bestSplit =>
        if bestSplit.region.Empty then some (tb, 0)
        else commitSplit tb region splitIdx bestSplit

/-! ### ProcessRegion and BuildTree -/

/-- The finalising branch of `ProcessRegion`: the adjustment is written into the tree and
`1 << (maxDepth - depth)` values are sent on `done`. -/
def finalizeRegion (tb : treeBuilder) (region : offsetRange) (regionIdx depth : Nat) :
    Option treeBuilder :=
  match ComputeSumWeight tb region with
  | none => none
  | some sw =>
    let adj := Flt.div (Flt.fin sw.weightedSum) (Flt.fin sw.totalWeight)
    let sent := if depth ≤ tb.maxDepth then 2 ^ (tb.maxDepth - depth) else 0
    let call : regionCall :=
      ⟨region, regionIdx, depth, 0, (tb.byRegionIds.drop region.begin).take region.Size,
        some adj⟩
    if regionIdx < tb.t.splits.length then
      match setAt tb.t.splits regionIdx ⟨-1, adj⟩ with
      | none => none
      | some splits =>
        some ⟨tb.output, tb.weight, tb.inputs, tb.maxDepth, tb.minItems, tb.byRegionIds,
          tb.byRegionInputs, ⟨splits, tb.t.adjs⟩, tb.done + sent, tb.calls ++ [call]⟩
    else
      match setAt tb.t.adjs (regionIdx - tb.t.splits.length) adj with
      | none => none
      | some adjs =>
        some ⟨tb.output, tb.weight, tb.inputs, tb.maxDepth, tb.minItems, tb.byRegionIds,
          tb.byRegionInputs, ⟨tb.t.splits, adjs⟩, tb.done + sent, tb.calls ++ [call]⟩

/-- The state with the ghost record of a call that split its region added. -/
def logSplit (tb : treeBuilder) (region : offsetRange) (regionIdx depth spEnd : Nat) :
    treeBuilder :=
  ⟨tb.output, tb.weight, tb.inputs, tb.maxDepth, tb.minItems, tb.byRegionIds,
    tb.byRegionInputs, tb.t, tb.done,
    tb.calls ++ [⟨region, regionIdx, depth, spEnd,
      (tb.byRegionIds.drop region.begin).take region.Size, none⟩]⟩

/-- The method `ProcessRegion`, with its two child calls run one after the other.  The
recursion goes one level deeper only after a split, which needs `depth + 1 <= maxDepth`;
`fuel` bounds the number of nested calls. -/
def ProcessRegion : Nat → treeBuilder → offsetRange → Nat → Nat → Option treeBuilder
  | 0, _, _, _, _ => none
  | fuel + 1, tb, region, regionIdx, depth =>
    match TryToSplitRegion tb region regionIdx depth with
    | none => none
    | some (tb1, spEnd) =>
      if spEnd ≠ 0 then
        match ProcessRegion fuel (logSplit tb1 region regionIdx depth spEnd) ⟨0, spEnd⟩
            (regionIdx * 2 + 1) (depth + 1) with
        | none => none
        | some tb2 => ProcessRegion fuel tb2 ⟨spEnd, region.end_⟩ (regionIdx * 2 + 2) (depth + 1)
      else finalizeRegion tb1 region regionIdx depth

/-- The state of the builder when `BuildTree` returns: the arrays are allocated, the root
region is processed, and `maxRegions` values are received from `done` (with fewer values
sent the receive loop never ends). -/
def buildState (output weight : List ℚ) (inputs : List (List ℚ)) (maxDepth minItems : Nat) :
    Option treeBuilder :=
  let maxRegions := 2 ^ maxDepth
  match mapOpt SortOffsetsByValue inputs with
  | none => none
  | some byRegionInputs =>
    let tb : treeBuilder :=
      ⟨output, weight, inputs, maxDepth, minItems, List.range output.length, byRegionInputs,
        ⟨List.replicate (maxRegions - 1) ⟨0, Flt.fin 0⟩, List.replicate maxRegions (Flt.fin 0)⟩,
        0, []⟩
    match ProcessRegion (maxDepth + 1) tb ⟨0, output.length⟩ 0 0 with
    | none => none
    | some tb1 => if maxRegions ≤ tb1.done then some tb1 else none

/-- The function `BuildTree`. -/
def BuildTree (output weight : List ℚ) (inputs : List (List ℚ)) (maxDepth minItems : Nat) :
    Option Tree :=
  (buildState output weight inputs maxDepth minItems).map treeBuilder.t

/-! ## The tree builder with rounded arithmetic -/

/-- The struct `sumWeight` with `float64` fields. -/
structure sumWeightRounded where
  weightedSum : Flt
  totalWeight : Flt
deriving DecidableEq

namespace sumWeightRounded

/-- The method `Add`: `sw.weightedSum += value * weight; sw.totalWeight += weight`. -/
def Add (sw : sumWeightRounded) (value weight : ℚ) : sumWeightRounded :=
  ⟨Flt.add64 sw.weightedSum (Flt.mul64 (Flt.fin value) (Flt.fin weight)),
    Flt.add64 sw.totalWeight (Flt.fin weight)⟩

/-- The method `Subtract`: `sw.weightedSum -= value * weight; sw.totalWeight -= weight`. -/
def Subtract (sw : sumWeightRounded) (value weight : ℚ) : sumWeightRounded :=
  ⟨Flt.sub64 sw.weightedSum (Flt.mul64 (Flt.fin value) (Flt.fin weight)),
    Flt.sub64 sw.totalWeight (Flt.fin weight)⟩

end sumWeightRounded

/-- The body of the loop of `ComputeSumWeight` at position `i`, in `float64`. -/
def sumStepRounded (tb : treeBuilder) (res : sumWeightRounded) (i : Nat) :
    Option sumWeightRounded :=
  match tb.byRegionIds[i]? with
  | none => none
  | some offset =>
    match tb.output[offset]?, tb.weight[offset]? with
    | some o, some w => some (res.Add o w)
    | _, _ => none

/-- The method `ComputeSumWeight`, in `float64`. -/
def ComputeSumWeightRounded (tb : treeBuilder) (region : offsetRange) :
    Option sumWeightRounded :=
  (List.range' region.begin (region.end_ - region.begin)).foldlM (sumStepRounded tb)
    ⟨Flt.fin 0, Flt.fin 0⟩

/-- The closure `gain` of `FindBestSplitForInput`, in `float64`:
`sw.weightedSum * (sw.weightedSum / sw.totalWeight)`. -/
def gainRounded (sw : sumWeightRounded) : Flt :=
  Flt.mul64 sw.weightedSum (Flt.div64 sw.weightedSum sw.totalWeight)

/-- The variables carried around the scan loop of `FindBestSplitForInput`. -/
structure scanStateRounded where
  spSumWeight : sumWeightRounded
  exSumWeight : sumWeightRounded
  prevValue : Flt
  bestSplit : splitInfo
deriving DecidableEq

/-- One iteration (index `i`) of the scan loop of `FindBestSplitForInput`: the gains and
their comparison in `float64`, the sum `prevValue+1e-6` and the midpoint
`(prevValue + value) / 2` in `float32`. -/
def scanStepRounded (tb : treeBuilder) (inputIdx : Nat) (input : List ℚ) (byValue : List Nat)
    (st : scanStateRounded) (i : Nat) : Option scanStateRounded :=
  match byValue[i]? with
  | none => none
  | some id =>
    match input[id]?, tb.output[id]?, tb.weight[id]? with
    | some value, some output, some weight =>
      let curGain := Flt.add64 (gainRounded st.spSumWeight) (gainRounded st.exSumWeight)
      let sp := st.spSumWeight.Subtract output weight
      let ex := st.exSumWeight.Add output weight
      if Flt.lt (Flt.fin value) (Flt.add32 st.prevValue eps32) then
        some ⟨sp, ex, Flt.fin value, st.bestSplit⟩
      else
        let prevMid := Flt.div32 (Flt.add32 st.prevValue (Flt.fin value)) (Flt.fin 2)
        if i < tb.minItems ∨ ((byValue.length : Int) - (i : Int) < (tb.minItems : Int)) then
          some ⟨sp, ex, Flt.fin value, st.bestSplit⟩
        else if Flt.gt curGain (Flt.add64 st.bestSplit.gain eps64) then
          some ⟨sp, ex, Flt.fin value, ⟨inputIdx, ⟨i, byValue.length⟩, prevMid, curGain⟩⟩
        else
          some ⟨sp, ex, Flt.fin value, st.bestSplit⟩
    | _, _, _ => none

/-- The state of the scan loop of `FindBestSplitForInput`, in rounded arithmetic, before
iteration `i` (for `i = len(byValue)`: when the loop ends). -/
def scanStateAtRounded (tb : treeBuilder) (region : offsetRange) (inputIdx i : Nat) :
    Option scanStateRounded :=
  match ComputeSumWeightRounded tb region, tb.inputs[inputIdx]?,
    tb.byRegionInputs[inputIdx]? with
  | some spSumWeight, some input, some ids =>
    match slice ids region.begin region.end_ with
    | none => none
    | some byValue =>
      (List.range i).foldlM (scanStepRounded tb inputIdx input byValue)
        ⟨spSumWeight, ⟨Flt.fin 0, Flt.fin 0⟩, Flt.ninf, ⟨0, ⟨0, 0⟩, Flt.fin 0, Flt.fin (-1)⟩⟩
  | _, _, _ => none

/-- The method `FindBestSplitForInput` in rounded arithmetic; the value it sends on the
channel is returned. -/
def FindBestSplitForInputRounded (tb : treeBuilder) (region : offsetRange) (inputIdx : Nat) :
    Option splitInfo :=
  match ComputeSumWeightRounded tb region, tb.inputs[inputIdx]?,
    tb.byRegionInputs[inputIdx]? with
  | some spSumWeight, some input, some ids =>
    match slice ids region.begin region.end_ with
    | none => none
    | some byValue =>
      ((List.range byValue.length).foldlM (scanStepRounded tb inputIdx input byValue)
        ⟨spSumWeight, ⟨Flt.fin 0, Flt.fin 0⟩, Flt.ninf,
          ⟨0, ⟨0, 0⟩, Flt.fin 0, Flt.fin (-1)⟩⟩).map scanStateRounded.bestSplit
  | _, _, _ => none

/-- The per-feature results of one region in rounded arithmetic, in feature order. -/
def splitResultsRounded (tb : treeBuilder) (region : offsetRange) : Option (List splitInfo) :=
  mapOpt (FindBestSplitForInputRounded tb region) (List.range tb.inputs.length)

/-- The method `TryToSplitRegion` with the searches in rounded arithmetic. -/
def TryToSplitRegionRounded (tb : treeBuilder) (region : offsetRange) (splitIdx depth : Nat) :
    Option (treeBuilder × Nat) :=
  if depth + 1 > tb.maxDepth ∨ ((region.Size : Int) < 2 * (tb.minItems : Int)) then
    some (tb, 0)
  else
    match splitResultsRounded tb region with
    | none => none
    | some results =>
      match reduceSplits results with
      | none => none
      | some bestSplit =>
        if bestSplit.region.Empty then some (tb, 0)
        else commitSplit tb region splitIdx bestSplit

/-- The finalising branch of `ProcessRegion` in rounded arithmetic: the adjustment is
`float32(sw.weightedSum / sw.totalWeight)`. -/
def finalizeRegionRounded (tb : treeBuilder) (region : offsetRange) (regionIdx depth : Nat) :
    Option treeBuilder :=
  match ComputeSumWeightRounded tb region with
  | none => none
  | some sw =>
    let adj := Flt.to32 (Flt.div64 sw.weightedSum sw.totalWeight)
    let sent := if depth ≤ tb.maxDepth then 2 ^ (tb.maxDepth - depth) else 0
    let call : regionCall :=
      ⟨region, regionIdx, depth, 0, (tb.byRegionIds.drop region.begin).take region.Size,
        some adj⟩
    if regionIdx < tb.t.splits.length then
      match setAt tb.t.splits regionIdx ⟨-1, adj⟩ with
      | none => none
      | some splits =>
        some ⟨tb.output, tb.weight, tb.inputs, tb.maxDepth, tb.minItems, tb.byRegionIds,
          tb.byRegionInputs, ⟨splits, tb.t.adjs⟩, tb.done + sent, tb.calls ++ [call]⟩
    else
      match setAt tb.t.adjs (regionIdx - tb.t.splits.length) adj with
      | none => none
      | some adjs =>
        some ⟨tb.output, tb.weight, tb.inputs, tb.maxDepth, tb.minItems, tb.byRegionIds,
          tb.byRegionInputs, ⟨tb.t.splits, adjs⟩, tb.done + sent, tb.calls ++ [call]⟩

/-- The method `ProcessRegion` in rounded arithmetic, with its two child calls run one after
the other; `fuel` bounds the number of nested calls. -/
def ProcessRegionRounded : Nat → treeBuilder → offsetRange → Nat → Nat → Option treeBuilder
  | 0, _, _, _, _ => none
  | fuel + 1, tb, region, regionIdx, depth =>
    match TryToSplitRegionRounded tb region regionIdx depth with
    | none => none
    | some (tb1, spEnd) =>
      if spEnd ≠ 0 then
        match ProcessRegionRounded fuel (logSplit tb1 region regionIdx depth spEnd) ⟨0, spEnd⟩
            (regionIdx * 2 + 1) (depth + 1) with
        | none => none
        | some tb2 =>
          ProcessRegionRounded fuel tb2 ⟨spEnd, region.end_⟩ (regionIdx * 2 + 2) (depth + 1)
      else finalizeRegionRounded tb1 region regionIdx depth

/-- The reference walk of the evaluator for row `row`: `Walk t inputs row r v` says that the
walk that stands at node `r` ends with the value `v`.  At a node past the splits the value is
the leaf slot `adjs[r - len(splits)]`; at a node whose feature index is `-1` it is the stored
value; otherwise the walk moves to child `2r+2` when the row's value for the feature is
`<=` the threshold and to child `2r+1` when it is not, that is, when it is greater (for a
threshold that is a number or an infinity the two are the same, `Flt.le_eq_false_iff_gt`). -/
inductive Walk (t : Tree) (inputs : List (List ℚ)) (row : Nat) : Nat → Flt → Prop where
  | leaf (r : Nat) (v : Flt) (h : t.splits.length ≤ r)
      (hv : t.adjs[r - t.splits.length]? = some v) : Walk t inputs row r v
  | converted (r : Nat) (sp : split) (h : t.splits[r]? = some sp) (hi : sp.inputIdx = -1) :
      Walk t inputs row r sp.thresh
  | right (r : Nat) (sp : split) (f : Nat) (col : List ℚ) (x : ℚ) (v : Flt)
      (h : t.splits[r]? = some sp) (hi : sp.inputIdx = (f : Int))
      (hc : inputs[f]? = some col) (hx : col[row]? = some x)
      (hle : Flt.le (Flt.fin x) sp.thresh = true)
      (hw : Walk t inputs row (2 * r + 2) v) : Walk t inputs row r v
  | left (r : Nat) (sp : split) (f : Nat) (col : List ℚ) (x : ℚ) (v : Flt)
      (h : t.splits[r]? = some sp) (hi : sp.inputIdx = (f : Int))
      (hc : inputs[f]? = some col) (hx : col[row]? = some x)
      (hle : Flt.le (Flt.fin x) sp.thresh = false)
      (hw : Walk t inputs row (2 * r + 1) v) : Walk t inputs row r v

/-- The sum of `weight[i] * output[i]` over the listed rows. -/
def weightedSumOver (output weight : List ℚ) (rows : List Nat) : ℚ :=
  (rows.map (fun i => output.getD i 0 * weight.getD i 0)).sum

/-- The sum of `weight[i]` over the listed rows. -/
def totalWeightOver (weight : List ℚ) (rows : List Nat) : ℚ :=
  (rows.map (fun i => weight.getD i 0)).sum

/-- The accumulator obtained by direct recomputation over the listed rows: their weighted
sum and their total weight. -/
def directSumWeight (output weight : List ℚ) (rows : List Nat) : sumWeight :=
  ⟨weightedSumOver output weight rows, totalWeightOver weight rows⟩

/-- The sum of `weight[i] * output[i]^2` over the listed rows. -/
def sumSquaresOver (output weight : List ℚ) (rows : List Nat) : ℚ :=
  (rows.map (fun i => weight.getD i 0 * output.getD i 0 ^ 2)).sum

/-- The weighted sum of squared errors of the listed rows about their weighted mean: the sum
of `weight[i] * (output[i] - mean)^2`, the mean being the weighted sum divided by the total
weight. -/
def squaredErrorOver (output weight : List ℚ) (rows : List Nat) : ℚ :=
  (rows.map (fun i => weight.getD i 0 *
    (output.getD i 0 - weightedSumOver output weight rows / totalWeightOver weight rows) ^ 2)).sum

/-- The `float64` accumulation of one row: `Add(output[id], weight[id])`. -/
def addRowRounded (output weight : List ℚ) (sw : sumWeightRounded) (id : Nat) :
    sumWeightRounded :=
  sw.Add (output.getD id 0) (weight.getD id 0)

/-- The accumulator that a `ComputeSumWeight` pass over the listed rows, in this order,
ends with. -/
def accumulateRounded (output weight : List ℚ) (rows : List Nat) : sumWeightRounded :=
  rows.foldl (addRowRounded output weight) ⟨Flt.fin 0, Flt.fin 0⟩

/-- The accumulator that holds the weighted sum and the total weight of the listed rows as
real numbers. -/
def exactSumWeight (output weight : List ℚ) (rows : List Nat) : sumWeightRounded :=
  ⟨Flt.fin (weightedSumOver output weight rows), Flt.fin (totalWeightOver weight rows)⟩

/-- The total gain of the split placed between rows `i - 1` and `i` of `byValue`: the
`float64` gain of the sums over rows `i..n-1` plus that of the sums over rows `0..i-1`. -/
def splitGainRounded (output weight : List ℚ) (byValue : List Nat) (i : Nat) : Flt :=
  Flt.add64 (gainRounded (exactSumWeight output weight (byValue.drop i)))
    (gainRounded (exactSumWeight output weight (byValue.take i)))

/-- The number `q` is a `float64` value: rounding returns it. -/
def Exact64 (q : ℚ) : Prop := round64 q = Flt.fin q

instance (q : ℚ) : Decidable (Exact64 q) := inferInstanceAs (Decidable (round64 q = Flt.fin q))

/-- The weighted sum and the total weight of the listed rows are `float64` values. -/
def SumsExact (output weight : List ℚ) (rows : List Nat) : Prop :=
  Exact64 (weightedSumOver output weight rows) ∧ Exact64 (totalWeightOver weight rows)

instance (output weight : List ℚ) (rows : List Nat) : Decidable (SumsExact output weight rows) :=
  inferInstanceAs (Decidable (_ ∧ _))

/-- The row lists whose sums the two passes of `FindBestSplitForInput` over a region form:
the rows `0..k-1` of the region's slice `regionRows` of `byRegionIds` (the first pass,
`ComputeSumWeight`), the rows `0..k-1` and `k..n-1` of the region's slice `byValue` of the
feature's ordering (the scan), and every single row of it (the products
`output*weight`). -/
def partialRows (regionRows byValue : List Nat) : List (List Nat) :=
  (List.range (regionRows.length + 1)).map (fun k => regionRows.take k) ++
    (List.range (byValue.length + 1)).map (fun k => byValue.take k) ++
    (List.range (byValue.length + 1)).map (fun k => byValue.drop k) ++
    byValue.map (fun id => [id])

/-- Insertion of `x` into the reversed sorted prefix `r`: `x` travels past the elements it
is `lt` than, exactly as the inner loop of `insertionSort` swaps it down. -/
def insDesc {α : Type} (lt : α → α → Bool) (x : α) : List α → List α
  | [] => [x]
  | y :: r => if lt x y then y :: insDesc lt x r else x :: y :: r

/-- The list that `insertionSort` leaves, for elements compared by `lt`. -/
def insSorted {α : Type} (lt : α → α → Bool) (l : List α) : List α :=
  (l.foldl (fun r x => insDesc lt x r) []).reverse

/-- The order in which `offsetsAndValues.Less` compares two (offset, value) pairs. -/
def ltValue (a b : Nat × ℚ) : Bool := decide (a.2 < b.2)

/-- The order in which `sortByRegionInputsStruct.Less` compares two neighbouring ids: an
in-split id goes before an id that is not in the split. -/
def ltInSplit (idIsInSplit : List Bool) (a b : Nat) : Bool :=
  idIsInSplit.getD a false && !idIsInSplit.getD b false

/-- The list `SortOffsetsByValue(arr)` returns (see `SortOffsetsByValue_eq`). -/
def sortedOffsets (arr : List ℚ) : List Nat :=
  (insSorted ltValue ((List.range arr.length).zip arr)).map Prod.fst

/-! ## Predicates and states used by the proofs -/

/-- The fields of the builder that no method changes, and the sizes of the tree arrays. -/
def SameShape (tb tb1 : treeBuilder) : Prop :=
  tb1.output = tb.output ∧ tb1.weight = tb.weight ∧ tb1.inputs = tb.inputs ∧
  tb1.maxDepth = tb.maxDepth ∧ tb1.minItems = tb.minItems ∧
  tb1.t.splits.length = tb.t.splits.length ∧ tb1.t.adjs.length = tb.t.adjs.length

/-- The state of the offsets sort holds the pairs `l`. -/
def HoldsPairs (s : offsetsAndValues) (l : List (Nat × ℚ)) : Prop :=
  s.offsets = l.map Prod.fst ∧ s.values = l.map Prod.snd

/-- The state of the region sort holds the ids `l`, all of them covered by the mask. -/
def HoldsIds (mask : List Bool) (s : sortByRegionInputsStruct) (l : List Nat) : Prop :=
  s.idsInRegion = l ∧ s.idIsInSplit = mask ∧ ∀ id ∈ l, id < mask.length

/-- The builder is well formed for `n` rows: the data columns have `n` entries, the
orderings have `n` entries that are row ids, there is one ordering per feature, and the tree
arrays have their sizes. -/
def BuilderOk (tb : treeBuilder) : Prop :=
  tb.weight.length = tb.output.length ∧
  (∀ col ∈ tb.inputs, col.length = tb.output.length) ∧
  tb.byRegionIds.length = tb.output.length ∧
  (∀ id ∈ tb.byRegionIds, id < tb.output.length) ∧
  tb.byRegionInputs.length = tb.inputs.length ∧
  (∀ arr ∈ tb.byRegionInputs, arr.length = tb.output.length ∧
    ∀ id ∈ arr, id < tb.output.length) ∧
  tb.t.splits.length = 2 ^ tb.maxDepth - 1 ∧ tb.t.adjs.length = 2 ^ tb.maxDepth

/-- The builder state on which `BuildTree` calls `ProcessRegion` for the root region. -/
def rootBuilder (output weight : List ℚ) (inputs : List (List ℚ)) (maxDepth minItems : Nat) :
    treeBuilder :=
  ⟨output, weight, inputs, maxDepth, minItems, List.range output.length,
    inputs.map sortedOffsets,
    ⟨List.replicate (2 ^ maxDepth - 1) ⟨0, Flt.fin 0⟩, List.replicate (2 ^ maxDepth) (Flt.fin 0)⟩,
    0, []⟩

/-- The value `bestSplit` starts from in `FindBestSplitForInput`: `splitInfo{gain: -1}`. -/
def noSplit : splitInfo := ⟨0, ⟨0, 0⟩, Flt.fin 0, Flt.fin (-1)⟩

/-- What `bestSplit` can be during the scan of feature `f`: the initial value, or a
candidate of feature `f` whose gain is above `-1 + 1e-6` (so it is a number or `+Inf`). -/
def GoodBest (f : Nat) (b : splitInfo) : Prop :=
  b = noSplit ∨ (b.inputIdx = f ∧ Flt.lt (Flt.fin (-1 + eps)) b.gain = true)

/-- The gain is a number or `+Inf`. -/
def ProperGain (g : Flt) : Prop := g = Flt.pinf ∨ ∃ q, g = Flt.fin q

/-- The rank of a gain in the order used by the reduction (`+Inf` on top). -/
def gainRank : Flt → WithTop ℚ
  | Flt.fin q => (q : WithTop ℚ)
  | _ => ⊤

/-- The order of the reduction loop: `a` replaces `b` as the best split. -/
def replaces (a b : splitInfo) : Prop :=
  Flt.gt a.gain b.gain = true ∨ (Flt.eq a.gain b.gain = true ∧ a.inputIdx < b.inputIdx)

/-- What the scan loop of `FindBestSplitForInput` has established before iteration `j`:
before the first row nothing was moved to the excluded side and `prevValue` is `-Inf`; later
`prevValue` is the value of the previous row; and `bestSplit` is its initial value or a
candidate `[i+1, n)` found at an earlier position `i+1 >= 1` at which the value is at least
`1e-6` above the value at position `i`, the threshold being the midpoint of the two values,
with at least `minItems` rows on either side. -/
def ScanInv (tb : treeBuilder) (f : Nat) (input : List ℚ) (byValue : List Nat) (j : Nat)
    (st : scanState) : Prop :=
  (j = 0 → st.exSumWeight = ⟨0, 0⟩ ∧ st.prevValue = Flt.ninf) ∧
  (∀ k, j = k + 1 →
    ∃ id x, byValue[k]? = some id ∧ input[id]? = some x ∧ st.prevValue = Flt.fin x) ∧
  (st.bestSplit = noSplit ∨
    ∃ i idp idc x y, st.bestSplit.inputIdx = f ∧
      st.bestSplit.region = ⟨i + 1, byValue.length⟩ ∧
      st.bestSplit.thresh = Flt.fin ((x + y) / 2) ∧
      i + 1 < j ∧ byValue[i]? = some idp ∧ byValue[i + 1]? = some idc ∧
      input[idp]? = some x ∧ input[idc]? = some y ∧ x + eps ≤ y ∧
      tb.minItems ≤ i + 1 ∧ tb.minItems + (i + 1) ≤ byValue.length)

/-- Row `id` is marked in the mask `idIsInSplit`. -/
def inSplit (idIsInSplit : List Bool) (id : Nat) : Bool := idIsInSplit.getD id false

/-- Row `id` is not marked in the mask `idIsInSplit`. -/
def notInSplit (idIsInSplit : List Bool) (id : Nat) : Bool := !idIsInSplit.getD id false

/-- The completion units reported by the finalised regions among the logged calls: a call
that finalised its region at depth `d` (it logged an adjustment) reports
`2^(maxDepth - d)` units. -/
def completionUnits (maxDepth : Nat) (calls : List regionCall) : Nat :=
  ((calls.filter (fun c => c.adj.isSome)).map (fun c => 2 ^ (maxDepth - c.depth))).sum

/-- Node `j` lies in the subtree of node `idx`: it is `idx` itself, or the child `2i+1` or
`2i+2` of a node `i` of that subtree. -/
inductive Below (idx : Nat) : Nat → Prop where
  | self : Below idx idx
  | left (i : Nat) (h : Below idx i) : Below idx (i * 2 + 1)
  | right (i : Nat) (h : Below idx i) : Below idx (i * 2 + 2)

/-- What the scan loop of `FindBestSplitForInput` has established before iteration `j`, in
rounded arithmetic: before the first row nothing was moved to the excluded side and
`prevValue` is `-Inf`; later `prevValue` is the value of the previous row; and `bestSplit` is
its initial value or a candidate `[i+1, n)` found at an earlier position `i+1 >= 1` at which
the value is not below the `float32` sum of the value at position `i` and `1e-6`, the
threshold being the `float32` midpoint of the two values, with at least `minItems` rows on
either side; its gain is a number or `+Inf`. -/
def ScanInvRounded (tb : treeBuilder) (f : Nat) (input : List ℚ) (byValue : List Nat) (j : Nat)
    (st : scanStateRounded) : Prop :=
  (j = 0 → st.exSumWeight = ⟨Flt.fin 0, Flt.fin 0⟩ ∧ st.prevValue = Flt.ninf) ∧
  (∀ k, j = k + 1 →
    ∃ id x, byValue[k]? = some id ∧ input[id]? = some x ∧ st.prevValue = Flt.fin x) ∧
  (st.bestSplit = noSplit ∨
    ∃ i idp idc x y, st.bestSplit.inputIdx = f ∧
      st.bestSplit.region = ⟨i + 1, byValue.length⟩ ∧
      st.bestSplit.thresh = Flt.div32 (Flt.add32 (Flt.fin x) (Flt.fin y)) (Flt.fin 2) ∧
      i + 1 < j ∧ byValue[i]? = some idp ∧ byValue[i + 1]? = some idc ∧
      input[idp]? = some x ∧ input[idc]? = some y ∧
      Flt.lt (Flt.fin y) (Flt.add32 (Flt.fin x) eps32) = false ∧
      tb.minItems ≤ i + 1 ∧ tb.minItems + (i + 1) ≤ byValue.length ∧
      ProperGain st.bestSplit.gain)

/-- What the rounded scan loop has established about its accumulators before iteration `j`
when no operation rounds: `exSumWeight` holds the sums over rows `0..j-1`, `spSumWeight`
those over rows `j..n-1`, and a recorded candidate `[i, n)` carries the gain of the split
placed between rows `i - 1` and `i`. -/
def AccInvRounded (tb : treeBuilder) (byValue : List Nat) (j : Nat)
    (st : scanStateRounded) : Prop :=
  st.exSumWeight = exactSumWeight tb.output tb.weight (byValue.take j) ∧
  st.spSumWeight = exactSumWeight tb.output tb.weight (byValue.drop j) ∧
  (st.bestSplit = noSplit ∨
    ∃ i, i < j ∧ st.bestSplit.region = ⟨i, byValue.length⟩ ∧
      st.bestSplit.gain = splitGainRounded tb.output tb.weight byValue i)

/-! ## Concrete builder states used by the examples -/

/-- The builder at the root of `BuildTree([1,2,3,4,5], [1,1,1,1,1], [[0,0,1,1,1],
[0,0,1,1,1]], 1, 0)`: two features with the same values, whose best splits tie. -/
def tieBuilder : treeBuilder :=
  ⟨[1, 2, 3, 4, 5], [1, 1, 1, 1, 1], [[0, 0, 1, 1, 1], [0, 0, 1, 1, 1]], 1, 0,
    [0, 1, 2, 3, 4], [[0, 1, 2, 3, 4], [0, 1, 2, 3, 4]],
    ⟨[⟨0, Flt.fin 0⟩], [Flt.fin 0, Flt.fin 0]⟩, 0, []⟩

/-- The builder at the root of `BuildTree([1], [1], [], 1, 0)`: one row, no feature. -/
def noFeatureBuilder : treeBuilder :=
  ⟨[1], [1], [], 1, 0, [0], [], ⟨[⟨0, Flt.fin 0⟩], [Flt.fin 0, Flt.fin 0]⟩, 0, []⟩

/-- The builder at the root of `BuildTree([0,2,5], [1,1,0.2], [[0,1,2]], 1, 0)`, the second
tree of `TestWeight`. -/
def weightBuilder : treeBuilder :=
  rootBuilder [0, 2, 5] [1, 1, 1 / 5] [[0, 1, 2]] 1 0

/-- The builder at the root of `BuildTree([9,0,0,0], [1,1,1,1], [[3,1,0,2]], 2, 1)`: one
feature, four rows (in value order: rows 2, 1, 3, 0), a tree of depth 2.  The root splits off
row 0; its in-split child (node 1) holds one row and cannot split, its excluded child
(node 2) can. -/
def deepBuilder : treeBuilder :=
  rootBuilder [9, 0, 0, 0] [1, 1, 1, 1] [[3, 1, 0, 2]] 2 1

/-- The builder state of the `deepBuilder` run when `ProcessRegion` is called for node 2, the
excluded child of the root: the root has split, and its in-split child (node 1) was
processed. -/
def deepBuilderAtNode2 : Option treeBuilder :=
  (TryToSplitRegion deepBuilder ⟨0, 4⟩ 0 0).bind (fun r =>
    ProcessRegion 2 (logSplit r.1 ⟨0, 4⟩ 0 0 r.2) ⟨0, r.2⟩ (0 * 2 + 1) (0 + 1))

/-- The builder state of the `deepBuilder` run when `ProcessRegion` is called for node 5, the
in-split child of node 2: node 2 has split its region `[1, 4)`. -/
def deepBuilderAtNode5 : Option treeBuilder :=
  deepBuilderAtNode2.bind (fun tb2 =>
    (TryToSplitRegion tb2 ⟨1, 4⟩ 2 1).map (fun r => logSplit r.1 ⟨1, 4⟩ 2 1 r.2))

/-- The builder at the root of `BuildTree([9,0,1,0], [1,1,1,1], [[3,1,0,2]], 3, 1)`: one
feature, four rows (in value order: rows 2, 1, 3, 0), a tree of depth 3.  The root splits off
row 0; its in-split child (node 1) holds one row and cannot split, its excluded child
(node 2) can. -/
def unevenBuilder : treeBuilder :=
  rootBuilder [9, 0, 1, 0] [1, 1, 1, 1] [[3, 1, 0, 2]] 3 1

/-- The builder state of the `unevenBuilder` run, in rounded arithmetic, when `ProcessRegion`
is called for node 5, the in-split child of node 2: the root has split, node 1 was
processed, and node 2 has split its region `[1, 4)`. -/
def unevenBuilderAtNode5 : Option treeBuilder :=
  ((TryToSplitRegionRounded unevenBuilder ⟨0, 4⟩ 0 0).bind (fun r =>
    ProcessRegionRounded 3 (logSplit r.1 ⟨0, 4⟩ 0 0 r.2) ⟨0, r.2⟩ (0 * 2 + 1) (0 + 1))).bind
    (fun tb2 => (TryToSplitRegionRounded tb2 ⟨1, 4⟩ 2 1).map
      (fun r => logSplit r.1 ⟨1, 4⟩ 2 1 r.2))

/-- What `bestSplit` can be during the rounded scan of feature `f`: the initial value, or a
candidate of feature `f` whose gain is above `-1`. -/
def GoodBestRounded (f : Nat) (b : splitInfo) : Prop :=
  b = noSplit ∨ (b.inputIdx = f ∧ Flt.lt (Flt.fin (-1)) b.gain = true)

/-! # Theorems -/

/-! ## Basic facts about the slice helpers -/

theorem setAt_eq_some {α : Type} {a : List α} {i : Nat} {v : α} {b : List α}
    (h : setAt a i v = some b) : i < a.length ∧ b = a.set i v := by
  unfold setAt at h
  split at h
  · exact ⟨by assumption, by cases h; rfl⟩
  · cases h

theorem setAt_length {α : Type} {a : List α} {i : Nat} {v : α} {b : List α}
    (h : setAt a i v = some b) : b.length = a.length := by
  rw [(setAt_eq_some h).2, List.length_set]

theorem setAt_of_lt {α : Type} {a : List α} {i : Nat} (v : α) (h : i < a.length) :
    setAt a i v = some (a.set i v) := by
  simp [setAt, h]

theorem SameShape.refl (tb : treeBuilder) : SameShape tb tb :=
  ⟨rfl, rfl, rfl, rfl, rfl, rfl, rfl⟩

theorem SameShape.trans {a b c : treeBuilder} (h1 : SameShape a b) (h2 : SameShape b c) :
    SameShape a c := by
  obtain ⟨a1, a2, a3, a4, a5, a6, a7⟩ := h1
  obtain ⟨b1, b2, b3, b4, b5, b6, b7⟩ := h2
  exact ⟨b1.trans a1, b2.trans a2, b3.trans a3, b4.trans a4, b5.trans a5, b6.trans a6,
    b7.trans a7⟩

/-- Everything `commitSplit` computed on the way to its result. -/
theorem commitSplit_inv {tb : treeBuilder} {region : offsetRange} {splitIdx : Nat}
    {bs : splitInfo} {r : treeBuilder × Nat} (h : commitSplit tb region splitIdx bs = some r) :
    ∃ winner idsInSplit splits idIsInSplit sl0 sl1 sl2 bri,
      tb.byRegionInputs[bs.inputIdx]? = some winner ∧
      slice winner bs.region.begin bs.region.end_ = some idsInSplit ∧
      setAt tb.t.splits splitIdx ⟨(bs.inputIdx : Int), bs.thresh⟩ = some splits ∧
      markInSplit idsInSplit (List.replicate tb.output.length false) = some idIsInSplit ∧
      slice tb.byRegionIds region.begin region.end_ = some sl0 ∧
      moveExcluded idIsInSplit sl0.length sl0 ((sl0.length : Int) - 1) = some sl1 ∧
      moveIncluded idIsInSplit sl1 = some sl2 ∧
      mapOpt (resortInput idIsInSplit region) tb.byRegionInputs = some bri ∧
      r = (⟨tb.output, tb.weight, tb.inputs, tb.maxDepth, tb.minItems,
            splice tb.byRegionIds region.begin sl2, bri, ⟨splits, tb.t.adjs⟩, tb.done,
            tb.calls⟩, bs.region.Size) := by
  unfold commitSplit at h
  cases h1 : tb.byRegionInputs[bs.inputIdx]? with
  | none => simp [h1] at h
  | some winner =>
  cases h2 : slice winner bs.region.begin bs.region.end_ with
  | none => simp [h1, h2] at h
  | some idsInSplit =>
  cases h3 : setAt tb.t.splits splitIdx ⟨(bs.inputIdx : Int), bs.thresh⟩ with
  | none => simp [h1, h2, h3] at h
  | some splits =>
  cases h4 : markInSplit idsInSplit (List.replicate tb.output.length false) with
  | none => simp [h1, h2, h3, h4] at h
  | some idIsInSplit =>
  cases h5 : slice tb.byRegionIds region.begin region.end_ with
  | none => simp [h1, h2, h3, h4, h5] at h
  | some sl0 =>
  cases h6 : moveExcluded idIsInSplit sl0.length sl0 ((sl0.length : Int) - 1) with
  | none => simp [h1, h2, h3, h4, h5, h6] at h
  | some sl1 =>
  cases h7 : moveIncluded idIsInSplit sl1 with
  | none => simp [h1, h2, h3, h4, h5, h6, h7] at h
  | some sl2 =>
  cases h8 : mapOpt (resortInput idIsInSplit region) tb.byRegionInputs with
  | none => simp [h1, h2, h3, h4, h5, h6, h7, h8] at h
  | some bri =>
  simp only [h1, h2, h3, h4, h5, h6, h7, h8, Option.some.injEq] at h
  exact ⟨winner, idsInSplit, splits, idIsInSplit, sl0, sl1, sl2, bri, rfl, h2, rfl, h4, rfl,
    h6, h7, h8, h.symm⟩

theorem commitSplit_shape {tb : treeBuilder} {region : offsetRange} {splitIdx : Nat}
    {bs : splitInfo} {tb1 : treeBuilder} {k : Nat}
    (h : commitSplit tb region splitIdx bs = some (tb1, k)) :
    SameShape tb tb1 ∧ tb1.t.adjs = tb.t.adjs ∧ tb1.done = tb.done ∧ tb1.calls = tb.calls ∧
      k = bs.region.Size := by
  obtain ⟨_, _, splits, _, _, _, _, _, _, _, h3, _, _, _, _, _, hr⟩ := commitSplit_inv h
  simp only [Prod.mk.injEq] at hr
  obtain ⟨h1, h2⟩ := hr
  subst h1
  exact ⟨⟨rfl, rfl, rfl, rfl, rfl, setAt_length h3, rfl⟩, rfl, rfl, rfl, h2⟩

/-- The ways `TryToSplitRegion` returns: the guard or an empty winner (state unchanged,
result `0`), or a committed split of a non-empty winner. -/
theorem TryToSplitRegion_inv {tb : treeBuilder} {region : offsetRange} {splitIdx depth : Nat}
    {r : treeBuilder × Nat} (h : TryToSplitRegion tb region splitIdx depth = some r) :
    r = (tb, 0) ∨
    (depth + 1 ≤ tb.maxDepth ∧ 2 * tb.minItems ≤ region.Size ∧
      ∃ results bs, splitResults tb region = some results ∧ reduceSplits results = some bs ∧
        bs.region.Empty = false ∧ commitSplit tb region splitIdx bs = some r) := by
  unfold TryToSplitRegion at h
  split at h
  · left; cases h; rfl
  · rename_i hg
    cases h1 : splitResults tb region with
    | none => simp [h1] at h
    | some results =>
    cases h2 : reduceSplits results with
    | none => simp [h1, h2] at h
    | some bs =>
    simp only [h1, h2] at h
    split at h
    · left; cases h; rfl
    · rename_i he
      right
      refine ⟨by omega, by omega, results, bs, rfl, h2, by simpa using he, h⟩

theorem TryToSplitRegion_shape {tb : treeBuilder} {region : offsetRange} {splitIdx depth : Nat}
    {tb1 : treeBuilder} {k : Nat} (h : TryToSplitRegion tb region splitIdx depth = some (tb1, k)) :
    SameShape tb tb1 ∧ tb1.t.adjs = tb.t.adjs ∧ tb1.done = tb.done ∧ tb1.calls = tb.calls := by
  rcases TryToSplitRegion_inv h with h | ⟨_, _, _, _, _, _, _, h⟩
  · cases h
    exact ⟨SameShape.refl _, rfl, rfl, rfl⟩
  · obtain ⟨a, b, c, d, _⟩ := commitSplit_shape h
    exact ⟨a, b, c, d⟩

/-- What `finalizeRegion` computed on the way to its result. -/
theorem finalizeRegion_inv {tb : treeBuilder} {region : offsetRange} {regionIdx depth : Nat}
    {tb1 : treeBuilder} (h : finalizeRegion tb region regionIdx depth = some tb1) :
    ∃ sw, ComputeSumWeight tb region = some sw ∧
      SameShape tb tb1 ∧ tb1.byRegionIds = tb.byRegionIds ∧
      tb1.byRegionInputs = tb.byRegionInputs ∧
      tb1.done = tb.done + (if depth ≤ tb.maxDepth then 2 ^ (tb.maxDepth - depth) else 0) ∧
      tb1.calls = tb.calls ++ [⟨region, regionIdx, depth, 0,
        (tb.byRegionIds.drop region.begin).take region.Size,
        some (Flt.div (Flt.fin sw.weightedSum) (Flt.fin sw.totalWeight))⟩] ∧
      ((regionIdx < tb.t.splits.length ∧
          tb1.t = ⟨tb.t.splits.set regionIdx
            ⟨-1, Flt.div (Flt.fin sw.weightedSum) (Flt.fin sw.totalWeight)⟩, tb.t.adjs⟩) ∨
        (tb.t.splits.length ≤ regionIdx ∧ regionIdx - tb.t.splits.length < tb.t.adjs.length ∧
          tb1.t = ⟨tb.t.splits, tb.t.adjs.set (regionIdx - tb.t.splits.length)
            (Flt.div (Flt.fin sw.weightedSum) (Flt.fin sw.totalWeight))⟩)) := by
  unfold finalizeRegion at h
  cases h1 : ComputeSumWeight tb region with
  | none => simp [h1] at h
  | some sw =>
  simp only [h1] at h
  refine ⟨sw, rfl, ?_⟩
  split at h
  · rename_i hlt
    simp only [setAt_of_lt _ hlt, Option.some.injEq] at h
    subst h
    exact ⟨⟨rfl, rfl, rfl, rfl, rfl, by simp, rfl⟩, rfl, rfl, rfl, rfl, Or.inl ⟨hlt, rfl⟩⟩
  · rename_i hge
    cases h2 : setAt tb.t.adjs (regionIdx - tb.t.splits.length)
        (Flt.div (Flt.fin sw.weightedSum) (Flt.fin sw.totalWeight)) with
    | none => simp [h2] at h
    | some adjs =>
    simp only [h2, Option.some.injEq] at h
    subst h
    obtain ⟨h3, h4⟩ := setAt_eq_some h2
    exact ⟨⟨rfl, rfl, rfl, rfl, rfl, rfl, setAt_length h2⟩, rfl, rfl, rfl, rfl,
      Or.inr ⟨by omega, h3, by rw [h4]⟩⟩

theorem finalizeRegion_shape {tb : treeBuilder} {region : offsetRange} {regionIdx depth : Nat}
    {tb1 : treeBuilder} (h : finalizeRegion tb region regionIdx depth = some tb1) :
    SameShape tb tb1 := by
  obtain ⟨_, _, hs, _⟩ := finalizeRegion_inv h
  exact hs

theorem logSplit_shape (tb : treeBuilder) (region : offsetRange) (regionIdx depth spEnd : Nat) :
    SameShape tb (logSplit tb region regionIdx depth spEnd) :=
  ⟨rfl, rfl, rfl, rfl, rfl, rfl, rfl⟩

/-- The two ways a `ProcessRegion` call returns. -/
theorem ProcessRegion_inv {fuel : Nat} {tb : treeBuilder} {region : offsetRange}
    {regionIdx depth : Nat} {tb3 : treeBuilder}
    (h : ProcessRegion (fuel + 1) tb region regionIdx depth = some tb3) :
    ∃ tb1 spEnd, TryToSplitRegion tb region regionIdx depth = some (tb1, spEnd) ∧
      ((spEnd = 0 ∧ finalizeRegion tb1 region regionIdx depth = some tb3) ∨
       (spEnd ≠ 0 ∧ ∃ tb2,
          ProcessRegion fuel (logSplit tb1 region regionIdx depth spEnd) ⟨0, spEnd⟩
            (regionIdx * 2 + 1) (depth + 1) = some tb2 ∧
          ProcessRegion fuel tb2 ⟨spEnd, region.end_⟩ (regionIdx * 2 + 2) (depth + 1)
            = some tb3)) := by
  rw [ProcessRegion] at h
  cases h1 : TryToSplitRegion tb region regionIdx depth with
  | none => simp [h1] at h
  | some r =>
  obtain ⟨tb1, spEnd⟩ := r
  simp only [h1] at h
  refine ⟨tb1, spEnd, rfl, ?_⟩
  split at h
  · rename_i hne
    right
    refine ⟨hne, ?_⟩
    cases h2 : ProcessRegion fuel (logSplit tb1 region regionIdx depth spEnd) ⟨0, spEnd⟩
        (regionIdx * 2 + 1) (depth + 1) with
    | none => simp [h2] at h
    | some tb2 =>
    simp only [h2] at h
    exact ⟨tb2, rfl, h⟩
  · rename_i he
    left
    exact ⟨by simpa using he, h⟩

theorem ProcessRegion_shape : ∀ (fuel : Nat) (tb : treeBuilder) (region : offsetRange)
    (regionIdx depth : Nat) (tb3 : treeBuilder),
    ProcessRegion fuel tb region regionIdx depth = some tb3 → SameShape tb tb3 := by
  intro fuel
  induction fuel with
  | zero => intro tb region regionIdx depth tb3 h; simp [ProcessRegion] at h
  | succ fuel ih =>
    intro tb region regionIdx depth tb3 h
    obtain ⟨tb1, spEnd, h1, h2⟩ := ProcessRegion_inv h
    have s1 := (TryToSplitRegion_shape h1).1
    rcases h2 with ⟨_, hf⟩ | ⟨_, tb2, ha, hb⟩
    · exact s1.trans (finalizeRegion_shape hf)
    · exact (s1.trans (logSplit_shape _ _ _ _ _)).trans ((ih _ _ _ _ _ ha).trans (ih _ _ _ _ _ hb))

/-- What `buildState` computed on the way to its result. -/
theorem buildState_inv {output weight : List ℚ} {inputs : List (List ℚ)}
    {maxDepth minItems : Nat} {tb1 : treeBuilder}
    (h : buildState output weight inputs maxDepth minItems = some tb1) :
    ∃ bri, mapOpt SortOffsetsByValue inputs = some bri ∧
      ProcessRegion (maxDepth + 1)
        ⟨output, weight, inputs, maxDepth, minItems, List.range output.length, bri,
          ⟨List.replicate (2 ^ maxDepth - 1) ⟨0, Flt.fin 0⟩,
            List.replicate (2 ^ maxDepth) (Flt.fin 0)⟩, 0, []⟩
        ⟨0, output.length⟩ 0 0 = some tb1 ∧ 2 ^ maxDepth ≤ tb1.done := by
  unfold buildState at h
  cases h1 : mapOpt SortOffsetsByValue inputs with
  | none => simp [h1] at h
  | some bri =>
  simp only [h1] at h
  cases h2 : ProcessRegion (maxDepth + 1)
        ⟨output, weight, inputs, maxDepth, minItems, List.range output.length, bri,
          ⟨List.replicate (2 ^ maxDepth - 1) ⟨0, Flt.fin 0⟩,
            List.replicate (2 ^ maxDepth) (Flt.fin 0)⟩, 0, []⟩
        ⟨0, output.length⟩ 0 0 with
  | none => simp [h2] at h
  | some tb2 =>
  simp only [h2] at h
  split at h
  · cases h
    exact ⟨bri, rfl, h2, by assumption⟩
  · cases h

theorem BuildTree_eq_some {output weight : List ℚ} {inputs : List (List ℚ)}
    {maxDepth minItems : Nat} {t : Tree}
    (h : BuildTree output weight inputs maxDepth minItems = some t) :
    ∃ tb1, buildState output weight inputs maxDepth minItems = some tb1 ∧ tb1.t = t := by
  unfold BuildTree at h
  cases h1 : buildState output weight inputs maxDepth minItems with
  | none => simp [h1] at h
  | some tb1 => exact ⟨tb1, rfl, by simpa [h1] using h⟩

theorem BuildTree_lengths {output weight : List ℚ} {inputs : List (List ℚ)}
    {maxDepth minItems : Nat} {t : Tree}
    (h : BuildTree output weight inputs maxDepth minItems = some t) :
    t.splits.length = 2 ^ maxDepth - 1 ∧ t.adjs.length = 2 ^ maxDepth := by
  obtain ⟨tb1, h1, rfl⟩ := BuildTree_eq_some h
  obtain ⟨bri, _, h2, _⟩ := buildState_inv h1
  obtain ⟨_, _, _, _, _, h6, h7⟩ := ProcessRegion_shape _ _ _ _ _ _ h2
  simp at h6 h7
  exact ⟨h6, h7⟩

/-! ## The insertion sort computes `insSorted` -/

theorem insDesc_length {α : Type} (lt : α → α → Bool) (x : α) (r : List α) :
    (insDesc lt x r).length = r.length + 1 := by
  induction r with
  | nil => rfl
  | cons y r ih =>
    unfold insDesc
    split <;> simp [ih]

theorem insDesc_perm {α : Type} (lt : α → α → Bool) (x : α) (r : List α) :
    (insDesc lt x r).Perm (x :: r) := by
  induction r with
  | nil => exact List.Perm.refl _
  | cons y r ih =>
    unfold insDesc
    split
    · exact (List.Perm.cons y ih).trans (List.Perm.swap x y r)
    · exact List.Perm.refl _

theorem foldl_insDesc_length {α : Type} (lt : α → α → Bool) (l r : List α) :
    (l.foldl (fun r x => insDesc lt x r) r).length = r.length + l.length := by
  induction l generalizing r with
  | nil => rfl
  | cons x l ih => simp [ih, insDesc_length]; omega

theorem foldl_insDesc_perm {α : Type} (lt : α → α → Bool) (l r : List α) :
    (l.foldl (fun r x => insDesc lt x r) r).Perm (l ++ r) := by
  induction l generalizing r with
  | nil => exact List.Perm.refl _
  | cons x l ih =>
    simp only [List.foldl_cons]
    refine (ih _).trans ?_
    refine (List.Perm.append_left l (insDesc_perm lt x r)).trans ?_
    exact List.perm_middle

theorem insSorted_perm {α : Type} (lt : α → α → Bool) (l : List α) :
    (insSorted lt l).Perm l := by
  unfold insSorted
  refine (List.reverse_perm _).trans ?_
  simpa using foldl_insDesc_perm lt l []

theorem insSorted_length {α : Type} (lt : α → α → Bool) (l : List α) :
    (insSorted lt l).length = l.length :=
  (insSorted_perm lt l).length_eq

/-- The inner loop, started at the element that follows the reversed prefix `r`. -/
theorem insertionInner_spec {σ α : Type} {less : σ → Nat → Nat → Option Bool}
    {swap : σ → Nat → Nat → Option σ} {R : σ → List α → Prop} {lt : α → α → Bool}
    (hless : ∀ s (pre : List α) (y x : α) (post : List α), R s (pre ++ y :: x :: post) →
      less s (pre.length + 1) pre.length = some (lt x y))
    (hswap : ∀ s (pre : List α) (y x : α) (post : List α), R s (pre ++ y :: x :: post) →
      ∃ s1, swap s (pre.length + 1) pre.length = some s1 ∧ R s1 (pre ++ x :: y :: post))
    (r : List α) : ∀ (x : α) (post : List α) (s : σ), R s (r.reverse ++ x :: post) →
      ∃ s1, insertionInner less swap r.length s = some s1 ∧
        R s1 ((insDesc lt x r).reverse ++ post) := by
  induction r with
  | nil =>
    intro x post s hR
    exact ⟨s, rfl, by simpa [insDesc] using hR⟩
  | cons y r ih =>
    intro x post s hR
    have hR1 : R s (r.reverse ++ y :: x :: post) := by
      simpa [List.append_assoc] using hR
    have hl := hless s r.reverse y x post hR1
    rw [List.length_reverse] at hl
    simp only [List.length_cons, insertionInner, hl]
    cases hxy : lt x y with
    | false =>
      refine ⟨s, rfl, ?_⟩
      simpa [insDesc, hxy, List.append_assoc] using hR
    | true =>
      obtain ⟨s1, hs1, hR2⟩ := hswap s r.reverse y x post hR1
      rw [List.length_reverse] at hs1
      simp only [hs1]
      obtain ⟨s2, hs2, hR3⟩ := ih x (y :: post) s1 hR2
      refine ⟨s2, hs2, ?_⟩
      simpa [insDesc, hxy, List.append_assoc] using hR3

/-- The outer loop after `k` rounds: the first `k + 1` elements are sorted. -/
theorem sortSort_prefix {σ α : Type} {less : σ → Nat → Nat → Option Bool}
    {swap : σ → Nat → Nat → Option σ} {R : σ → List α → Prop} {lt : α → α → Bool}
    (hless : ∀ s (pre : List α) (y x : α) (post : List α), R s (pre ++ y :: x :: post) →
      less s (pre.length + 1) pre.length = some (lt x y))
    (hswap : ∀ s (pre : List α) (y x : α) (post : List α), R s (pre ++ y :: x :: post) →
      ∃ s1, swap s (pre.length + 1) pre.length = some s1 ∧ R s1 (pre ++ x :: y :: post))
    (l : List α) (s : σ) (hR : R s l) : ∀ k, k + 1 ≤ l.length →
      ∃ s1, (List.range k).foldlM (fun s k => insertionInner less swap (k + 1) s) s = some s1 ∧
        R s1 (insSorted lt (l.take (k + 1)) ++ l.drop (k + 1)) := by
  intro k
  induction k with
  | zero =>
    intro hk
    refine ⟨s, rfl, ?_⟩
    cases l with
    | nil => simp at hk
    | cons x l => simpa [insSorted, insDesc] using hR
  | succ k ih =>
    intro hk
    obtain ⟨s1, hs1, hR1⟩ := ih (by omega)
    have hlt : k + 1 < l.length := by omega
    have hdrop : l.drop (k + 1) = l[k + 1] :: l.drop (k + 2) := by
      rw [List.drop_eq_getElem_cons hlt]
    have htake : l.take (k + 2) = l.take (k + 1) ++ [l[k + 1]] := by
      rw [List.take_succ, List.getElem?_eq_getElem hlt]; rfl
    unfold insSorted at hR1
    rw [hdrop] at hR1
    obtain ⟨s2, hs2, hR2⟩ := insertionInner_spec hless hswap _ _ _ s1 hR1
    rw [foldl_insDesc_length] at hs2
    simp only [List.length_nil, List.length_take, zero_add] at hs2
    rw [Nat.min_eq_left (by omega)] at hs2
    refine ⟨s2, ?_, ?_⟩
    · rw [List.range_succ, List.foldlM_append, hs1]
      simpa using hs2
    · unfold insSorted
      rw [htake, List.foldl_append]
      simpa using hR2

/-- The whole sort: it never panics and leaves `insSorted` of the initial contents. -/
theorem sortSort_spec {σ α : Type} {less : σ → Nat → Nat → Option Bool}
    {swap : σ → Nat → Nat → Option σ} {R : σ → List α → Prop} {lt : α → α → Bool}
    (hless : ∀ s (pre : List α) (y x : α) (post : List α), R s (pre ++ y :: x :: post) →
      less s (pre.length + 1) pre.length = some (lt x y))
    (hswap : ∀ s (pre : List α) (y x : α) (post : List α), R s (pre ++ y :: x :: post) →
      ∃ s1, swap s (pre.length + 1) pre.length = some s1 ∧ R s1 (pre ++ x :: y :: post))
    (l : List α) (s : σ) (hR : R s l) :
    ∃ s1, sortSort less swap l.length s = some s1 ∧ R s1 (insSorted lt l) := by
  unfold sortSort
  cases l with
  | nil => exact ⟨s, rfl, by simpa [insSorted] using hR⟩
  | cons x l =>
    obtain ⟨s1, hs1, hR1⟩ := sortSort_prefix hless hswap (x :: l) s hR l.length (by simp)
    refine ⟨s1, by simpa using hs1, ?_⟩
    have h1 : (x :: l).take (l.length + 1) = x :: l := List.take_of_length_le (by simp)
    have h2 : (x :: l).drop (l.length + 1) = [] := List.drop_of_length_le (by simp)
    rw [h1, h2, List.append_nil] at hR1
    exact hR1

/-! ## The two sorts of the repository -/

theorem getElemOpt_mid {α : Type} (A : List α) (y : α) (B : List α) :
    (A ++ y :: B)[A.length]? = some y := by
  induction A with
  | nil => simp
  | cons a A ih => simpa using ih

theorem getElemOpt_mid1 {α : Type} (A : List α) (y x : α) (B : List α) :
    (A ++ y :: x :: B)[A.length + 1]? = some x := by
  induction A with
  | nil => simp
  | cons a A ih => simpa using ih

theorem set_mid {α : Type} (A : List α) (y v : α) (B : List α) :
    (A ++ y :: B).set A.length v = A ++ v :: B := by
  induction A with
  | nil => rfl
  | cons a A ih => simp [ih]

theorem set_mid1 {α : Type} (A : List α) (y x v : α) (B : List α) :
    (A ++ y :: x :: B).set (A.length + 1) v = A ++ y :: v :: B := by
  induction A with
  | nil => rfl
  | cons a A ih => simp [ih]

theorem swap_mid {α : Type} (A : List α) (y x : α) (B : List α) :
    ((A ++ y :: x :: B).set (A.length + 1) y).set A.length x = A ++ x :: y :: B := by
  rw [set_mid1, set_mid]

theorem offsetsAndValues_less (s : offsetsAndValues) (pre : List (Nat × ℚ)) (y x : Nat × ℚ)
    (post : List (Nat × ℚ)) (h : HoldsPairs s (pre ++ y :: x :: post)) :
    s.Less (pre.length + 1) pre.length = some (ltValue x y) := by
  obtain ⟨_, hv⟩ := h
  have e : s.values = pre.map Prod.snd ++ y.2 :: x.2 :: post.map Prod.snd := by simp [hv]
  have a := getElemOpt_mid1 (pre.map Prod.snd) y.2 x.2 (post.map Prod.snd)
  have b := getElemOpt_mid (pre.map Prod.snd) y.2 (x.2 :: post.map Prod.snd)
  rw [List.length_map] at a b
  simp [offsetsAndValues.Less, e, a, b, ltValue]

theorem offsetsAndValues_swap (s : offsetsAndValues) (pre : List (Nat × ℚ)) (y x : Nat × ℚ)
    (post : List (Nat × ℚ)) (h : HoldsPairs s (pre ++ y :: x :: post)) :
    ∃ s1, s.Swap (pre.length + 1) pre.length = some s1 ∧
      HoldsPairs s1 (pre ++ x :: y :: post) := by
  obtain ⟨ho, hv⟩ := h
  have e : s.values = pre.map Prod.snd ++ y.2 :: x.2 :: post.map Prod.snd := by simp [hv]
  have e1 : s.offsets = pre.map Prod.fst ++ y.1 :: x.1 :: post.map Prod.fst := by simp [ho]
  have a := getElemOpt_mid1 (pre.map Prod.snd) y.2 x.2 (post.map Prod.snd)
  have b := getElemOpt_mid (pre.map Prod.snd) y.2 (x.2 :: post.map Prod.snd)
  have a1 := getElemOpt_mid1 (pre.map Prod.fst) y.1 x.1 (post.map Prod.fst)
  have b1 := getElemOpt_mid (pre.map Prod.fst) y.1 (x.1 :: post.map Prod.fst)
  have c := swap_mid (pre.map Prod.snd) y.2 x.2 (post.map Prod.snd)
  have c1 := swap_mid (pre.map Prod.fst) y.1 x.1 (post.map Prod.fst)
  rw [List.length_map] at a b a1 b1 c c1
  refine ⟨⟨(s.offsets.set (pre.length + 1) y.1).set pre.length x.1,
    (s.values.set (pre.length + 1) y.2).set pre.length x.2⟩, ?_, ?_⟩
  · simp [offsetsAndValues.Swap, e, e1, a, b, a1, b1]
  · constructor
    · simp only [e1, c1]; simp
    · simp only [e, c]; simp

/-- The result of `SortOffsetsByValue` in closed form. -/
theorem SortOffsetsByValue_eq (arr : List ℚ) :
    SortOffsetsByValue arr =
      some ((insSorted ltValue ((List.range arr.length).zip arr)).map Prod.fst) := by
  have hR : HoldsPairs ⟨List.range arr.length, arr⟩ ((List.range arr.length).zip arr) := by
    constructor
    · simp [List.map_fst_zip]
    · simp [List.map_snd_zip]
  obtain ⟨s1, hs1, hR1⟩ := sortSort_spec offsetsAndValues_less offsetsAndValues_swap _ _ hR
  have hlen : ((List.range arr.length).zip arr).length = arr.length := by simp
  rw [hlen] at hs1
  simp only [SortOffsetsByValue, offsetsAndValues.Len, hs1, Option.map_some']
  rw [hR1.1]

theorem insDesc_pairwise (x : Nat × ℚ) (r : List (Nat × ℚ))
    (h : r.Pairwise (fun a b => b.2 ≤ a.2)) :
    (insDesc ltValue x r).Pairwise (fun a b => b.2 ≤ a.2) := by
  induction r with
  | nil => simp [insDesc]
  | cons y r ih =>
    rw [List.pairwise_cons] at h
    unfold insDesc
    cases hxy : ltValue x y with
    | true =>
      simp only [if_true]
      rw [List.pairwise_cons]
      refine ⟨?_, ih h.2⟩
      intro b hb
      have hb1 := (insDesc_perm ltValue x r).mem_iff.mp hb
      simp only [List.mem_cons] at hb1
      rcases hb1 with rfl | hb1
      · simp only [ltValue, decide_eq_true_eq] at hxy; exact le_of_lt hxy
      · exact h.1 b hb1
    | false =>
      simp only [Bool.false_eq_true, if_false]
      have hyx : y.2 ≤ x.2 := by
        simp only [ltValue, decide_eq_false_iff_not, not_lt] at hxy; exact hxy
      rw [List.pairwise_cons, List.pairwise_cons]
      refine ⟨?_, h⟩
      intro b hb
      simp only [List.mem_cons] at hb
      rcases hb with rfl | hb
      · exact hyx
      · exact le_trans (h.1 b hb) hyx

theorem insSorted_pairwise (l : List (Nat × ℚ)) :
    (insSorted ltValue l).Pairwise (fun a b => a.2 ≤ b.2) := by
  have key : ∀ (l r : List (Nat × ℚ)), r.Pairwise (fun a b => b.2 ≤ a.2) →
      (l.foldl (fun r x => insDesc ltValue x r) r).Pairwise (fun a b => b.2 ≤ a.2) := by
    intro l
    induction l with
    | nil => intro r h; exact h
    | cons x l ih => intro r h; exact ih _ (insDesc_pairwise x r h)
  unfold insSorted
  rw [List.pairwise_reverse]
  exact key l [] List.Pairwise.nil

theorem mem_zip_range {arr : List ℚ} {a : Nat × ℚ}
    (h : a ∈ (List.range arr.length).zip arr) : arr[a.1]? = some a.2 := by
  obtain ⟨k, hk⟩ := List.mem_iff_getElem?.mp h
  rw [List.getElem?_zip_eq_some] at hk
  obtain ⟨h1, h2⟩ := hk
  have hk1 : k < arr.length := by
    by_contra hc
    rw [List.getElem?_eq_none (by simpa using hc)] at h2
    cases h2
  rw [List.getElem?_range hk1] at h1
  cases h1
  exact h2

/-- C9: `SortOffsetsByValue(arr)` returns a permutation of the offsets `0..n-1` along
which the values are non-decreasing: the values at two positions `p < q` of the result
satisfy `arr[r[p]] <= arr[r[q]]`. -/
theorem SortOffsetsByValue_sorted_perm (arr : List ℚ) :
    ∃ r, SortOffsetsByValue arr = some r ∧ r.Perm (List.range arr.length) ∧
      ∀ p q, p < q → q < r.length →
        ∃ i j x y, r[p]? = some i ∧ r[q]? = some j ∧ arr[i]? = some x ∧ arr[j]? = some y ∧
          x ≤ y := by
  refine ⟨_, SortOffsetsByValue_eq arr, ?_, ?_⟩
  · have h := (insSorted_perm ltValue ((List.range arr.length).zip arr)).map Prod.fst
    refine h.trans ?_
    rw [List.map_fst_zip]
    · simp
  · intro p q hpq hq
    rw [List.length_map] at hq
    have hp : p < (insSorted ltValue ((List.range arr.length).zip arr)).length := by omega
    have hs := List.pairwise_iff_getElem.mp
      (insSorted_pairwise ((List.range arr.length).zip arr)) p q hp hq hpq
    have hmem : ∀ a ∈ insSorted ltValue ((List.range arr.length).zip arr),
        arr[a.1]? = some a.2 := fun a ha =>
      mem_zip_range ((insSorted_perm ltValue _).mem_iff.mp ha)
    refine ⟨_, _, _, _, ?_, ?_, hmem _ (List.getElem_mem hp), hmem _ (List.getElem_mem hq), hs⟩
    · rw [List.getElem?_map, List.getElem?_eq_getElem hp]; rfl
    · rw [List.getElem?_map, List.getElem?_eq_getElem hq]; rfl

/-! ## Evaluation -/

theorem mapOpt_cons {α β : Type} (f : α → Option β) (a : α) (l : List α) :
    mapOpt f (a :: l) = (f a).bind (fun b => (mapOpt f l).map (fun bs => b :: bs)) := by
  rw [mapOpt]
  cases f a with
  | none => rfl
  | some b => cases mapOpt f l <;> rfl

theorem mapOpt_append {α β : Type} (f : α → Option β) (l1 l2 : List α) :
    mapOpt f (l1 ++ l2) =
      (mapOpt f l1).bind (fun a => (mapOpt f l2).map (fun b => a ++ b)) := by
  induction l1 with
  | nil => cases h : mapOpt f l2 <;> simp [mapOpt, h]
  | cons a l1 ih =>
    rw [List.cons_append, mapOpt_cons, mapOpt_cons, ih]
    cases f a with
    | none => rfl
    | some b =>
      cases mapOpt f l1 with
      | none => rfl
      | some bs => cases mapOpt f l2 <;> rfl

theorem mapOpt_eq_some_iff {α β : Type} (f : α → Option β) (l : List α) (out : List β) :
    mapOpt f l = some out ↔ List.Forall₂ (fun a b => f a = some b) l out := by
  induction l generalizing out with
  | nil =>
    cases out with
    | nil => simp [mapOpt]
    | cons b out => simp [mapOpt]
  | cons a l ih =>
    cases out with
    | nil =>
      simp only [mapOpt, List.forall₂_nil_right_iff, iff_false]
      cases f a with
      | none => simp
      | some b => cases mapOpt f l <;> simp
    | cons b out =>
      simp only [mapOpt, List.forall₂_cons]
      cases hfa : f a with
      | none => simp
      | some b1 =>
        cases hm : mapOpt f l with
        | none =>
          have := (ih out).not.mp (by simp [hm])
          simp [this]
        | some bs =>
          simp only [Option.some.injEq, List.cons.injEq]
          constructor
          · rintro ⟨rfl, rfl⟩
            exact ⟨rfl, (ih bs).mp hm⟩
          · rintro ⟨rfl, h⟩
            have := (ih out).mpr h
            rw [hm] at this
            cases this
            exact ⟨rfl, rfl⟩

theorem mapOpt_length {α β : Type} {f : α → Option β} {l : List α} {out : List β}
    (h : mapOpt f l = some out) : out.length = l.length :=
  ((mapOpt_eq_some_iff f l out).mp h).length_eq.symm

/-- The output loop of `Eval` computes the rows one after the other. -/
theorem evalLoop_eq (g : Nat → Option Flt) (n : Nat) : ∀ k, k ≤ n →
    (List.range k).foldlM
      (fun output i =>
        match g i with
        | none => none
        | some v => setAt output i v)
      (List.replicate n (Flt.fin 0)) =
    (mapOpt g (List.range k)).map (fun vs => vs ++ List.replicate (n - k) (Flt.fin 0)) := by
  intro k
  induction k with
  | zero => intro _; simp [mapOpt]
  | succ k ih =>
    intro hk
    rw [List.range_succ, List.foldlM_append, ih (by omega), mapOpt_append]
    cases hm : mapOpt g (List.range k) with
    | none => simp
    | some vs =>
      have hl : vs.length = k := by simpa using mapOpt_length hm
      cases hg : g k with
      | none => simp [mapOpt, hg]
      | some v =>
        have e : List.replicate (n - k) (Flt.fin 0) =
            Flt.fin 0 :: List.replicate (n - (k + 1)) (Flt.fin 0) := by
          rw [show n - k = (n - (k + 1)) + 1 by omega, List.replicate_succ]
        have hs := set_mid vs (Flt.fin 0) v (List.replicate (n - (k + 1)) (Flt.fin 0))
        rw [hl] at hs
        simp [mapOpt, hg, setAt, e, hl, hs]

theorem Eval_eq (t : Tree) (inputs : List (List ℚ)) :
    Eval t inputs =
      match inputs[0]? with
      | none => none
      | some col0 =>
        mapOpt (fun i => evalRow t inputs i (t.splits.length + 1) 0) (List.range col0.length) := by
  unfold Eval
  cases inputs[0]? with
  | none => rfl
  | some col0 =>
    simp only
    rw [evalLoop_eq _ _ _ (Nat.le_refl _)]
    cases mapOpt (fun i => evalRow t inputs i (t.splits.length + 1) 0)
      (List.range col0.length) <;> simp

theorem evalRow_walk (t : Tree) (inputs : List (List ℚ)) (i : Nat) :
    ∀ (fuel region : Nat) (v : Flt), evalRow t inputs i fuel region = some v →
      Walk t inputs i region v := by
  intro fuel
  induction fuel with
  | zero => intro region v h; simp [evalRow] at h
  | succ fuel ih =>
    intro region v h
    rw [evalRow] at h
    split at h
    · exact Walk.leaf _ _ (by assumption) h
    · cases hsp : t.splits[region]? with
      | none => simp [hsp] at h
      | some sp =>
        simp only [hsp] at h
        split at h
        · cases h; exact Walk.converted _ _ hsp (by assumption)
        · split at h
          · cases h
          · rename_i hneg
            have hf : sp.inputIdx = (sp.inputIdx.toNat : Int) := by
              rw [Int.toNat_of_nonneg (by omega)]
            cases hc : inputs[sp.inputIdx.toNat]? with
            | none => simp [hc] at h
            | some col =>
              cases hx : col[i]? with
              | none => simp [hc, hx] at h
              | some x =>
                simp only [hc, hx] at h
                cases hle : Flt.le (Flt.fin x) sp.thresh with
                | true =>
                  simp only [hle, if_true] at h
                  exact Walk.right _ sp _ col x v hsp hf hc hx hle (ih _ _ h)
                | false =>
                  simp only [hle, Bool.false_eq_true, if_false] at h
                  exact Walk.left _ sp _ col x v hsp hf hc hx hle (ih _ _ h)

theorem walk_evalRow (t : Tree) (inputs : List (List ℚ)) (i : Nat) (region : Nat) (v : Flt)
    (h : Walk t inputs i region v) :
    ∀ fuel, 1 ≤ fuel → t.splits.length + 1 ≤ fuel + region →
      evalRow t inputs i fuel region = some v := by
  induction h with
  | leaf r v h hv =>
    intro fuel h1f hf
    cases fuel with
    | zero => omega
    | succ fuel => rw [evalRow]; simp [h, hv]
  | converted r sp h hi =>
    intro fuel h1f hf
    have hr : r < t.splits.length := by
      by_contra hn
      rw [List.getElem?_eq_none (by omega)] at h
      cases h
    cases fuel with
    | zero => omega
    | succ fuel => rw [evalRow]; simp [Nat.not_le.mpr hr, h, hi]
  | right r sp f col x v h hi hc hx hle _ ih =>
    intro fuel h1f hf
    have hr : r < t.splits.length := by
      by_contra hn
      rw [List.getElem?_eq_none (by omega)] at h
      cases h
    cases fuel with
    | zero => omega
    | succ fuel =>
      rw [evalRow]
      have h1 : sp.inputIdx ≠ -1 := by omega
      have h2 : ¬ sp.inputIdx < 0 := by omega
      have h3 : sp.inputIdx.toNat = f := by omega
      simp only [Nat.not_le.mpr hr, if_false, h, h1, h2, h3, hc, hx, hle, if_true]
      exact ih fuel (by omega) (by omega)
  | left r sp f col x v h hi hc hx hle _ ih =>
    intro fuel h1f hf
    have hr : r < t.splits.length := by
      by_contra hn
      rw [List.getElem?_eq_none (by omega)] at h
      cases h
    cases fuel with
    | zero => omega
    | succ fuel =>
      rw [evalRow]
      have h1 : sp.inputIdx ≠ -1 := by omega
      have h2 : ¬ sp.inputIdx < 0 := by omega
      have h3 : sp.inputIdx.toNat = f := by omega
      simp only [Nat.not_le.mpr hr, if_false, h, h1, h2, h3, hc, hx, hle, Bool.false_eq_true]
      exact ih fuel (by omega) (by omega)

/-- The inner loop of `Eval` with its `len(splits) + 1` iterations returns `v` exactly
when the reference walk from the root ends with `v`. -/
theorem evalRow_iff_walk (t : Tree) (inputs : List (List ℚ)) (i : Nat) (v : Flt) :
    evalRow t inputs i (t.splits.length + 1) 0 = some v ↔ Walk t inputs i 0 v :=
  ⟨evalRow_walk t inputs i _ _ v, fun h => walk_evalRow t inputs i 0 v h _ (by omega) (by omega)⟩

/-- Against a threshold that is not NaN, "not `<=`" is "greater". -/
theorem Flt.le_eq_false_iff_gt (x : ℚ) (thr : Flt) (h : thr ≠ Flt.nan) :
    Flt.le (Flt.fin x) thr = false ↔ Flt.gt (Flt.fin x) thr = true := by
  cases thr with
  | fin q => simp [Flt.le, Flt.gt, Flt.lt]
  | pinf => simp [Flt.le, Flt.gt, Flt.lt]
  | ninf => simp [Flt.le, Flt.gt, Flt.lt]
  | nan => exact absurd rfl h

/-- C4: `Eval` returns the values of the reference walk.  It returns `out` exactly when
the batch has a first column, `out` has one entry per row of that column, and entry `i` is
the value at which the reference walk of row `i` from node 0 ends (in particular `Eval`
returns whenever every row has a reference walk, and panics otherwise). -/
theorem Eval_reference_walk (t : Tree) (inputs : List (List ℚ)) (out : List Flt) :
    Eval t inputs = some out ↔
      ∃ col0, inputs[0]? = some col0 ∧ out.length = col0.length ∧
        ∀ i, i < col0.length → ∃ v, out[i]? = some v ∧ Walk t inputs i 0 v := by
  rw [Eval_eq]
  cases h0 : inputs[0]? with
  | none => simp
  | some col0 =>
    simp only [Option.some.injEq, exists_eq_left']
    rw [mapOpt_eq_some_iff, List.forall₂_iff_get]
    simp only [List.length_range, List.get_eq_getElem, List.getElem_range]
    constructor
    · rintro ⟨hl, h⟩
      refine ⟨hl.symm, fun i hi => ⟨out[i], ?_, ?_⟩⟩
      · exact List.getElem?_eq_getElem (by omega)
      · exact (evalRow_iff_walk t inputs i _).mp (h i hi (by omega))
    · rintro ⟨hl, h⟩
      refine ⟨hl.symm, fun i hi ho => ?_⟩
      obtain ⟨v, hv, hw⟩ := h i hi
      rw [List.getElem?_eq_getElem ho] at hv
      cases hv
      exact (evalRow_iff_walk t inputs i _).mpr hw

/-! ## ComputeSumWeight -/

theorem sumStep_fold_eq (tb : treeBuilder) : ∀ (n b : Nat) (acc sw : sumWeight),
    (List.range' b n).foldlM (sumStep tb) acc = some sw →
      sw = ⟨acc.weightedSum +
              weightedSumOver tb.output tb.weight ((tb.byRegionIds.drop b).take n),
            acc.totalWeight + totalWeightOver tb.weight ((tb.byRegionIds.drop b).take n)⟩ := by
  intro n
  induction n with
  | zero =>
    intro b acc sw h
    simp only [List.range'_zero, List.foldlM_nil] at h
    cases h
    simp [weightedSumOver, totalWeightOver]
  | succ n ih =>
    intro b acc sw h
    rw [List.range'_succ, List.foldlM_cons] at h
    cases hid : tb.byRegionIds[b]? with
    | none => simp [sumStep, hid] at h
    | some id =>
      cases ho : tb.output[id]? with
      | none => simp [sumStep, hid, ho] at h
      | some o =>
        cases hw : tb.weight[id]? with
        | none => simp [sumStep, hid, ho, hw] at h
        | some w =>
          have hs : sumStep tb acc b = some (acc.Add o w) := by simp [sumStep, hid, ho, hw]
          rw [hs] at h
          simp only [Option.bind_eq_bind, Option.some_bind] at h
          have := ih (b + 1) _ sw h
          have hb : b < tb.byRegionIds.length := by
            by_contra hc
            rw [List.getElem?_eq_none (by omega)] at hid
            cases hid
          have hd : tb.byRegionIds.drop b = id :: tb.byRegionIds.drop (b + 1) := by
            rw [List.drop_eq_getElem_cons hb]
            rw [List.getElem?_eq_getElem hb] at hid
            cases hid
            rfl
          rw [this, hd]
          simp only [List.take_succ_cons, weightedSumOver, totalWeightOver, List.map_cons,
            List.sum_cons, sumWeight.Add, List.getD_eq_getElem?_getD, ho, hw, Option.getD_some]
          congr 1 <;> ring

theorem sumStep_fold_some (tb : treeBuilder) : ∀ (n b : Nat) (acc : sumWeight),
    b + n ≤ tb.byRegionIds.length →
    (∀ id ∈ (tb.byRegionIds.drop b).take n, id < tb.output.length ∧ id < tb.weight.length) →
    ∃ sw, (List.range' b n).foldlM (sumStep tb) acc = some sw := by
  intro n
  induction n with
  | zero => intro b acc _ _; exact ⟨acc, rfl⟩
  | succ n ih =>
    intro b acc hb hv
    have hb1 : b < tb.byRegionIds.length := by omega
    have hd : tb.byRegionIds.drop b = tb.byRegionIds[b] :: tb.byRegionIds.drop (b + 1) :=
      List.drop_eq_getElem_cons hb1
    rw [hd, List.take_succ_cons] at hv
    obtain ⟨h1, h2⟩ := hv _ (List.mem_cons_self _ _)
    have hs : sumStep tb acc b =
        some (acc.Add tb.output[tb.byRegionIds[b]] tb.weight[tb.byRegionIds[b]]) := by
      simp [sumStep, List.getElem?_eq_getElem hb1, List.getElem?_eq_getElem h1,
        List.getElem?_eq_getElem h2]
    rw [List.range'_succ, List.foldlM_cons, hs]
    simp only [Option.bind_eq_bind, Option.some_bind]
    exact ih (b + 1) _ (by omega) (fun id hid => hv id (List.mem_cons_of_mem _ hid))

/-- When `ComputeSumWeight` returns, it returns the weighted sum and the total weight of
the rows that the region's slice of `byRegionIds` holds. -/
theorem ComputeSumWeight_eq {tb : treeBuilder} {region : offsetRange} {sw : sumWeight}
    (h : ComputeSumWeight tb region = some sw) :
    sw = ⟨weightedSumOver tb.output tb.weight
            ((tb.byRegionIds.drop region.begin).take region.Size),
          totalWeightOver tb.weight ((tb.byRegionIds.drop region.begin).take region.Size)⟩ := by
  have := sumStep_fold_eq tb _ _ _ _ h
  simpa [offsetRange.Size] using this

/-- The method `ComputeSumWeight` returns when the region lies inside `byRegionIds` and holds row ids
for which an output and a weight exist. -/
theorem ComputeSumWeight_some {tb : treeBuilder} {region : offsetRange}
    (hb : region.begin ≤ region.end_) (he : region.end_ ≤ tb.byRegionIds.length)
    (hv : ∀ id ∈ (tb.byRegionIds.drop region.begin).take region.Size,
      id < tb.output.length ∧ id < tb.weight.length) :
    ComputeSumWeight tb region = some
      ⟨weightedSumOver tb.output tb.weight
            ((tb.byRegionIds.drop region.begin).take region.Size),
          totalWeightOver tb.weight ((tb.byRegionIds.drop region.begin).take region.Size)⟩ := by
  obtain ⟨sw, h⟩ := sumStep_fold_some tb (region.end_ - region.begin) region.begin ⟨0, 0⟩
    (by omega) hv
  have h1 : ComputeSumWeight tb region = some sw := h
  rw [h1, ComputeSumWeight_eq h1]

/-! ## Trees that stop at the root -/

theorem mapOpt_total {α β : Type} {f : α → Option β} {g : α → β} (h : ∀ a, f a = some (g a))
    (l : List α) : mapOpt f l = some (l.map g) := by
  induction l with
  | nil => rfl
  | cons a l ih => rw [mapOpt_cons, h a, ih]; rfl

/-- The initial orderings never fail to be built. -/
theorem sortInputs_some (inputs : List (List ℚ)) :
    mapOpt SortOffsetsByValue inputs = some (inputs.map (fun arr =>
      (insSorted ltValue ((List.range arr.length).zip arr)).map Prod.fst)) :=
  mapOpt_total SortOffsetsByValue_eq inputs

theorem foldlM_invariant {σ α : Type} {step : σ → α → Option σ} {P : σ → Prop}
    (hstep : ∀ st a st1, P st → step st a = some st1 → P st1) :
    ∀ (l : List α) (init st : σ), P init → l.foldlM step init = some st → P st := by
  intro l
  induction l with
  | nil =>
    intro init st hP h
    simp only [List.foldlM_nil] at h
    cases h
    exact hP
  | cons a l ih =>
    intro init st hP h
    rw [List.foldlM_cons] at h
    cases hs : step init a with
    | none => simp [hs] at h
    | some st1 =>
      simp only [hs, Option.bind_eq_bind, Option.some_bind] at h
      exact ih st1 st (hstep _ _ _ hP hs) h

theorem scanStep_goodBest (tb : treeBuilder) (f : Nat) (input : List ℚ) (byValue : List Nat)
    (st : scanState) (i : Nat) (st1 : scanState) (hg : GoodBest f st.bestSplit)
    (h : scanStep tb f input byValue st i = some st1) : GoodBest f st1.bestSplit := by
  unfold scanStep at h
  cases h1 : byValue[i]? with
  | none => simp [h1] at h
  | some id =>
    cases h2 : input[id]? with
    | none => simp [h1, h2] at h
    | some value =>
      cases h3 : tb.output[id]? with
      | none => simp [h1, h2, h3] at h
      | some o =>
        cases h4 : tb.weight[id]? with
        | none => simp [h1, h2, h3, h4] at h
        | some w =>
          simp only [h1, h2, h3, h4] at h
          split at h
          · cases h; exact hg
          · split at h
            · cases h; exact hg
            · split at h
              · rename_i hgt
                cases h
                right
                refine ⟨rfl, ?_⟩
                simp only
                generalize Flt.add (gain st.spSumWeight) (gain st.exSumWeight) = cur at hgt
                rcases hg with hb | ⟨_, hb⟩
                · rw [hb] at hgt
                  simpa [noSplit, Flt.add, Flt.gt, add_comm] using hgt
                · revert hgt hb
                  cases st.bestSplit.gain <;> cases cur <;>
                    simp [Flt.add, Flt.gt, Flt.lt, eps]
                  intro h1 h2
                  linarith
              · cases h; exact hg

/-- Everything `FindBestSplitForInput` computed on the way to its result. -/
theorem FindBestSplitForInput_inv {tb : treeBuilder} {region : offsetRange} {f : Nat}
    {s : splitInfo} (h : FindBestSplitForInput tb region f = some s) :
    ∃ sp input ids byValue st, ComputeSumWeight tb region = some sp ∧
      tb.inputs[f]? = some input ∧ tb.byRegionInputs[f]? = some ids ∧
      slice ids region.begin region.end_ = some byValue ∧
      (List.range byValue.length).foldlM (scanStep tb f input byValue)
        ⟨sp, ⟨0, 0⟩, Flt.ninf, noSplit⟩ = some st ∧ st.bestSplit = s := by
  unfold FindBestSplitForInput at h
  cases h1 : ComputeSumWeight tb region with
  | none => simp [h1] at h
  | some sp =>
  cases h2 : tb.inputs[f]? with
  | none => simp [h1, h2] at h
  | some input =>
  cases h3 : tb.byRegionInputs[f]? with
  | none => simp [h1, h2, h3] at h
  | some ids =>
  cases h4 : slice ids region.begin region.end_ with
  | none => simp [h1, h2, h3, h4] at h
  | some byValue =>
  cases h5 : (List.range byValue.length).foldlM (scanStep tb f input byValue)
      ⟨sp, ⟨0, 0⟩, Flt.ninf, noSplit⟩ with
  | none =>
    simp only [h1, h2, h3, h4] at h
    rw [show (⟨0, ⟨0, 0⟩, Flt.fin 0, Flt.fin (-1)⟩ : splitInfo) = noSplit from rfl, h5] at h
    cases h
  | some st =>
    simp only [h1, h2, h3, h4] at h
    rw [show (⟨0, ⟨0, 0⟩, Flt.fin 0, Flt.fin (-1)⟩ : splitInfo) = noSplit from rfl, h5] at h
    exact ⟨sp, input, ids, byValue, st, rfl, rfl, rfl, h4, h5, by simpa using h⟩

/-- The result for feature `f` is the initial `bestSplit` or a candidate of feature `f`. -/
theorem FindBestSplitForInput_goodBest {tb : treeBuilder} {region : offsetRange} {f : Nat}
    {s : splitInfo} (h : FindBestSplitForInput tb region f = some s) : GoodBest f s := by
  obtain ⟨sp, input, ids, byValue, st, _, _, _, _, h5, rfl⟩ := FindBestSplitForInput_inv h
  exact foldlM_invariant (P := fun st => GoodBest f st.bestSplit)
    (fun st a st1 hP hs => scanStep_goodBest tb f input byValue st a st1 hP hs)
    _ _ _ (Or.inl rfl) h5

theorem GoodBest.properGain {f : Nat} {b : splitInfo} (h : GoodBest f b) :
    ProperGain b.gain := by
  rcases h with h | ⟨_, h⟩
  · rw [h]; exact Or.inr ⟨-1, rfl⟩
  · revert h
    cases b.gain <;> simp [Flt.lt, ProperGain]

theorem splitResults_mem {tb : treeBuilder} {region : offsetRange}
    {results : List splitInfo} (h : splitResults tb region = some results) :
    ∀ a ∈ results, ∃ f, FindBestSplitForInput tb region f = some a := by
  intro a ha
  have h2 := (mapOpt_eq_some_iff _ _ _).mp h
  obtain ⟨k, hk, hka⟩ := List.getElem_of_mem ha
  have hlen := h2.length_eq
  have := (List.forall₂_iff_get.mp h2).2 k (by omega) hk
  refine ⟨(List.range tb.inputs.length).get ⟨k, by omega⟩, ?_⟩
  rw [this, List.get_eq_getElem, hka]

/-- Two results of one region with the same gain and the same feature index are the same
result. -/
theorem splitResults_key_injective {tb : treeBuilder} {region : offsetRange}
    {results : List splitInfo} (h : splitResults tb region = some results) :
    ∀ a ∈ results, ∀ b ∈ results, Flt.eq a.gain b.gain = true → a.inputIdx = b.inputIdx →
      a = b := by
  intro a ha b hb hgain hidx
  obtain ⟨fa, hfa⟩ := splitResults_mem h a ha
  obtain ⟨fb, hfb⟩ := splitResults_mem h b hb
  rcases FindBestSplitForInput_goodBest hfa with ha1 | ⟨ha1, ha2⟩ <;>
    rcases FindBestSplitForInput_goodBest hfb with hb1 | ⟨hb1, hb2⟩
  · rw [ha1, hb1]
  · exfalso
    rw [ha1] at hgain
    cases hbg : b.gain with
    | fin q =>
      rw [hbg] at hgain hb2
      simp only [noSplit, Flt.eq, Flt.lt, decide_eq_true_eq] at hgain hb2
      subst hgain
      norm_num [eps] at hb2
    | _ => rw [hbg] at hgain; simp [noSplit, Flt.eq] at hgain
  · exfalso
    rw [hb1] at hgain
    cases hag : a.gain with
    | fin q =>
      rw [hag] at hgain ha2
      simp only [noSplit, Flt.eq, Flt.lt, decide_eq_true_eq] at hgain ha2
      subst hgain
      norm_num [eps] at ha2
    | _ => rw [hag] at hgain; simp [noSplit, Flt.eq] at hgain
  · have : fa = fb := by rw [← ha1, ← hb1, hidx]
    subst this
    rw [hfa] at hfb
    exact Option.some.inj hfb

theorem splitResults_properGain {tb : treeBuilder} {region : offsetRange}
    {results : List splitInfo} (h : splitResults tb region = some results) :
    ∀ a ∈ results, ProperGain a.gain := by
  intro a ha
  obtain ⟨f, hf⟩ := splitResults_mem h a ha
  exact (FindBestSplitForInput_goodBest hf).properGain

theorem gt_iff_rank {a b : Flt} (ha : ProperGain a) (hb : ProperGain b) :
    Flt.gt a b = true ↔ gainRank b < gainRank a := by
  rcases ha with rfl | ⟨x, rfl⟩ <;> rcases hb with rfl | ⟨y, rfl⟩ <;>
    simp [Flt.gt, Flt.lt, gainRank]

theorem eq_iff_rank {a b : Flt} (ha : ProperGain a) (hb : ProperGain b) :
    Flt.eq a b = true ↔ gainRank a = gainRank b := by
  rcases ha with rfl | ⟨x, rfl⟩ <;> rcases hb with rfl | ⟨y, rfl⟩ <;>
    simp [Flt.eq, gainRank]

theorem le_iff_rank {a b : Flt} (ha : ProperGain a) (hb : ProperGain b) :
    Flt.le a b = true ↔ gainRank a ≤ gainRank b := by
  rcases ha with rfl | ⟨x, rfl⟩ <;> rcases hb with rfl | ⟨y, rfl⟩ <;>
    simp [Flt.le, gainRank]

theorem betterSplit_pos {b si : splitInfo} (h : replaces si b) :
    betterSplit (some b) si = some si := by
  unfold replaces at h
  simp only [betterSplit]
  rw [if_pos h]

theorem betterSplit_neg {b si : splitInfo} (h : ¬ replaces si b) :
    betterSplit (some b) si = some b := by
  unfold replaces at h
  simp only [betterSplit]
  rw [if_neg h]

/-- The reduction loop, started from a best split `b`, ends on an element that no
element replaces. -/
theorem foldl_betterSplit_max (l : List splitInfo) :
    ∀ (b : splitInfo), ProperGain b.gain → (∀ s ∈ l, ProperGain s.gain) →
      ∃ w, l.foldl betterSplit (some b) = some w ∧ (w = b ∨ w ∈ l) ∧
        ¬ replaces b w ∧ ∀ s ∈ l, ¬ replaces s w := by
  induction l with
  | nil =>
    intro b hb _
    refine ⟨b, rfl, Or.inl rfl, ?_, by simp⟩
    rintro (h | ⟨_, h⟩)
    · rw [gt_iff_rank hb hb] at h; exact lt_irrefl _ h
    · exact lt_irrefl _ h
  | cons x l ih =>
    intro b hb hl
    have hx := hl x (List.mem_cons_self _ _)
    have hl1 : ∀ s ∈ l, ProperGain s.gain := fun s hs => hl s (List.mem_cons_of_mem _ hs)
    rw [List.foldl_cons]
    by_cases hr : replaces x b
    · rw [betterSplit_pos hr]
      obtain ⟨w, hw, hmem, hxw, hrest⟩ := ih x hx hl1
      have hwp : ProperGain w.gain := by
        rcases hmem with rfl | hmem
        · exact hx
        · exact hl1 w hmem
      refine ⟨w, hw, Or.inr ?_, ?_, ?_⟩
      · rcases hmem with rfl | hmem
        · exact List.mem_cons_self _ _
        · exact List.mem_cons_of_mem _ hmem
      · intro hbw
        apply hxw
        unfold replaces at hr hbw ⊢
        rw [gt_iff_rank hx hb, eq_iff_rank hx hb] at hr
        rw [gt_iff_rank hb hwp, eq_iff_rank hb hwp] at hbw
        rw [gt_iff_rank hx hwp, eq_iff_rank hx hwp]
        rcases hr with hr | ⟨hr1, hr2⟩ <;> rcases hbw with hbw | ⟨hb1, hb2⟩
        · left; exact lt_trans hbw hr
        · left; rw [← hb1]; exact hr
        · left; rw [hr1]; exact hbw
        · right; exact ⟨hr1.trans hb1, lt_trans hr2 hb2⟩
      · intro s hs
        simp only [List.mem_cons] at hs
        rcases hs with rfl | hs
        · exact hxw
        · exact hrest s hs
    · rw [betterSplit_neg hr]
      obtain ⟨w, hw, hmem, hbw, hrest⟩ := ih b hb hl1
      have hwp : ProperGain w.gain := by
        rcases hmem with rfl | hmem
        · exact hb
        · exact hl1 w hmem
      refine ⟨w, hw, ?_, hbw, ?_⟩
      · rcases hmem with rfl | hmem
        · exact Or.inl rfl
        · exact Or.inr (List.mem_cons_of_mem _ hmem)
      · intro s hs
        simp only [List.mem_cons] at hs
        rcases hs with rfl | hs
        · intro hsw
          rcases hmem with rfl | hmem
          · exact hr hsw
          · apply hr
            have hwb := hrest w hmem
            unfold replaces at hsw hbw hwb ⊢
            rw [gt_iff_rank hx hwp, eq_iff_rank hx hwp] at hsw
            rw [gt_iff_rank hb hwp, eq_iff_rank hb hwp] at hbw
            rw [gt_iff_rank hx hb, eq_iff_rank hx hb]
            push_neg at hbw
            rcases lt_or_eq_of_le hbw.1 with h1 | h1
            · rcases hsw with hsw | ⟨hs1, hs2⟩
              · left; exact lt_trans h1 hsw
              · left; rw [hs1]; exact h1
            · have h2 := hbw.2 h1
              rcases hsw with hsw | ⟨hs1, hs2⟩
              · left; rw [h1]; exact hsw
              · right; exact ⟨hs1.trans h1.symm, by omega⟩
        · exact hrest s hs

/-- The reduction ends on an element of the list that no element of the list replaces. -/
theorem reduceSplits_max (l : List splitInfo) (hl : ∀ s ∈ l, ProperGain s.gain) :
    (l = [] ∧ reduceSplits l = none) ∨
      ∃ w, reduceSplits l = some w ∧ w ∈ l ∧ ∀ s ∈ l, ¬ replaces s w := by
  cases l with
  | nil => exact Or.inl ⟨rfl, rfl⟩
  | cons x l =>
    right
    have hx := hl x (List.mem_cons_self _ _)
    obtain ⟨w, hw, hmem, hxw, hrest⟩ :=
      foldl_betterSplit_max l x hx (fun s hs => hl s (List.mem_cons_of_mem _ hs))
    refine ⟨w, hw, ?_, ?_⟩
    · rcases hmem with rfl | hmem
      · exact List.mem_cons_self _ _
      · exact List.mem_cons_of_mem _ hmem
    · intro s hs
      simp only [List.mem_cons] at hs
      rcases hs with rfl | hs
      · exact hxw
      · exact hrest s hs

/-- The reduction does not depend on the order of arrival, for results whose gains are
numbers or `+Inf` and among which a gain and a feature index determine the result: every
permutation `arrival` of the results gives the same value; when there is a result at all a
winner is selected; the winner is one of the results, it has the greatest gain, and among
the results with exactly the greatest gain it has the lowest feature index. -/
theorem reduceSplits_perm (results arrival : List splitInfo)
    (hg : ∀ s ∈ results, ProperGain s.gain)
    (hk : ∀ a ∈ results, ∀ b ∈ results, Flt.eq a.gain b.gain = true →
      a.inputIdx = b.inputIdx → a = b)
    (hp : arrival.Perm results) :
    reduceSplits arrival = reduceSplits results ∧
      (results ≠ [] → ∃ w, reduceSplits arrival = some w ∧ reduceSplits results = some w) ∧
      ∀ w, reduceSplits arrival = some w →
        w ∈ results ∧ (∀ s ∈ results, Flt.le s.gain w.gain = true) ∧
          ∀ s ∈ results, Flt.eq s.gain w.gain = true → w.inputIdx ≤ s.inputIdx := by
  have hga : ∀ s ∈ arrival, ProperGain s.gain := fun s hs => hg s (hp.mem_iff.mp hs)
  have key : ∀ w, reduceSplits arrival = some w →
      w ∈ results ∧ ∀ s ∈ results, ¬ replaces s w := by
    intro w hw
    rcases reduceSplits_max arrival hga with ⟨_, hn⟩ | ⟨w1, hw1, hmem, hmax⟩
    · rw [hn] at hw; cases hw
    · rw [hw1] at hw
      cases hw
      exact ⟨hp.mem_iff.mp hmem, fun s hs => hmax s (hp.mem_iff.mpr hs)⟩
  have heq : reduceSplits arrival = reduceSplits results := ?_
  refine ⟨heq, ?_, ?_⟩
  rotate_left 2
  · rcases reduceSplits_max results hg with ⟨hnil, hn⟩ | ⟨w, hw, hmem, hmax⟩
    · subst hnil
      rw [List.Perm.eq_nil hp]
    · rcases reduceSplits_max arrival hga with ⟨hnil, _⟩ | ⟨w1, hw1, hmem1, hmax1⟩
      · subst hnil
        rw [List.Perm.eq_nil hp.symm] at hmem
        cases hmem
      · rw [hw, hw1]
        have hmem1r := hp.mem_iff.mp hmem1
        have h1 := hmax w1 hmem1r
        have h2 := hmax1 w (hp.mem_iff.mpr hmem)
        unfold replaces at h1 h2
        rw [gt_iff_rank (hg _ hmem1r) (hg _ hmem), eq_iff_rank (hg _ hmem1r) (hg _ hmem)] at h1
        rw [gt_iff_rank (hg _ hmem) (hg _ hmem1r), eq_iff_rank (hg _ hmem) (hg _ hmem1r)] at h2
        push_neg at h1 h2
        have hr : gainRank w1.gain = gainRank w.gain := le_antisymm h1.1 h2.1
        have hi : w1.inputIdx = w.inputIdx := le_antisymm (h2.2 hr.symm) (h1.2 hr)
        rw [hk w1 hmem1r w hmem
          ((eq_iff_rank (hg _ hmem1r) (hg _ hmem)).mpr hr) hi]
  · intro hne
    rcases reduceSplits_max results hg with ⟨hnil, _⟩ | ⟨w, hw, _, _⟩
    · exact absurd hnil hne
    · exact ⟨w, by rw [heq, hw], hw⟩
  · intro w hw
    obtain ⟨hmem, hmax⟩ := key w hw
    refine ⟨hmem, ?_, ?_⟩
    · intro s hs
      have h1 := hmax s hs
      unfold replaces at h1
      rw [gt_iff_rank (hg _ hs) (hg _ hmem)] at h1
      push_neg at h1
      exact (le_iff_rank (hg _ hs) (hg _ hmem)).mpr h1.1
    · intro s hs he
      have h1 := hmax s hs
      unfold replaces at h1
      push_neg at h1
      exact h1.2 he

/-- C8 fails when there is no feature: for one row, `maxDepth = 1` and `minItems = 0` the
guard of `TryToSplitRegion` lets the root region through, no result is received, `bestSplit`
is still nil when `bestSplit.region` is read, and the call panics instead of returning 0; so
does `BuildTree`. -/
theorem TryToSplitRegion_no_feature_panics :
    splitResults noFeatureBuilder ⟨0, 1⟩ = some [] ∧
      TryToSplitRegion noFeatureBuilder ⟨0, 1⟩ 0 0 = none ∧
      BuildTree [1] [1] [] 1 0 = none := by
  decide!

/-- C5 fails at depth 2: for `output = [0,1,5]`, unit weights, the one feature `[0,1,2]`,
`maxDepth = 2` and `minItems = 1`, `Eval` on the training inputs returns `5` for row 1,
while the only region the builder finalised with row 1 in it (node 6, rows 0 and 1) got the
adjustment `1/2`. -/
theorem BuildTree_depth_two_misroutes :
    (buildState [0, 1, 5] [1, 1, 1] [[0, 1, 2]] 2 1).bind (fun tb =>
      (Eval tb.t [[0, 1, 2]]).map (fun out =>
        (out, (tb.calls.filter (fun c => decide (c.spEnd = 0) && c.ids.contains 1)).map
          (fun c => (c.regionIdx, c.ids, c.adj))))) =
      some ([Flt.fin (1 / 2), Flt.fin 5, Flt.fin 5],
        [(6, [0, 1], some (Flt.fin (1 / 2)))]) := by
  decide!

/-! ## The scan loop of FindBestSplitForInput -/

theorem foldlM_range_invariant {σ : Type} {step : σ → Nat → Option σ} {P : Nat → σ → Prop}
    (n : Nat) (hstep : ∀ j st st1, j < n → P j st → step st j = some st1 → P (j + 1) st1)
    (init : σ) (h0 : P 0 init) :
    ∀ m, m ≤ n → ∀ st, (List.range m).foldlM step init = some st → P m st := by
  intro m
  induction m with
  | zero =>
    intro _ st h
    simp only [List.range_zero, List.foldlM_nil] at h
    cases h
    exact h0
  | succ m ih =>
    intro hm st h
    rw [List.range_succ, List.foldlM_append] at h
    cases h1 : (List.range m).foldlM step init with
    | none => simp [h1] at h
    | some st0 =>
      simp only [h1, Option.bind_eq_bind, Option.some_bind, List.foldlM_cons,
        List.foldlM_nil] at h
      cases h2 : step st0 m with
      | none => simp [h2] at h
      | some st1 =>
        simp only [h2, Option.some_bind] at h
        have h3 : st1 = st := Option.some.inj h
        rw [← h3]
        exact hstep m st0 st1 (by omega) (ih (by omega) st0 h1) h2

theorem gain_zero : gain ⟨0, 0⟩ = Flt.nan := by
  simp [gain, Flt.div, Flt.mul]

theorem Flt.add_nan (a : Flt) : Flt.add a Flt.nan = Flt.nan := by
  cases a <;> rfl

theorem Flt.gt_nan (a : Flt) : Flt.gt Flt.nan a = false := by
  cases a <;> rfl

theorem scanStep_inv (tb : treeBuilder) (f : Nat) (input : List ℚ) (byValue : List Nat)
    (j : Nat) (st st1 : scanState) (_hj : j < byValue.length)
    (hinv : ScanInv tb f input byValue j st)
    (h : scanStep tb f input byValue st j = some st1) :
    ScanInv tb f input byValue (j + 1) st1 := by
  obtain ⟨h0, hprev, hbest⟩ := hinv
  unfold scanStep at h
  cases h1 : byValue[j]? with
  | none => simp [h1] at h
  | some id =>
    cases h2 : input[id]? with
    | none => simp [h1, h2] at h
    | some value =>
      cases h3 : tb.output[id]? with
      | none => simp [h1, h2, h3] at h
      | some o =>
        cases h4 : tb.weight[id]? with
        | none => simp [h1, h2, h3, h4] at h
        | some w =>
          simp only [h1, h2, h3, h4] at h
          have hkeep : ∀ s : scanState, s.prevValue = Flt.fin value →
              s.bestSplit = st.bestSplit → ScanInv tb f input byValue (j + 1) s := by
            intro s hp hb
            refine ⟨by omega, ?_, ?_⟩
            · intro k hk
              have : k = j := by omega
              subst this
              exact ⟨id, value, h1, h2, hp⟩
            · rw [hb]
              rcases hbest with hb1 | ⟨i, idp, idc, x, y, a1, a2, a3, a4, a5⟩
              · exact Or.inl hb1
              · exact Or.inr ⟨i, idp, idc, x, y, a1, a2, a3, by omega, a5⟩
          split at h
          · cases h; exact hkeep _ rfl rfl
          · rename_i hlt
            split at h
            · cases h; exact hkeep _ rfl rfl
            · rename_i hmin
              split at h
              · rename_i hgt
                cases h
                cases j with
                | zero =>
                  exfalso
                  rw [(h0 rfl).1, gain_zero, Flt.add_nan, Flt.gt_nan] at hgt
                  cases hgt
                | succ k =>
                  obtain ⟨idp, x, hk1, hk2, hk3⟩ := hprev k rfl
                  refine ⟨by omega, ?_, ?_⟩
                  · intro k1 hk
                    have : k1 = k + 1 := by omega
                    subst this
                    exact ⟨id, value, h1, h2, rfl⟩
                  · right
                    have hxy : x + eps ≤ value := by
                      rw [hk3] at hlt
                      simpa [Flt.add, Flt.lt] using hlt
                    refine ⟨k, idp, id, x, value, rfl, rfl, ?_, by omega, hk1, h1, hk2, h2,
                      hxy, ?_, ?_⟩
                    · simp [hk3, Flt.add, Flt.div]
                    · omega
                    · omega
              · cases h; exact hkeep _ rfl rfl

/-- The result of `FindBestSplitForInput` satisfies the scan invariant at the end of the
region. -/
theorem FindBestSplitForInput_scanInv {tb : treeBuilder} {region : offsetRange} {f : Nat}
    {s : splitInfo} (h : FindBestSplitForInput tb region f = some s) :
    ∃ input ids byValue st, tb.inputs[f]? = some input ∧ tb.byRegionInputs[f]? = some ids ∧
      slice ids region.begin region.end_ = some byValue ∧ st.bestSplit = s ∧
      ScanInv tb f input byValue byValue.length st := by
  obtain ⟨sp, input, ids, byValue, st, _, h2, h3, h4, h5, h6⟩ := FindBestSplitForInput_inv h
  refine ⟨input, ids, byValue, st, h2, h3, h4, h6, ?_⟩
  exact foldlM_range_invariant (P := ScanInv tb f input byValue) byValue.length
    (fun j st st1 hj hP hs => scanStep_inv tb f input byValue j st st1 hj hP hs)
    _ ⟨fun _ => ⟨rfl, rfl⟩, fun k hk => by omega, Or.inl rfl⟩ _ (Nat.le_refl _) st h5

/-! ## The re-sorting loops of TryToSplitRegion -/

theorem markInSplit_cons (id : Nat) (ids : List Nat) (m0 : List Bool) :
    markInSplit (id :: ids) m0 = (setAt m0 id true).bind (fun m => markInSplit ids m) := by
  simp [markInSplit, List.foldlM_cons]

/-- When the marking loop returns, every listed id is in range and the mask holds the old
marks and the listed ids. -/
theorem markInSplit_spec : ∀ (ids : List Nat) (m0 m1 : List Bool),
    markInSplit ids m0 = some m1 →
      (∀ id ∈ ids, id < m0.length) ∧ m1.length = m0.length ∧
        ∀ j, inSplit m1 j = (inSplit m0 j || decide (j ∈ ids)) := by
  intro ids
  induction ids with
  | nil =>
    intro m0 m1 h
    simp only [markInSplit, List.foldlM_nil] at h
    cases h
    simp
  | cons id ids ih =>
    intro m0 m1 h
    rw [markInSplit_cons] at h
    cases hs : setAt m0 id true with
    | none => simp [hs] at h
    | some m =>
      simp only [hs, Option.some_bind] at h
      obtain ⟨hlt, hm⟩ := setAt_eq_some hs
      obtain ⟨h1, h2, h3⟩ := ih m m1 h
      have hml : m.length = m0.length := setAt_length hs
      refine ⟨?_, by omega, ?_⟩
      · intro x hx
        simp only [List.mem_cons] at hx
        rcases hx with rfl | hx
        · exact hlt
        · rw [← hml]; exact h1 x hx
      · intro j
        rw [h3 j]
        have : inSplit m j = (inSplit m0 j || decide (j = id)) := by
          simp only [inSplit, hm, List.getD_eq_getElem?_getD, List.getElem?_set]
          by_cases hj : id = j
          · subst hj; simp [hlt]
          · have hj1 : ¬ j = id := fun h => hj h.symm
            simp [hj, hj1]
        rw [this]
        simp only [List.mem_cons, Bool.or_assoc, Bool.decide_or]

theorem markInSplit_some : ∀ (ids : List Nat) (m0 : List Bool),
    (∀ id ∈ ids, id < m0.length) → ∃ m1, markInSplit ids m0 = some m1 := by
  intro ids
  induction ids with
  | nil => intro m0 _; exact ⟨m0, rfl⟩
  | cons id ids ih =>
    intro m0 h
    rw [markInSplit_cons, setAt_of_lt _ (h id (List.mem_cons_self _ _))]
    simp only [Option.some_bind]
    exact ih _ (fun x hx => by
      rw [List.length_set]; exact h x (List.mem_cons_of_mem _ hx))

theorem getElem?_of_inSplit {m : List Bool} {id : Nat} (h : id < m.length) :
    m[id]? = some (inSplit m id) := by
  simp [inSplit, List.getD_eq_getElem?_getD, List.getElem?_eq_getElem h]

/-- The first loop in the middle of its run: the rows of `pre` are still to be visited,
`exIdx` is the last position of `mid`, and `post` holds the rows already moved. -/
theorem moveExcluded_mid (mask : List Bool) : ∀ (pre mid post : List Nat),
    (∀ id ∈ pre, id < mask.length) →
    moveExcluded mask pre.length (pre ++ mid ++ post)
        (((pre.length + mid.length : Nat) : Int) - 1) =
      some ((pre ++ mid).take
          (pre.length + mid.length - (pre.filter (notInSplit mask)).length) ++
        pre.filter (notInSplit mask) ++ post) := by
  intro pre
  induction pre using List.reverseRecOn with
  | nil =>
    intro mid post _
    simp [moveExcluded]
  | append_singleton pre x ih =>
    intro mid post hv
    have hx : x < mask.length := hv x (by simp)
    have hv1 : ∀ id ∈ pre, id < mask.length := fun id hid => hv id (by simp [hid])
    have hget : (pre ++ [x] ++ mid ++ post)[pre.length]? = some x := by
      have := getElemOpt_mid pre x (mid ++ post)
      simpa [List.append_assoc] using this
    rw [List.length_append, List.length_singleton, moveExcluded, hget]
    simp only [getElem?_of_inSplit hx]
    have hc : (pre.filter (notInSplit mask)).length ≤ pre.length := List.length_filter_le _ _
    cases hb : inSplit mask x with
    | true =>
      simp only
      have hn : notInSplit mask x = false := by simp [notInSplit, inSplit] at hb ⊢; exact hb
      have h1 := ih ([x] ++ mid) post hv1
      simp only [List.length_append, List.length_singleton, ← List.append_assoc] at h1
      rw [show pre.length + 1 + mid.length = pre.length + (1 + mid.length) by omega, h1]
      simp [List.filter_append, hn]
    | false =>
      simp only
      have hn : notInSplit mask x = true := by simp [notInSplit, inSplit] at hb ⊢; exact hb
      obtain ⟨M, z, hM⟩ : ∃ M z, [x] ++ mid = M ++ [z] := by
        rcases List.eq_nil_or_concat ([x] ++ mid) with h | ⟨M, z, h⟩
        · simp at h
        · exact ⟨M, z, by simpa using h⟩
      have hMl : M.length = mid.length := by
        have := congrArg List.length hM
        simp at this
        omega
      have hneg : ¬ (((pre.length + 1 + mid.length : Nat) : Int) - 1 < 0) := by omega
      have hnat : (((pre.length + 1 + mid.length : Nat) : Int) - 1).toNat =
          (pre ++ M).length := by
        rw [List.length_append, hMl]; omega
      have hsl : pre ++ [x] ++ mid ++ post = (pre ++ M) ++ z :: post := by
        rw [List.append_assoc pre, hM]; simp
      rw [if_neg hneg, hnat, hsl, setAt_of_lt _ (by simp), set_mid]
      simp only
      have hcast : (((pre.length + 1 + mid.length : Nat) : Int) - 1 - 1) =
          (((pre.length + M.length : Nat) : Int) - 1) := by
        rw [hMl]; omega
      have h1 := ih M (x :: post) hv1
      rw [hcast, show pre ++ M ++ x :: post = pre ++ M ++ (x :: post) from rfl, h1]
      have e1 : pre ++ [x] ++ mid = (pre ++ M) ++ [z] := by
        rw [List.append_assoc pre, hM]; simp
      have hk : pre.length + 1 + mid.length - ((pre.filter (notInSplit mask)).length + 1) =
          pre.length + M.length - (pre.filter (notInSplit mask)).length := by omega
      have htk : (pre ++ [x] ++ mid).take
            (pre.length + M.length - (pre.filter (notInSplit mask)).length) =
          (pre ++ M).take (pre.length + M.length - (pre.filter (notInSplit mask)).length) := by
        rw [e1]
        exact List.take_append_of_le_length (by rw [List.length_append]; omega)
      simp only [List.filter_append, List.filter_cons, hn, if_true, List.filter_nil,
        List.length_append, List.length_singleton, List.length_nil, Nat.add_zero]
      rw [hk, htk]
      simp

/-- The first loop of the re-sorting: the not-in-split rows are moved, in order, to the end
of the slice; the positions before them keep what they held. -/
theorem moveExcluded_spec (mask : List Bool) (sl : List Nat)
    (hv : ∀ id ∈ sl, id < mask.length) :
    moveExcluded mask sl.length sl ((sl.length : Int) - 1) =
      some (sl.take (sl.length - (sl.filter (notInSplit mask)).length) ++
        sl.filter (notInSplit mask)) := by
  have := moveExcluded_mid mask sl [] [] hv
  simpa using this

theorem moveIncluded_upTo (mask : List Bool) (sl : List Nat) : ∀ j, j ≤ mask.length →
    ((List.range j).filter (inSplit mask)).length ≤ sl.length →
    (List.range j).foldlM (includeStep mask) (sl, 0) =
      some ((List.range j).filter (inSplit mask) ++
          sl.drop ((List.range j).filter (inSplit mask)).length,
        ((List.range j).filter (inSplit mask)).length) := by
  intro j
  induction j with
  | zero => intro _ _; simp
  | succ j ih =>
    intro hj hc
    have hfil : (List.range (j + 1)).filter (inSplit mask) =
        (List.range j).filter (inSplit mask) ++ (if inSplit mask j then [j] else []) := by
      rw [List.range_succ, List.filter_append]
      by_cases hb : inSplit mask j <;> simp [hb]
    rw [hfil] at hc ⊢
    have hc0 : ((List.range j).filter (inSplit mask)).length ≤ sl.length := by
      rw [List.length_append] at hc; omega
    rw [List.range_succ, List.foldlM_append, ih (by omega) hc0]
    simp only [Option.bind_eq_bind, Option.some_bind, List.foldlM_cons, List.foldlM_nil,
      includeStep, getElem?_of_inSplit (show j < mask.length by omega)]
    cases hb : inSplit mask j with
    | false => simp
    | true =>
      simp only [hb, if_true, List.length_append, List.length_singleton] at hc ⊢
      have hlt : ((List.range j).filter (inSplit mask)).length < sl.length := by omega
      rw [List.drop_eq_getElem_cons hlt, setAt_of_lt _ (by simp; omega), set_mid]
      simp

/-- The second loop of the re-sorting: the marked ids, in increasing order, overwrite the
start of the slice. -/
theorem moveIncluded_spec (mask : List Bool) (sl : List Nat)
    (hc : ((List.range mask.length).filter (inSplit mask)).length ≤ sl.length) :
    moveIncluded mask sl =
      some ((List.range mask.length).filter (inSplit mask) ++
        sl.drop ((List.range mask.length).filter (inSplit mask)).length) := by
  unfold moveIncluded
  rw [moveIncluded_upTo mask sl mask.length (Nat.le_refl _) hc]
  rfl

/-- The ids marked by the marking loop, listed in increasing order, are no more than the
ids that were marked. -/
theorem marked_length_le {ids : List Nat} {n : Nat} {mask : List Bool}
    (h : markInSplit ids (List.replicate n false) = some mask) :
    ((List.range mask.length).filter (inSplit mask)).length ≤ ids.length := by
  obtain ⟨_, _, h3⟩ := markInSplit_spec ids _ mask h
  have hnd : ((List.range mask.length).filter (inSplit mask)).Nodup :=
    (List.nodup_range _).filter _
  have hsub : (List.range mask.length).filter (inSplit mask) ⊆ ids := by
    intro x hx
    rw [List.mem_filter, h3 x] at hx
    simpa [inSplit] using hx.2
  exact (hnd.subperm hsub).length_le

/-! ## Pieces of the depth-1 tree -/

/-- The list that `SortOffsetsByValue` returns. -/
theorem sortedOffsets_perm (arr : List ℚ) :
    ((insSorted ltValue ((List.range arr.length).zip arr)).map Prod.fst).Perm
      (List.range arr.length) := by
  have h := (insSorted_perm ltValue ((List.range arr.length).zip arr)).map Prod.fst
  refine h.trans ?_
  rw [List.map_fst_zip]
  simp

theorem slice_eq_some {α : Type} {l s : List α} {lo hi : Nat} (h : slice l lo hi = some s) :
    lo ≤ hi ∧ hi ≤ l.length ∧ s = (l.drop lo).take (hi - lo) := by
  unfold slice at h
  split at h
  · rename_i hc
    cases h
    exact ⟨hc.1, hc.2, rfl⟩
  · cases h

/-- When the second loop returns, the marked ids fitted into the slice and the result is the
closed form of `moveIncluded_spec`. -/
theorem moveIncluded_inv (mask : List Bool) (sl sl2 : List Nat)
    (h : moveIncluded mask sl = some sl2) :
    ((List.range mask.length).filter (inSplit mask)).length ≤ sl.length ∧
      sl2 = (List.range mask.length).filter (inSplit mask) ++
        sl.drop ((List.range mask.length).filter (inSplit mask)).length := by
  unfold moveIncluded at h
  cases hf : (List.range mask.length).foldlM (includeStep mask) (sl, 0) with
  | none => simp [hf] at h
  | some st =>
    have hfits : ((List.range mask.length).filter (inSplit mask)).length ≤ sl.length := by
      have := foldlM_range_invariant
        (P := fun j (st : List Nat × Nat) =>
          st.2 = ((List.range j).filter (inSplit mask)).length ∧ st.1.length = sl.length ∧
            st.2 ≤ sl.length)
        mask.length
        (by
          intro j st st1 hj hP hs
          obtain ⟨hP1, hP2, hP3⟩ := hP
          have hfil : (List.range (j + 1)).filter (inSplit mask) =
              (List.range j).filter (inSplit mask) ++ (if inSplit mask j then [j] else []) := by
            rw [List.range_succ, List.filter_append]
            by_cases hb : inSplit mask j <;> simp [hb]
          simp only [includeStep, getElem?_of_inSplit hj] at hs
          cases hb : inSplit mask j with
          | false =>
            simp only [hb] at hs
            cases hs
            simp [hfil, hb, hP1, hP2, hP3]
            rw [← hP1]; exact hP3
          | true =>
            simp only [hb] at hs
            cases hset : setAt st.1 st.2 j with
            | none => simp [hset] at hs
            | some s1 =>
              simp only [hset, Option.some.injEq] at hs
              obtain ⟨hlt, _⟩ := setAt_eq_some hset
              have hl := setAt_length hset
              rw [← hs]
              simp only [hfil, hb, if_true, List.length_append, List.length_singleton]
              exact ⟨by omega, by omega, by omega⟩)
        (sl, 0) ⟨by simp, rfl, Nat.zero_le _⟩ mask.length (Nat.le_refl _) st hf
      rw [← this.1]
      exact this.2.2
    refine ⟨hfits, ?_⟩
    rw [moveIncluded_upTo mask sl mask.length (Nat.le_refl _) hfits] at h
    simpa using h.symm

theorem regionSort_less (mask : List Bool) (s : sortByRegionInputsStruct) (pre : List Nat)
    (y x : Nat) (post : List Nat) (h : HoldsIds mask s (pre ++ y :: x :: post)) :
    s.Less (pre.length + 1) pre.length = some (ltInSplit mask x y) := by
  obtain ⟨h1, h2, h3⟩ := h
  have hx : x < mask.length := h3 x (by simp)
  have hy : y < mask.length := h3 y (by simp)
  unfold sortByRegionInputsStruct.Less
  rw [h1, h2, getElemOpt_mid1, getElemOpt_mid]
  simp only [getElem?_of_inSplit hx, getElem?_of_inSplit hy, ltInSplit]
  have e1 : mask.getD x false = inSplit mask x := rfl
  have e2 : mask.getD y false = inSplit mask y := rfl
  rw [e1, e2]
  cases inSplit mask x <;> cases inSplit mask y <;> simp

theorem regionSort_swap (mask : List Bool) (s : sortByRegionInputsStruct) (pre : List Nat)
    (y x : Nat) (post : List Nat) (h : HoldsIds mask s (pre ++ y :: x :: post)) :
    ∃ s1, s.Swap (pre.length + 1) pre.length = some s1 ∧
      HoldsIds mask s1 (pre ++ x :: y :: post) := by
  obtain ⟨h1, h2, h3⟩ := h
  refine ⟨⟨pre ++ x :: y :: post, mask⟩, ?_, rfl, rfl, ?_⟩
  · unfold sortByRegionInputsStruct.Swap
    rw [h1, getElemOpt_mid1, getElemOpt_mid]
    simp only [swap_mid, h2]
  · intro id hid
    apply h3
    simp only [List.mem_append, List.mem_cons] at hid ⊢
    tauto

/-- The region sort of one ordering never panics; it leaves the insertion-sorted slice. -/
theorem resortInput_spec (mask : List Bool) (region : offsetRange) (arr byValueIds : List Nat)
    (hs : slice arr region.begin region.end_ = some byValueIds)
    (hv : ∀ id ∈ byValueIds, id < mask.length) :
    resortInput mask region arr =
      some (splice arr region.begin (insSorted (ltInSplit mask) byValueIds)) := by
  have hR : HoldsIds mask ⟨byValueIds, mask⟩ byValueIds := ⟨rfl, rfl, hv⟩
  obtain ⟨s1, hs1, hR1⟩ :=
    sortSort_spec (regionSort_less mask) (regionSort_swap mask) byValueIds _ hR
  unfold resortInput
  simp only [hs, sortByRegionInputsStruct.Len, hs1, hR1.1]

theorem mapOpt_some_of_forall {α β : Type} {f : α → Option β} {P : β → Prop} (l : List α)
    (h : ∀ a ∈ l, ∃ b, f a = some b ∧ P b) :
    ∃ bs, mapOpt f l = some bs ∧ bs.length = l.length ∧ ∀ b ∈ bs, P b := by
  induction l with
  | nil => exact ⟨[], rfl, rfl, by simp⟩
  | cons a l ih =>
    obtain ⟨b, hb, hPb⟩ := h a (List.mem_cons_self _ _)
    obtain ⟨bs, hbs, hl, hP⟩ := ih (fun a ha => h a (List.mem_cons_of_mem _ ha))
    refine ⟨b :: bs, ?_, by simp [hl], ?_⟩
    · rw [mapOpt_cons, hb, hbs]; rfl
    · intro c hc
      simp only [List.mem_cons] at hc
      rcases hc with rfl | hc
      · exact hPb
      · exact hP c hc

theorem foldlM_range_some {σ : Type} {step : σ → Nat → Option σ} (n : Nat)
    (h : ∀ st j, j < n → ∃ st1, step st j = some st1) (init : σ) :
    ∀ m, m ≤ n → ∃ st, (List.range m).foldlM step init = some st := by
  intro m
  induction m with
  | zero => intro _; exact ⟨init, rfl⟩
  | succ m ih =>
    intro hm
    obtain ⟨st0, h0⟩ := ih (by omega)
    obtain ⟨st1, h1⟩ := h st0 m (by omega)
    refine ⟨st1, ?_⟩
    rw [List.range_succ, List.foldlM_append, h0]
    simp [h1]

theorem mem_slice {α : Type} {l s : List α} {lo hi : Nat} (h : slice l lo hi = some s) :
    ∀ a ∈ s, a ∈ l := by
  obtain ⟨_, _, hs⟩ := slice_eq_some h
  intro a ha
  rw [hs] at ha
  exact List.mem_of_mem_drop (List.mem_of_mem_take ha)

theorem slice_some {α : Type} (l : List α) (lo hi : Nat) (h1 : lo ≤ hi) (h2 : hi ≤ l.length) :
    slice l lo hi = some ((l.drop lo).take (hi - lo)) := by
  simp [slice, h1, h2]

theorem slice_length {α : Type} {l s : List α} {lo hi : Nat} (h : slice l lo hi = some s) :
    s.length = hi - lo := by
  obtain ⟨h1, h2, hs⟩ := slice_eq_some h
  rw [hs, List.length_take, List.length_drop]
  omega

theorem splice_length {α : Type} (l s : List α) (lo : Nat) (h : lo + s.length ≤ l.length) :
    (splice l lo s).length = l.length := by
  simp only [splice, List.length_append, List.length_take, List.length_drop]
  omega

theorem mem_splice {α : Type} {l s : List α} {lo : Nat} {a : α} (h : a ∈ splice l lo s) :
    a ∈ l ∨ a ∈ s := by
  simp only [splice, List.mem_append] at h
  rcases h with (h | h) | h
  · exact Or.inl (List.mem_of_mem_take h)
  · exact Or.inr h
  · exact Or.inl (List.mem_of_mem_drop h)

theorem scanStep_some (tb : treeBuilder) (f : Nat) (input : List ℚ) (byValue : List Nat)
    (hv : ∀ id ∈ byValue, id < input.length ∧ id < tb.output.length ∧ id < tb.weight.length)
    (st : scanState) (j : Nat) (hj : j < byValue.length) :
    ∃ st1, scanStep tb f input byValue st j = some st1 := by
  obtain ⟨h1, h2, h3⟩ := hv _ (List.getElem_mem hj)
  unfold scanStep
  simp only [List.getElem?_eq_getElem hj, List.getElem?_eq_getElem h1,
    List.getElem?_eq_getElem h2, List.getElem?_eq_getElem h3]
  split
  · exact ⟨_, rfl⟩
  · split
    · exact ⟨_, rfl⟩
    · split
      · exact ⟨_, rfl⟩
      · exact ⟨_, rfl⟩

theorem FindBestSplitForInput_some (tb : treeBuilder) (region : offsetRange) (f : Nat)
    (hok : BuilderOk tb) (hb : region.begin ≤ region.end_)
    (he : region.end_ ≤ tb.output.length) (hf : f < tb.inputs.length) :
    ∃ s, FindBestSplitForInput tb region f = some s := by
  obtain ⟨k1, k2, k3, k4, k5, k6, _, _⟩ := hok
  have hsum := @ComputeSumWeight_some tb region hb (by omega)
    (fun id hid => by
      have := k4 id (List.mem_of_mem_drop (List.mem_of_mem_take hid))
      omega)
  have hf2 : f < tb.byRegionInputs.length := by omega
  obtain ⟨ha1, ha2⟩ := k6 _ (List.getElem_mem hf2)
  have hcol := k2 _ (List.getElem_mem hf)
  have hsl := slice_some tb.byRegionInputs[f] region.begin region.end_ hb (by omega)
  unfold FindBestSplitForInput
  simp only [hsum, List.getElem?_eq_getElem hf, List.getElem?_eq_getElem hf2, hsl]
  obtain ⟨st, hst⟩ := @foldlM_range_some scanState
    (scanStep tb f tb.inputs[f]
      ((tb.byRegionInputs[f].drop region.begin).take (region.end_ - region.begin)))
    _ (fun st j hj => scanStep_some tb f _ _ (fun id hid => by
        have := ha2 id (List.mem_of_mem_drop (List.mem_of_mem_take hid))
        omega) st j hj)
    ⟨_, ⟨0, 0⟩, Flt.ninf, ⟨0, ⟨0, 0⟩, Flt.fin 0, Flt.fin (-1)⟩⟩ _ (Nat.le_refl _)
  exact ⟨st.bestSplit, by rw [hst]; rfl⟩

theorem splitResults_some (tb : treeBuilder) (region : offsetRange)
    (hok : BuilderOk tb) (hb : region.begin ≤ region.end_)
    (he : region.end_ ≤ tb.output.length) :
    ∃ results, splitResults tb region = some results ∧ results.length = tb.inputs.length := by
  obtain ⟨bs, h1, h2, _⟩ := mapOpt_some_of_forall (P := fun _ => True)
    (f := FindBestSplitForInput tb region) (List.range tb.inputs.length)
    (fun a ha => by
      obtain ⟨s, hs⟩ := FindBestSplitForInput_some tb region a hok hb he (List.mem_range.mp ha)
      exact ⟨s, hs, trivial⟩)
  exact ⟨bs, h1, by simpa using h2⟩

/-- A winner with a non-empty range is a candidate of an existing feature whose range ends
at the region size. -/
theorem winner_shape {tb : treeBuilder} {region : offsetRange} {results : List splitInfo}
    {bs : splitInfo} (hres : splitResults tb region = some results)
    (hred : reduceSplits results = some bs) (hemp : bs.region.Empty = false) :
    bs.inputIdx < tb.inputs.length ∧ bs.inputIdx < tb.byRegionInputs.length ∧
      0 < bs.region.begin ∧ bs.region.begin < bs.region.end_ ∧
      bs.region.end_ = region.Size ∧ region.begin ≤ region.end_ := by
  have hbsmem : bs ∈ results := by
    rcases reduceSplits_max results (splitResults_properGain hres) with ⟨_, hn⟩ | ⟨w, hw1, hm, _⟩
    · rw [hn] at hred; cases hred
    · rw [hw1] at hred; cases hred; exact hm
  obtain ⟨fb, hfb⟩ := splitResults_mem hres bs hbsmem
  obtain ⟨input, ids, byValue, st, hinp, hidsf, hbv, hst, hinv⟩ :=
    FindBestSplitForInput_scanInv hfb
  obtain ⟨_, _, hbest⟩ := hinv
  rw [hst] at hbest
  rcases hbest with hb | ⟨i, idp, idc, x, y, b1, b2, b3, b4, _⟩
  · rw [hb] at hemp
    simp [noSplit, offsetRange.Empty] at hemp
  · have hl := slice_length hbv
    obtain ⟨hle, _, _⟩ := slice_eq_some hbv
    have h1 : fb < tb.inputs.length := by
      by_contra hc
      rw [List.getElem?_eq_none (by omega)] at hinp
      cases hinp
    have h2 : fb < tb.byRegionInputs.length := by
      by_contra hc
      rw [List.getElem?_eq_none (by omega)] at hidsf
      cases hidsf
    rw [b1, b2]
    simp only [offsetRange.Size]
    exact ⟨h1, h2, by omega, by omega, hl, hle⟩

/-- A committed split never panics on a well-formed builder and leaves it well formed. -/
theorem commitSplit_some (tb : treeBuilder) (region : offsetRange) (splitIdx : Nat)
    (bs : splitInfo) (hok : BuilderOk tb) (hb : region.begin ≤ region.end_)
    (he : region.end_ ≤ tb.output.length) (hidx : splitIdx < tb.t.splits.length)
    (hf : bs.inputIdx < tb.byRegionInputs.length) (h1 : bs.region.begin ≤ bs.region.end_)
    (h2 : bs.region.end_ = region.Size) :
    ∃ tb1, commitSplit tb region splitIdx bs = some (tb1, bs.region.Size) ∧ BuilderOk tb1 := by
  obtain ⟨k1, k2, k3, k4, k5, k6, k7, k8⟩ := hok
  have hsz : region.Size = region.end_ - region.begin := rfl
  obtain ⟨ha1, ha2⟩ := k6 _ (List.getElem_mem hf)
  obtain ⟨idsInSplit, hslw⟩ : ∃ s, slice tb.byRegionInputs[bs.inputIdx] bs.region.begin
      bs.region.end_ = some s := ⟨_, slice_some _ _ _ h1 (by omega)⟩
  have hlw := slice_length hslw
  obtain ⟨mask, hmark⟩ := markInSplit_some idsInSplit (List.replicate tb.output.length false)
    (fun id hid => by
      rw [List.length_replicate]
      exact ha2 id (mem_slice hslw id hid))
  obtain ⟨_, hml, _⟩ := markInSplit_spec _ _ _ hmark
  rw [List.length_replicate] at hml
  obtain ⟨sl0, hsl0⟩ : ∃ s, slice tb.byRegionIds region.begin region.end_ = some s :=
    ⟨_, slice_some _ _ _ hb (by omega)⟩
  have hl0 := slice_length hsl0
  have hv0 : ∀ id ∈ sl0, id < mask.length := fun id hid => by
    rw [hml]; exact k4 id (mem_slice hsl0 id hid)
  have hex := moveExcluded_spec mask sl0 hv0
  have hcnt := marked_length_le hmark
  have hfl := List.length_filter_le (notInSplit mask) sl0
  have hl1 : (sl0.take (sl0.length - (sl0.filter (notInSplit mask)).length) ++
      sl0.filter (notInSplit mask)).length = sl0.length := by
    rw [List.length_append, List.length_take]
    omega
  have hin := moveIncluded_spec mask
    (sl0.take (sl0.length - (sl0.filter (notInSplit mask)).length) ++
      sl0.filter (notInSplit mask)) (by rw [hl1]; omega)
  obtain ⟨bri, hbri, hbril, hbriP⟩ := mapOpt_some_of_forall
    (P := fun arr => arr.length = tb.output.length ∧ ∀ id ∈ arr, id < tb.output.length)
    (f := resortInput mask region) tb.byRegionInputs
    (fun arr harr => by
      obtain ⟨hal, hae⟩ := k6 arr harr
      obtain ⟨bv, hs⟩ : ∃ s, slice arr region.begin region.end_ = some s :=
        ⟨_, slice_some _ _ _ hb (by omega)⟩
      have hvs : ∀ id ∈ bv, id < mask.length := fun id hid => by
        rw [hml]; exact hae id (mem_slice hs id hid)
      refine ⟨_, resortInput_spec mask region arr _ hs hvs, ?_, ?_⟩
      · rw [splice_length]
        · exact hal
        · rw [insSorted_length, slice_length hs]; omega
      · intro id hid
        rcases mem_splice hid with h | h
        · exact hae id h
        · exact hae id (mem_slice hs id ((insSorted_perm _ _).mem_iff.mp h)))
  refine ⟨⟨tb.output, tb.weight, tb.inputs, tb.maxDepth, tb.minItems,
    splice tb.byRegionIds region.begin
      ((List.range mask.length).filter (inSplit mask) ++
        (sl0.take (sl0.length - (sl0.filter (notInSplit mask)).length) ++
          sl0.filter (notInSplit mask)).drop
            ((List.range mask.length).filter (inSplit mask)).length), bri,
    ⟨tb.t.splits.set splitIdx ⟨(bs.inputIdx : Int), bs.thresh⟩, tb.t.adjs⟩, tb.done,
    tb.calls⟩, ?_, ?_⟩
  · unfold commitSplit
    simp only [List.getElem?_eq_getElem hf, hslw, setAt_of_lt _ hidx, hmark, hsl0, hex, hin,
      hbri]
  · refine ⟨k1, k2, ?_, ?_, by rw [hbril]; exact k5, hbriP, by simpa using k7, k8⟩
    · show (splice tb.byRegionIds region.begin _).length = tb.output.length
      rw [splice_length]
      · exact k3
      · rw [List.length_append, List.length_drop, hl1]
        omega
    · intro id hid
      rcases mem_splice hid with h | h
      · exact k4 id h
      · rw [List.mem_append] at h
        rcases h with h | h
        · rw [← hml]
          exact List.mem_range.mp (List.mem_of_mem_filter h)
        · have h3 := List.mem_of_mem_drop h
          rw [List.mem_append] at h3
          rcases h3 with h3 | h3
          · exact k4 id (mem_slice hsl0 id (List.mem_of_mem_take h3))
          · exact k4 id (mem_slice hsl0 id (List.mem_of_mem_filter h3))

theorem TryToSplitRegion_some (tb : treeBuilder) (region : offsetRange) (splitIdx depth : Nat)
    (hok : BuilderOk tb) (hb : region.begin ≤ region.end_)
    (he : region.end_ ≤ tb.output.length) (hF : 0 < tb.inputs.length)
    (hidx : depth + 1 ≤ tb.maxDepth → splitIdx < tb.t.splits.length) :
    ∃ tb1 k, TryToSplitRegion tb region splitIdx depth = some (tb1, k) ∧ BuilderOk tb1 ∧
      k ≤ region.Size ∧ (k ≠ 0 → depth + 1 ≤ tb.maxDepth) := by
  unfold TryToSplitRegion
  split
  · exact ⟨tb, 0, rfl, hok, Nat.zero_le _, fun h => absurd rfl h⟩
  · rename_i hg
    obtain ⟨results, hres, hlen⟩ := splitResults_some tb region hok hb he
    rcases reduceSplits_max results (splitResults_properGain hres) with ⟨hnil, _⟩ |
      ⟨bs, hred, _, _⟩
    · rw [hnil] at hlen
      simp at hlen
      omega
    · simp only [hres, hred]
      split
      · exact ⟨tb, 0, rfl, hok, Nat.zero_le _, fun h => absurd rfl h⟩
      · rename_i hemp
        obtain ⟨w1, w2, w3, w4, w5, _⟩ :=
          winner_shape hres hred (by simpa using hemp)
        obtain ⟨tb1, hc, hok1⟩ := commitSplit_some tb region splitIdx bs hok hb he
          (hidx (by omega)) w2 (by omega) w5
        refine ⟨tb1, bs.region.Size, hc, hok1, ?_, fun _ => by omega⟩
        simp only [offsetRange.Size] at w5 ⊢
        omega

theorem two_pow_split {m d : Nat} (h : d + 1 ≤ m) :
    2 ^ (m - d) = 2 ^ (m - (d + 1)) + 2 ^ (m - (d + 1)) := by
  rw [show m - d = (m - (d + 1)) + 1 by omega, Nat.pow_succ]
  omega

theorem finalizeRegion_some (tb : treeBuilder) (region : offsetRange) (regionIdx depth : Nat)
    (hok : BuilderOk tb) (hb : region.begin ≤ region.end_)
    (he : region.end_ ≤ tb.output.length) (hd : depth ≤ tb.maxDepth)
    (hidx : regionIdx + 2 ≤ 2 ^ (depth + 1)) :
    ∃ tb1, finalizeRegion tb region regionIdx depth = some tb1 ∧ BuilderOk tb1 ∧
      tb1.done = tb.done + 2 ^ (tb.maxDepth - depth) := by
  obtain ⟨k1, k2, k3, k4, k5, k6, k7, k8⟩ := hok
  have hsum := @ComputeSumWeight_some tb region hb (by omega)
    (fun id hid => by
      have := k4 id (List.mem_of_mem_drop (List.mem_of_mem_take hid))
      omega)
  have hpow : 2 ^ (depth + 1) ≤ 2 ^ (tb.maxDepth + 1) :=
    Nat.pow_le_pow_right (by decide) (by omega)
  have hpow2 : 2 ^ (tb.maxDepth + 1) = 2 ^ tb.maxDepth + 2 ^ tb.maxDepth := by
    rw [Nat.pow_succ]; omega
  unfold finalizeRegion
  simp only [hsum, hd, if_true]
  split
  · rename_i hlt
    rw [setAt_of_lt _ hlt]
    exact ⟨_, rfl, ⟨k1, k2, k3, k4, k5, k6, by simpa using k7, k8⟩, rfl⟩
  · rename_i hge
    rw [setAt_of_lt _ (by omega)]
    exact ⟨_, rfl, ⟨k1, k2, k3, k4, k5, k6, k7, by simpa using k8⟩, rfl⟩

/-- The method `ProcessRegion` with enough fuel never panics on a well-formed builder with at least one
feature; it leaves the builder well formed and sends `2^(maxDepth - depth)` values. -/
theorem ProcessRegion_some : ∀ (fuel : Nat) (tb : treeBuilder) (region : offsetRange)
    (regionIdx depth : Nat), BuilderOk tb → region.begin ≤ region.end_ →
    region.end_ ≤ tb.output.length → 0 < tb.inputs.length → depth ≤ tb.maxDepth →
    tb.maxDepth + 1 ≤ fuel + depth → regionIdx + 2 ≤ 2 ^ (depth + 1) →
    ∃ tb1, ProcessRegion fuel tb region regionIdx depth = some tb1 ∧ BuilderOk tb1 ∧
      tb1.done = tb.done + 2 ^ (tb.maxDepth - depth) := by
  intro fuel
  induction fuel with
  | zero =>
    intro tb region regionIdx depth _ _ _ _ hd hfuel _
    omega
  | succ fuel ih =>
    intro tb region regionIdx depth hok hb he hF hd hfuel hidx
    have hsplitIdx : depth + 1 ≤ tb.maxDepth → regionIdx < tb.t.splits.length := by
      intro h
      have : 2 ^ (depth + 1) ≤ 2 ^ tb.maxDepth := Nat.pow_le_pow_right (by decide) h
      rw [hok.2.2.2.2.2.2.1]
      omega
    obtain ⟨tb1, k, hT, hok1, hk, hkd⟩ :=
      TryToSplitRegion_some tb region regionIdx depth hok hb he hF hsplitIdx
    obtain ⟨hsh, _, hdone, _⟩ := TryToSplitRegion_shape hT
    obtain ⟨s1, s2, s3, s4, s5, s6, s7⟩ := hsh
    rw [ProcessRegion, hT]
    simp only
    by_cases hk0 : k = 0
    · simp only [hk0, ne_eq, not_true_eq_false, if_false]
      obtain ⟨tb2, hf, hok2, hd2⟩ := finalizeRegion_some tb1 region regionIdx depth hok1 hb
        (by rw [s1]; exact he) (by rw [s4]; exact hd) hidx
      exact ⟨tb2, hf, hok2, by rw [hd2, hdone, s4]⟩
    · simp only [ne_eq, hk0, not_false_eq_true, if_true]
      have hdd := hkd hk0
      have hsz : region.Size = region.end_ - region.begin := rfl
      have hokl : BuilderOk (logSplit tb1 region regionIdx depth k) := hok1
      have hpow : 2 ^ (depth + 1 + 1) = 2 ^ (depth + 1) + 2 ^ (depth + 1) := by
        rw [Nat.pow_succ]; omega
      obtain ⟨tb2, hc1, hok2, hd2⟩ := ih (logSplit tb1 region regionIdx depth k) ⟨0, k⟩
        (regionIdx * 2 + 1) (depth + 1) hokl (Nat.zero_le _)
        (by show k ≤ tb1.output.length; rw [s1]; omega)
        (by show 0 < tb1.inputs.length; rw [s3]; exact hF)
        (by show depth + 1 ≤ tb1.maxDepth; rw [s4]; exact hdd)
        (by show tb1.maxDepth + 1 ≤ fuel + (depth + 1); rw [s4]; omega)
        (by omega)
      obtain ⟨t1, t2, t3, t4, t5, t6, t7⟩ := ProcessRegion_shape _ _ _ _ _ _ hc1
      have u1 : tb2.output = tb.output := t1.trans s1
      have u3 : tb2.inputs = tb.inputs := t3.trans s3
      have u4 : tb2.maxDepth = tb.maxDepth := t4.trans s4
      obtain ⟨tb3, hc2, hok3, hd3⟩ := ih tb2 ⟨k, region.end_⟩
        (regionIdx * 2 + 2) (depth + 1) hok2 (by show k ≤ region.end_; omega)
        (by rw [u1]; exact he) (by rw [u3]; exact hF) (by rw [u4]; exact hdd)
        (by rw [u4]; omega) (by omega)
      rw [hc1]
      simp only
      refine ⟨tb3, hc2, hok3, ?_⟩
      rw [hd3, hd2, u4]
      show tb1.done + 2 ^ (tb1.maxDepth - (depth + 1)) + _ = _
      rw [hdone, s4, two_pow_split hdd]
      omega

theorem buildState_eq (output weight : List ℚ) (inputs : List (List ℚ))
    (maxDepth minItems : Nat) :
    buildState output weight inputs maxDepth minItems =
      match ProcessRegion (maxDepth + 1) (rootBuilder output weight inputs maxDepth minItems)
          ⟨0, output.length⟩ 0 0 with
      | none => none
      | some tb1 => if 2 ^ maxDepth ≤ tb1.done then some tb1 else none := by
  unfold buildState
  simp only [sortInputs_some]
  rfl

theorem rootBuilder_ok (output weight : List ℚ) (inputs : List (List ℚ))
    (maxDepth minItems : Nat) (hw : weight.length = output.length)
    (hin : ∀ col ∈ inputs, col.length = output.length) :
    BuilderOk (rootBuilder output weight inputs maxDepth minItems) := by
  refine ⟨hw, hin, by simp [rootBuilder], ?_, by simp [rootBuilder], ?_,
    by simp [rootBuilder], by simp [rootBuilder]⟩
  · intro id hid
    exact List.mem_range.mp hid
  · intro arr harr
    simp only [rootBuilder, List.mem_map] at harr
    obtain ⟨col, hcol, rfl⟩ := harr
    have hp := sortedOffsets_perm col
    have hl := hin col hcol
    constructor
    · have := hp.length_eq
      rw [List.length_range] at this
      exact this.trans hl
    · intro id hid
      have := List.mem_range.mp (hp.mem_iff.mp hid)
      show id < output.length
      omega

/-- The function `BuildTree` returns a tree for every well-formed training input with at least one
feature. -/
theorem BuildTree_some (output weight : List ℚ) (inputs : List (List ℚ))
    (maxDepth minItems : Nat) (hw : weight.length = output.length)
    (hin : ∀ col ∈ inputs, col.length = output.length) (hF : inputs ≠ []) :
    ∃ t, BuildTree output weight inputs maxDepth minItems = some t := by
  obtain ⟨tb1, h1, _, h3⟩ := ProcessRegion_some (maxDepth + 1)
    (rootBuilder output weight inputs maxDepth minItems) ⟨0, output.length⟩ 0 0
    (rootBuilder_ok output weight inputs maxDepth minItems hw hin) (Nat.zero_le _)
    (Nat.le_refl _) (List.length_pos.mpr hF) (Nat.zero_le _)
    (by show maxDepth + 1 ≤ maxDepth + 1 + 0; omega) (by simp)
  refine ⟨tb1.t, ?_⟩
  unfold BuildTree
  rw [buildState_eq, h1]
  have hd : 2 ^ maxDepth ≤ tb1.done := by
    rw [h3]
    show 2 ^ maxDepth ≤ 0 + 2 ^ (maxDepth - 0)
    simp
  simp [hd]

/-- C1: for every output, weight, inputs, minItems and maxDepth, the tree returned by
`BuildTree` has `len(splits) = 2^maxDepth - 1` and `len(adjs) = 2^maxDepth` (so
`len(splits) + 1 = len(adjs)`), whatever splits were made; and `BuildTree` does return a tree
whenever the training input is well formed (weights and feature columns as long as output)
and has at least one feature. -/
theorem BuildTree_tree_sizes (output weight : List ℚ) (inputs : List (List ℚ))
    (maxDepth minItems : Nat) :
    (∀ t, BuildTree output weight inputs maxDepth minItems = some t →
      t.splits.length = 2 ^ maxDepth - 1 ∧ t.adjs.length = 2 ^ maxDepth ∧
        t.splits.length + 1 = t.adjs.length) ∧
    (weight.length = output.length → (∀ col ∈ inputs, col.length = output.length) →
      inputs ≠ [] → ∃ t, BuildTree output weight inputs maxDepth minItems = some t) := by
  constructor
  · intro t h
    obtain ⟨h1, h2⟩ := BuildTree_lengths h
    have := Nat.two_pow_pos maxDepth
    exact ⟨h1, h2, by omega⟩
  · exact BuildTree_some output weight inputs maxDepth minItems

/-- Witness of C1 on the data of `TestMinItemsAffectsSplit` with `maxDepth = 2`: a tree is
returned and it has 3 splits and 4 adjustments. -/
theorem BuildTree_tree_sizes_witness :
    (∃ t, BuildTree [1, 5, 8, 8] [1, 1, 1, 1] [[0, 0, 1, 1], [0, 1, 1, 1]] 2 0 = some t) ∧
      ∀ t, BuildTree [1, 5, 8, 8] [1, 1, 1, 1] [[0, 0, 1, 1], [0, 1, 1, 1]] 2 0 = some t →
        t.splits.length = 2 ^ 2 - 1 ∧ t.adjs.length = 2 ^ 2 ∧
          t.splits.length + 1 = t.adjs.length :=
  ⟨(BuildTree_tree_sizes [1, 5, 8, 8] [1, 1, 1, 1] [[0, 0, 1, 1], [0, 1, 1, 1]] 2 0).2
      (by decide) (by decide) (by decide),
    (BuildTree_tree_sizes [1, 5, 8, 8] [1, 1, 1, 1] [[0, 0, 1, 1], [0, 1, 1, 1]] 2 0).1⟩

/-! ## Accepted candidates of FindBestSplitForInput -/

/-- C11.  If `FindBestSplitForInput` returns an accepted candidate for a region of `n` rows,
that is, a result whose in-split range `[i, n)` is not empty, then the range ends at the
region size `n` and both sides have at least `minItems` rows: `i >= minItems` on the excluded
side and `n - i >= minItems` on the in-split side. -/
theorem FindBestSplitForInput_min_items (tb : treeBuilder) (region : offsetRange) (f : Nat)
    (s : splitInfo) (h : FindBestSplitForInput tb region f = some s)
    (hne : s.region.Empty = false) :
    s.region.end_ = region.Size ∧ s.region.begin < s.region.end_ ∧
      tb.minItems ≤ s.region.begin ∧ tb.minItems ≤ s.region.end_ - s.region.begin := by
  obtain ⟨input, ids, byValue, st, _, _, hsl, hst, _, _, hbest⟩ :=
    FindBestSplitForInput_scanInv h
  have hlen := slice_length hsl
  rw [hst] at hbest
  rcases hbest with hb | ⟨i, idp, idc, x, y, _, hreg, _, hi, _, _, _, _, _, hm1, hm2⟩
  · rw [hb] at hne
    exact absurd hne (by decide)
  · rw [hreg]
    simp only [offsetRange.Size]
    refine ⟨hlen, hi, hm1, by omega⟩

/-- Witness of C11 on the data of `TestMinItemsAffectsSplit` with `minItems = 2`: feature 0
gives the candidate `[2, 4)`, with two rows on either side. -/
theorem FindBestSplitForInput_min_items_witness :
    FindBestSplitForInput (rootBuilder [1, 5, 8, 8] [1, 1, 1, 1] [[0, 0, 1, 1], [0, 1, 1, 1]] 1 2)
        ⟨0, 4⟩ 0 = some ⟨0, ⟨2, 4⟩, Flt.fin (1 / 2), Flt.fin 146⟩ ∧
      (4 : Nat) = (⟨0, 4⟩ : offsetRange).Size ∧ 2 < 4 ∧
      (rootBuilder [1, 5, 8, 8] [1, 1, 1, 1] [[0, 0, 1, 1], [0, 1, 1, 1]] 1 2).minItems ≤ 2 ∧
      (rootBuilder [1, 5, 8, 8] [1, 1, 1, 1] [[0, 0, 1, 1], [0, 1, 1, 1]] 1 2).minItems ≤ 4 - 2 :=
  ⟨by decide!, FindBestSplitForInput_min_items
    (rootBuilder [1, 5, 8, 8] [1, 1, 1, 1] [[0, 0, 1, 1], [0, 1, 1, 1]] 1 2) ⟨0, 4⟩ 0
    ⟨0, ⟨2, 4⟩, Flt.fin (1 / 2), Flt.fin 146⟩ (by decide!) (by decide!)⟩

/-! ## The steps of the scan loop and sums over rows -/

theorem weightedSumOver_single {output weight : List ℚ} {id : Nat} {o w : ℚ}
    (ho : output[id]? = some o) (hw : weight[id]? = some w) :
    weightedSumOver output weight [id] = o * w := by
  simp [weightedSumOver, List.getD, ho, hw]

theorem weightedSumOver_perm (output weight : List ℚ) {l1 l2 : List Nat} (h : l1.Perm l2) :
    weightedSumOver output weight l1 = weightedSumOver output weight l2 :=
  (h.map _).sum_eq

theorem totalWeightOver_perm (weight : List ℚ) {l1 l2 : List Nat} (h : l1.Perm l2) :
    totalWeightOver weight l1 = totalWeightOver weight l2 :=
  (h.map _).sum_eq

theorem take_succ_of_getElem {α : Type} {l : List α} {j : Nat} {a : α} (h : l[j]? = some a) :
    l.take (j + 1) = l.take j ++ [a] := by
  rw [List.take_succ, h]
  rfl

/-! ## The order of the gains along the scan -/

/-- C15 fails for a region that does not start at offset 0.  In the run of
`BuildTree([9,0,0,0], [1,1,1,1], [[3,1,0,2]], 2, 1)` the root returns 1 (it splits off row 0),
so node 2 gets the region `[1, 4)`, which holds rows 1, 2, 3 in `byRegionIds` and rows 2, 1, 3
(feature values 0, 1, 2) in `byRegionInputs[0]`.  The winner found for it has the in-split
range `[1, 3)` of the region's slice, that is rows 1 and 3 (threshold 1/2), and
`TryToSplitRegion` returns 2.  But it reads the in-split ids at the absolute offsets `[1, 3)`,
which hold rows 2 and 1: afterwards the prefix `[1, 3)` holds rows 1, 2 in `byRegionIds` and
rows 2, 1 in `byRegionInputs[0]`, so row 2 of the excluded side is in the prefix and row 3 of
the in-split side in the suffix. -/
theorem TryToSplitRegion_nonroot_misplaces :
    (TryToSplitRegion deepBuilder ⟨0, 4⟩ 0 0).map (fun r => r.2) = some 1 ∧
      deepBuilderAtNode2.map (fun tb2 => (tb2.byRegionIds, tb2.byRegionInputs)) =
        some ([0, 1, 2, 3], [[0, 2, 1, 3]]) ∧
      deepBuilderAtNode2.bind (fun tb2 =>
        (FindBestSplitForInput tb2 ⟨1, 4⟩ 0).map (fun s => (s.region, s.thresh))) =
        some (⟨1, 3⟩, Flt.fin (1 / 2)) ∧
      deepBuilderAtNode2.bind (fun tb2 =>
        (TryToSplitRegion tb2 ⟨1, 4⟩ 2 1).map (fun r =>
          (r.2, r.1.byRegionIds, r.1.byRegionInputs))) =
        some (2, [0, 1, 2, 3], [[0, 2, 1, 3]]) := by
  refine ⟨?_, ?_, ?_, ?_⟩ <;> decide!

/-- C16 fails for a region that does not start at offset 0.  The `ProcessRegion` calls of
`BuildTree([9,0,0,0], [1,1,1,1], [[3,1,0,2]], 2, 1)`, as (node, region, count returned by
`TryToSplitRegion`): node 2 splits its region `[1, 4)` with count 2, and its children, nodes
5 and 6, are called on `[0, 2)` and `[2, 4)`, not on `[1, 3)` and `[3, 4)`. -/
theorem ProcessRegion_children_ignore_begin :
    (buildState [9, 0, 0, 0] [1, 1, 1, 1] [[3, 1, 0, 2]] 2 1).map (fun tb =>
      tb.calls.map (fun c => (c.regionIdx, c.region, c.spEnd))) =
      some [(0, ⟨0, 4⟩, 1), (1, ⟨0, 1⟩, 0), (2, ⟨1, 4⟩, 2), (5, ⟨0, 2⟩, 0),
        (6, ⟨2, 4⟩, 0)] := by
  decide!

/-- C17 fails below a region that does not start at offset 0.  In the run of
`BuildTree([9,0,0,0], [1,1,1,1], [[3,1,0,2]], 2, 1)`, after node 2 has split, `ProcessRegion` is
called for node 5 on the region `[0, 2)` and then for node 6 on `[2, 4)`, which ends the run.
In the state node 5 is called in, `byRegionIds[0:2)` is `[0, 1]` and `byRegionInputs[0][0:2)`
is `[0, 2]`: the two slices do not hold the same rows, and the second, whose rows 0 and 2
have the feature values 3 and 0, is not sorted. -/
theorem ProcessRegion_row_sets_differ :
    deepBuilderAtNode5.bind (fun tb =>
        (ProcessRegion 1 tb ⟨0, 2⟩ (2 * 2 + 1) (1 + 1)).bind (fun tb5 =>
          (ProcessRegion 1 tb5 ⟨2, 4⟩ (2 * 2 + 2) (1 + 1)).map (fun tb6 =>
            decide (some tb6 = buildState [9, 0, 0, 0] [1, 1, 1, 1] [[3, 1, 0, 2]] 2 1)))) =
        some true ∧
      deepBuilderAtNode5.bind (fun tb => slice tb.byRegionIds 0 2) = some [0, 1] ∧
      deepBuilderAtNode5.bind (fun tb => mapOpt (fun arr => slice arr 0 2) tb.byRegionInputs) =
        some [[0, 2]] ∧
      deepBuilder.inputs = [[3, 1, 0, 2]] := by
  refine ⟨?_, ?_, ?_, ?_⟩ <;> decide!

/-! ## Completion accounting -/

theorem completionUnits_append (m : Nat) (l1 l2 : List regionCall) :
    completionUnits m (l1 ++ l2) = completionUnits m l1 + completionUnits m l2 := by
  simp [completionUnits]

/-- A finalising call at a depth within `maxDepth` sends `2^(maxDepth - depth)` values on
`done` and logs one finalised call of that depth. -/
theorem finalizeRegion_units {tb : treeBuilder} {region : offsetRange} {regionIdx depth : Nat}
    {tb1 : treeBuilder} (h : finalizeRegion tb region regionIdx depth = some tb1)
    (hd : depth ≤ tb.maxDepth) :
    tb1.done = tb.done + 2 ^ (tb.maxDepth - depth) ∧
      ∃ c, tb1.calls = tb.calls ++ [c] ∧ c.depth = depth ∧ c.adj.isSome = true := by
  obtain ⟨sw, _, _, _, _, hdone, hcalls, _⟩ := finalizeRegion_inv h
  rw [if_pos hd] at hdone
  exact ⟨hdone, _, hcalls, rfl, rfl⟩

/-- The calls that one `ProcessRegion` call at depth `d <= maxDepth` adds to the log have
depths between `d` and `maxDepth`, and the finalised ones among them report `2^(maxDepth - d)`
units in all, which is what the call adds to `done`. -/
theorem ProcessRegion_units : ∀ (fuel : Nat) (tb : treeBuilder) (region : offsetRange)
    (regionIdx depth : Nat) (tb3 : treeBuilder),
    ProcessRegion fuel tb region regionIdx depth = some tb3 → depth ≤ tb.maxDepth →
    ∃ added, tb3.calls = tb.calls ++ added ∧
      (∀ c ∈ added, depth ≤ c.depth ∧ c.depth ≤ tb.maxDepth) ∧
      completionUnits tb.maxDepth added = 2 ^ (tb.maxDepth - depth) ∧
      tb3.done = tb.done + 2 ^ (tb.maxDepth - depth) := by
  intro fuel
  induction fuel with
  | zero =>
    intro tb region regionIdx depth tb3 h
    simp [ProcessRegion] at h
  | succ fuel ih =>
    intro tb region regionIdx depth tb3 h hd
    obtain ⟨tb1, spEnd, hT, hcase⟩ := ProcessRegion_inv h
    obtain ⟨hshape, _, hdone1, hcalls1⟩ := TryToSplitRegion_shape hT
    have hmax : tb1.maxDepth = tb.maxDepth := hshape.2.2.2.1
    rcases hcase with ⟨_, hfin⟩ | ⟨hne, tb2, hc1, hc2⟩
    · obtain ⟨hdone, c, hcalls, hcd, hca⟩ := finalizeRegion_units hfin (by omega)
      refine ⟨[c], by rw [hcalls, hcalls1], ?_, ?_, by rw [hdone, hdone1, hmax]⟩
      · intro c1 hc1
        simp only [List.mem_singleton] at hc1
        subst hc1
        omega
      · simp [completionUnits, hca, hcd]
    · have hdepth : depth + 1 ≤ tb.maxDepth := by
        rcases TryToSplitRegion_inv hT with hr | ⟨hd1, _⟩
        · simp only [Prod.mk.injEq] at hr
          exact absurd hr.2 hne
        · exact hd1
      have hmaxL : (logSplit tb1 region regionIdx depth spEnd).maxDepth = tb.maxDepth := hmax
      obtain ⟨a1, hcal1, hdep1, hun1, hdn1⟩ := ih _ _ _ _ _ hc1 (by rw [hmaxL]; exact hdepth)
      have hmax2 : tb2.maxDepth = tb.maxDepth := by
        rw [(ProcessRegion_shape _ _ _ _ _ _ hc1).2.2.2.1, hmaxL]
      obtain ⟨a2, hcal2, hdep2, hun2, hdn2⟩ := ih _ _ _ _ _ hc2 (by rw [hmax2]; exact hdepth)
      rw [hmaxL] at hdep1 hun1 hdn1
      rw [hmax2] at hdep2 hun2 hdn2
      have hlog : (logSplit tb1 region regionIdx depth spEnd).calls =
          tb.calls ++ [⟨region, regionIdx, depth, spEnd,
            (tb1.byRegionIds.drop region.begin).take region.Size, none⟩] := by
        simp only [logSplit, hcalls1]
      have hlogd : (logSplit tb1 region regionIdx depth spEnd).done = tb.done := hdone1
      refine ⟨[⟨region, regionIdx, depth, spEnd,
          (tb1.byRegionIds.drop region.begin).take region.Size, none⟩] ++ a1 ++ a2, ?_, ?_, ?_, ?_⟩
      · rw [hcal2, hcal1, hlog]
        simp only [List.append_assoc]
      · intro c hc
        simp only [List.append_assoc, List.mem_append, List.mem_singleton] at hc
        rcases hc with rfl | hc | hc
        · exact ⟨Nat.le_refl _, hd⟩
        · have := hdep1 c hc
          omega
        · have := hdep2 c hc
          omega
      · rw [completionUnits_append, completionUnits_append, hun1, hun2, two_pow_split hdepth]
        simp [completionUnits]
      · rw [hdn2, hdn1, hlogd, two_pow_split hdepth]
        omega

/-- C18.  Completion accounting.  A region finalised at a depth `d <= maxDepth` sends
`2^(maxDepth - d)` values on `done`.  In every run of `BuildTree` that returns, every
`ProcessRegion` call has a depth `d <= maxDepth`, the number of values sent on `done` is the
sum of `2^(maxDepth - d)` over the finalised regions, and this total is exactly `2^maxDepth`,
the number `BuildTree` waits for.  On well-formed input with at least one feature the run
does return. -/
theorem BuildTree_completion_units (output weight : List ℚ) (inputs : List (List ℚ))
    (maxDepth minItems : Nat) :
    (∀ (tb : treeBuilder) (region : offsetRange) (regionIdx depth : Nat) (tb1 : treeBuilder),
      finalizeRegion tb region regionIdx depth = some tb1 → depth ≤ tb.maxDepth →
        tb1.done = tb.done + 2 ^ (tb.maxDepth - depth)) ∧
    (∀ tb, buildState output weight inputs maxDepth minItems = some tb →
      (∀ c ∈ tb.calls, c.depth ≤ maxDepth) ∧
        tb.done = completionUnits maxDepth tb.calls ∧ tb.done = 2 ^ maxDepth) ∧
    (weight.length = output.length → (∀ col ∈ inputs, col.length = output.length) →
      inputs ≠ [] → ∃ tb, buildState output weight inputs maxDepth minItems = some tb) := by
  refine ⟨fun tb region regionIdx depth tb1 h hd => (finalizeRegion_units h hd).1, ?_, ?_⟩
  · intro tb h
    obtain ⟨bri, _, hP, _⟩ := buildState_inv h
    obtain ⟨added, hcalls, hdep, hun, hdone⟩ :=
      ProcessRegion_units _ _ _ _ _ _ hP (Nat.zero_le _)
    simp only [List.nil_append, Nat.sub_zero, Nat.zero_add] at hcalls hdep hun hdone
    rw [hcalls]
    exact ⟨fun c hc => (hdep c hc).2, by rw [hun, hdone], hdone⟩
  · intro hw hin hF
    obtain ⟨t, ht⟩ := BuildTree_some output weight inputs maxDepth minItems hw hin hF
    obtain ⟨tb, htb, _⟩ := BuildTree_eq_some ht
    exact ⟨tb, htb⟩

/-- Witness of C18 on a run of depth 2 in which node 1 stops one level early: the run
returns, and the four units it waits for are the two of node 1 and one each of nodes 5
and 6. -/
theorem BuildTree_completion_units_witness :
    ∃ tb, buildState [9, 0, 0, 0] [1, 1, 1, 1] [[3, 1, 0, 2]] 2 1 = some tb ∧
      (∀ c ∈ tb.calls, c.depth ≤ 2) ∧ tb.done = completionUnits 2 tb.calls ∧
      tb.done = 2 ^ 2 := by
  have h := BuildTree_completion_units [9, 0, 0, 0] [1, 1, 1, 1] [[3, 1, 0, 2]] 2 1
  obtain ⟨tb, htb⟩ := h.2.2 (by decide) (by decide) (by decide)
  exact ⟨tb, htb, h.2.1 tb htb⟩

/-! ## Gain and squared error -/

/-- The weighted squared deviation from any value `m`, expanded. -/
theorem squared_deviation_expand (output weight : List ℚ) (m : ℚ) (rows : List Nat) :
    (rows.map (fun i => weight.getD i 0 * (output.getD i 0 - m) ^ 2)).sum =
      sumSquaresOver output weight rows - 2 * m * weightedSumOver output weight rows +
        m ^ 2 * totalWeightOver weight rows := by
  induction rows with
  | nil => simp [sumSquaresOver, weightedSumOver, totalWeightOver]
  | cons a l ih =>
    simp only [List.map_cons, List.sum_cons, sumSquaresOver, weightedSumOver,
      totalWeightOver] at ih ⊢
    rw [ih]
    ring

/-- The squared error of a side with non-zero total weight is the sum of squares less
`weightedSum^2 / totalWeight`. -/
theorem squaredErrorOver_eq (output weight : List ℚ) (rows : List Nat)
    (h : totalWeightOver weight rows ≠ 0) :
    squaredErrorOver output weight rows =
      sumSquaresOver output weight rows -
        weightedSumOver output weight rows ^ 2 / totalWeightOver weight rows := by
  unfold squaredErrorOver
  rw [squared_deviation_expand]
  field_simp
  ring

/-- The gain of a side with non-zero total weight is `weightedSum^2 / totalWeight`. -/
theorem gain_directSumWeight (output weight : List ℚ) (rows : List Nat)
    (h : totalWeightOver weight rows ≠ 0) :
    gain (directSumWeight output weight rows) =
      Flt.fin (weightedSumOver output weight rows ^ 2 / totalWeightOver weight rows) := by
  simp only [gain, directSumWeight, Flt.div, h, if_false, Flt.mul, Flt.fin.injEq]
  field_simp
  ring

theorem sumSquaresOver_split (output weight : List ℚ) {rows sp ex : List Nat}
    (h : rows.Perm (sp ++ ex)) :
    sumSquaresOver output weight rows =
      sumSquaresOver output weight sp + sumSquaresOver output weight ex := by
  unfold sumSquaresOver
  rw [(h.map _).sum_eq]
  simp

/-- The gain sum of a split whose sides have positive total weight, against the squared
error of the split. -/
theorem split_gain_eq (output weight : List ℚ) {rows sp ex : List Nat}
    (h : rows.Perm (sp ++ ex)) (hsp : 0 < totalWeightOver weight sp)
    (hex : 0 < totalWeightOver weight ex) :
    Flt.add (gain (directSumWeight output weight sp)) (gain (directSumWeight output weight ex)) =
      Flt.fin (sumSquaresOver output weight rows -
        (squaredErrorOver output weight sp + squaredErrorOver output weight ex)) := by
  rw [gain_directSumWeight output weight sp (ne_of_gt hsp),
    gain_directSumWeight output weight ex (ne_of_gt hex),
    squaredErrorOver_eq output weight sp (ne_of_gt hsp),
    squaredErrorOver_eq output weight ex (ne_of_gt hex), sumSquaresOver_split output weight h]
  simp only [Flt.add, Flt.fin.injEq]
  ring

/-- C19.  For a region with rows `rows` and a split of them into the sides `sp` and `ex`, both
of positive total weight, the gain of either side is `weightedSum^2 / totalWeight`, and the
weighted sum of squared errors about the two sides' weighted means is the sum of
`weight * output^2` over the region less the gain sum `g` of the split.  Hence of two such
splits of the same region the one with the larger gain sum has the smaller squared error. -/
theorem gain_minimises_squared_error (output weight : List ℚ) (rows sp ex sp2 ex2 : List Nat)
    (h : rows.Perm (sp ++ ex)) (hsp : 0 < totalWeightOver weight sp)
    (hex : 0 < totalWeightOver weight ex) (h2 : rows.Perm (sp2 ++ ex2))
    (hsp2 : 0 < totalWeightOver weight sp2) (hex2 : 0 < totalWeightOver weight ex2) :
    gain (directSumWeight output weight sp) =
      Flt.fin (weightedSumOver output weight sp ^ 2 / totalWeightOver weight sp) ∧
    gain (directSumWeight output weight ex) =
      Flt.fin (weightedSumOver output weight ex ^ 2 / totalWeightOver weight ex) ∧
    (∃ g : ℚ, Flt.add (gain (directSumWeight output weight sp))
        (gain (directSumWeight output weight ex)) = Flt.fin g ∧
      squaredErrorOver output weight sp + squaredErrorOver output weight ex =
        sumSquaresOver output weight rows - g) ∧
    (Flt.gt
        (Flt.add (gain (directSumWeight output weight sp2))
          (gain (directSumWeight output weight ex2)))
        (Flt.add (gain (directSumWeight output weight sp))
          (gain (directSumWeight output weight ex))) = true ↔
      squaredErrorOver output weight sp2 + squaredErrorOver output weight ex2 <
        squaredErrorOver output weight sp + squaredErrorOver output weight ex) := by
  refine ⟨gain_directSumWeight output weight sp (ne_of_gt hsp),
    gain_directSumWeight output weight ex (ne_of_gt hex), ?_, ?_⟩
  · exact ⟨_, split_gain_eq output weight h hsp hex, by ring⟩
  · rw [split_gain_eq output weight h hsp hex, split_gain_eq output weight h2 hsp2 hex2]
    simp only [Flt.gt, Flt.lt, decide_eq_true_eq]
    constructor <;> intro hlt <;> linarith

/-- Witness of C19 on the data of `TestWeight`: the rows 0, 1, 2 split into `{2}` and
`{0, 1}`, and into `{1, 2}` and `{0}`. -/
theorem gain_minimises_squared_error_witness :
    gain (directSumWeight [0, 2, 5] [1, 1, 1] [2]) =
      Flt.fin (weightedSumOver [0, 2, 5] [1, 1, 1] [2] ^ 2 / totalWeightOver [1, 1, 1] [2]) ∧
    gain (directSumWeight [0, 2, 5] [1, 1, 1] [0, 1]) =
      Flt.fin (weightedSumOver [0, 2, 5] [1, 1, 1] [0, 1] ^ 2 /
        totalWeightOver [1, 1, 1] [0, 1]) ∧
    (∃ g : ℚ, Flt.add (gain (directSumWeight [0, 2, 5] [1, 1, 1] [2]))
        (gain (directSumWeight [0, 2, 5] [1, 1, 1] [0, 1])) = Flt.fin g ∧
      squaredErrorOver [0, 2, 5] [1, 1, 1] [2] + squaredErrorOver [0, 2, 5] [1, 1, 1] [0, 1] =
        sumSquaresOver [0, 2, 5] [1, 1, 1] [0, 1, 2] - g) ∧
    (Flt.gt
        (Flt.add (gain (directSumWeight [0, 2, 5] [1, 1, 1] [1, 2]))
          (gain (directSumWeight [0, 2, 5] [1, 1, 1] [0])))
        (Flt.add (gain (directSumWeight [0, 2, 5] [1, 1, 1] [2]))
          (gain (directSumWeight [0, 2, 5] [1, 1, 1] [0, 1]))) = true ↔
      squaredErrorOver [0, 2, 5] [1, 1, 1] [1, 2] + squaredErrorOver [0, 2, 5] [1, 1, 1] [0] <
        squaredErrorOver [0, 2, 5] [1, 1, 1] [2] + squaredErrorOver [0, 2, 5] [1, 1, 1] [0, 1]) :=
  gain_minimises_squared_error [0, 2, 5] [1, 1, 1] [0, 1, 2] [2] [0, 1] [1, 2] [0]
    (by decide) (by decide!) (by decide!) (by decide) (by decide!) (by decide!)

/-! ## The frame of TryToSplitRegion -/

theorem moveExcluded_length (mask : List Bool) : ∀ (i : Nat) (sl : List Nat) (exIdx : Int)
    (sl1 : List Nat), moveExcluded mask i sl exIdx = some sl1 → sl1.length = sl.length := by
  intro i
  induction i with
  | zero =>
    intro sl exIdx sl1 h
    simp only [moveExcluded, Option.some.injEq] at h
    rw [← h]
  | succ i ih =>
    intro sl exIdx sl1 h
    unfold moveExcluded at h
    cases h1 : sl[i]? with
    | none => simp [h1] at h
    | some id =>
      cases h2 : mask[id]? with
      | none => simp [h1, h2] at h
      | some b =>
        cases b with
        | true =>
          simp only [h1, h2] at h
          exact ih _ _ _ h
        | false =>
          simp only [h1, h2] at h
          split at h
          · cases h
          · cases h3 : setAt sl exIdx.toNat id with
            | none => simp [h3] at h
            | some sl2 =>
              simp only [h3] at h
              rw [ih _ _ _ h, setAt_length h3]

theorem insertionInner_preserves {σ : Type} {less : σ → Nat → Nat → Option Bool}
    {swap : σ → Nat → Nat → Option σ} {P : σ → Prop}
    (hswap : ∀ s i j s1, P s → swap s i j = some s1 → P s1) :
    ∀ (j : Nat) (s s1 : σ), P s → insertionInner less swap j s = some s1 → P s1 := by
  intro j
  induction j with
  | zero =>
    intro s s1 hP h
    simp only [insertionInner, Option.some.injEq] at h
    rw [← h]
    exact hP
  | succ j ih =>
    intro s s1 hP h
    unfold insertionInner at h
    cases h1 : less s (j + 1) j with
    | none => simp [h1] at h
    | some b =>
      cases b with
      | false =>
        simp only [h1, Option.some.injEq] at h
        rw [← h]
        exact hP
      | true =>
        simp only [h1] at h
        cases h2 : swap s (j + 1) j with
        | none => simp [h2] at h
        | some s2 =>
          simp only [h2] at h
          exact ih _ _ (hswap _ _ _ _ hP h2) h

/-- A property of the sorted data that every `Swap` keeps is kept by `sort.Sort`. -/
theorem sortSort_preserves {σ : Type} {less : σ → Nat → Nat → Option Bool}
    {swap : σ → Nat → Nat → Option σ} {P : σ → Prop}
    (hswap : ∀ s i j s1, P s → swap s i j = some s1 → P s1) (n : Nat) (s s1 : σ) (hP : P s)
    (h : sortSort less swap n s = some s1) : P s1 :=
  foldlM_invariant (P := P)
    (fun st k st1 hst hstep => insertionInner_preserves hswap (k + 1) st st1 hst hstep)
    _ _ _ hP h

theorem regionSort_swap_length (s : sortByRegionInputsStruct) (i j : Nat)
    (s1 : sortByRegionInputsStruct) (n : Nat) (hn : s.idsInRegion.length = n)
    (h : s.Swap i j = some s1) : s1.idsInRegion.length = n := by
  unfold sortByRegionInputsStruct.Swap at h
  cases h1 : s.idsInRegion[i]? with
  | none => simp [h1] at h
  | some a =>
    cases h2 : s.idsInRegion[j]? with
    | none => simp [h1, h2] at h
    | some b =>
      simp only [h1, h2, Option.some.injEq] at h
      rw [← h]
      simpa using hn

theorem splice_getElem_outside {α : Type} {a s : List α} {lo hi : Nat} (h1 : lo ≤ hi)
    (h2 : hi ≤ a.length) (hs : s.length = hi - lo) (p : Nat) (hp : p < lo ∨ hi ≤ p) :
    (splice a lo s)[p]? = a[p]? := by
  unfold splice
  have hlt : (a.take lo).length = lo := by simp; omega
  rcases hp with hp | hp
  · rw [List.append_assoc, List.getElem?_append_left (by omega), List.getElem?_take_of_lt hp]
  · rw [List.getElem?_append_right (by simp; omega), List.getElem?_drop]
    congr 1
    simp only [List.length_append, hlt, hs]
    omega

theorem forall2_getElem {α β : Type} {R : α → β → Prop} {l1 : List α} {l2 : List β}
    (h : List.Forall₂ R l1 l2) :
    ∀ (i : Nat) (a : α), l1[i]? = some a → ∃ b, l2[i]? = some b ∧ R a b := by
  induction h with
  | nil =>
    intro i a ha
    simp at ha
  | cons hab _ ih =>
    intro i a ha
    cases i with
    | zero =>
      simp only [List.getElem?_cons_zero, Option.some.injEq] at ha
      subst ha
      exact ⟨_, by simp, hab⟩
    | succ i =>
      simp only [List.getElem?_cons_succ] at ha ⊢
      exact ih i a ha

/-- The re-sort of one per-input ordering keeps its length and every element outside the
region. -/
theorem resortInput_frame {mask : List Bool} {region : offsetRange} {arr arr1 : List Nat}
    (h : resortInput mask region arr = some arr1) :
    arr1.length = arr.length ∧
      ∀ p, p < region.begin ∨ region.end_ ≤ p → arr1[p]? = arr[p]? := by
  unfold resortInput at h
  cases h1 : slice arr region.begin region.end_ with
  | none => simp [h1] at h
  | some bv =>
    simp only [h1] at h
    cases h2 : sortSort sortByRegionInputsStruct.Less sortByRegionInputsStruct.Swap
        (sortByRegionInputsStruct.Len ⟨bv, mask⟩) ⟨bv, mask⟩ with
    | none => simp [h2] at h
    | some s1 =>
      simp only [h2, Option.some.injEq] at h
      obtain ⟨hb, he, _⟩ := slice_eq_some h1
      have hlen : s1.idsInRegion.length = bv.length :=
        sortSort_preserves (P := fun s => s.idsInRegion.length = bv.length)
          (fun s i j s1 hs hsw => regionSort_swap_length s i j s1 _ hs hsw) _ _ _ rfl h2
      have hbv := slice_length h1
      rw [← h]
      exact ⟨splice_length _ _ _ (by omega),
        fun p hp => splice_getElem_outside hb he (by omega) p hp⟩

/-- C20.  When the depth or `minItems` guard of `TryToSplitRegion` applies, the call returns
0 and the builder is unchanged: no ordering and no tree entry is written.  And whatever a call
on the region `[b, e)` returns, `byRegionIds` and every `byRegionInputs[f]` keep their lengths
and every element at a position outside `[b, e)`. -/
theorem TryToSplitRegion_frame (tb : treeBuilder) (region : offsetRange)
    (splitIdx depth : Nat) :
    ((tb.maxDepth < depth + 1 ∨ region.Size < 2 * tb.minItems) →
      TryToSplitRegion tb region splitIdx depth = some (tb, 0)) ∧
    ∀ tb1 k, TryToSplitRegion tb region splitIdx depth = some (tb1, k) →
      tb1.byRegionIds.length = tb.byRegionIds.length ∧
      (∀ p, p < region.begin ∨ region.end_ ≤ p → tb1.byRegionIds[p]? = tb.byRegionIds[p]?) ∧
      tb1.byRegionInputs.length = tb.byRegionInputs.length ∧
      ∀ (f : Nat) (arr : List Nat), tb.byRegionInputs[f]? = some arr →
        ∃ arr1, tb1.byRegionInputs[f]? = some arr1 ∧ arr1.length = arr.length ∧
          ∀ p, p < region.begin ∨ region.end_ ≤ p → arr1[p]? = arr[p]? := by
  constructor
  · intro hg
    unfold TryToSplitRegion
    rw [if_pos]
    rcases hg with hg | hg
    · exact Or.inl hg
    · exact Or.inr (by omega)
  · intro tb1 k h
    rcases TryToSplitRegion_inv h with hr | ⟨_, _, results, bs, _, _, _, hc⟩
    · simp only [Prod.mk.injEq] at hr
      obtain ⟨rfl, _⟩ := hr
      exact ⟨rfl, fun _ _ => rfl, rfl, fun f arr ha => ⟨arr, ha, rfl, fun _ _ => rfl⟩⟩
    · obtain ⟨winner, idsInSplit, splits, mask, sl0, sl1, sl2, bri, _, _, _, _, h5, h6, h7, h8,
        h9⟩ := commitSplit_inv hc
      simp only [Prod.mk.injEq] at h9
      obtain ⟨rfl, _⟩ := h9
      obtain ⟨hb, he, _⟩ := slice_eq_some h5
      have hl0 := slice_length h5
      have hl1 := moveExcluded_length mask _ _ _ _ h6
      obtain ⟨hle, hsl2⟩ := moveIncluded_inv mask sl1 sl2 h7
      have hl2 : sl2.length = region.end_ - region.begin := by
        rw [hsl2, List.length_append, List.length_drop]
        omega
      have hall := (mapOpt_eq_some_iff _ _ _).mp h8
      refine ⟨splice_length _ _ _ (by omega),
        fun p hp => splice_getElem_outside hb he hl2 p hp, hall.length_eq.symm, ?_⟩
      intro f arr ha
      obtain ⟨arr1, ha1, hres⟩ := forall2_getElem hall f arr ha
      obtain ⟨hlen, hout⟩ := resortInput_frame hres
      exact ⟨arr1, ha1, hlen, hout⟩

/-- Witness of C20: a call on the region `[0, 2)` of the three rows of `weightBuilder`
commits a split (it returns 1 and swaps the rows at offsets 0 and 1) and keeps the element at
offset 2 of every ordering. -/
theorem TryToSplitRegion_frame_witness :
    ∃ tb1 k, TryToSplitRegion weightBuilder ⟨0, 2⟩ 0 0 = some (tb1, k) ∧ k = 1 ∧
      tb1.byRegionIds = [1, 0, 2] ∧ tb1.byRegionIds.length = weightBuilder.byRegionIds.length ∧
      (∀ p, p < 0 ∨ 2 ≤ p → tb1.byRegionIds[p]? = weightBuilder.byRegionIds[p]?) ∧
      tb1.byRegionInputs.length = weightBuilder.byRegionInputs.length ∧
      ∀ (f : Nat) (arr : List Nat), weightBuilder.byRegionInputs[f]? = some arr →
        ∃ arr1, tb1.byRegionInputs[f]? = some arr1 ∧ arr1.length = arr.length ∧
          ∀ p, p < 0 ∨ 2 ≤ p → arr1[p]? = arr[p]? :=
  match hT : TryToSplitRegion weightBuilder ⟨0, 2⟩ 0 0 with
  | none => absurd hT (by decide!)
  | some (tb1, k) =>
    have hk : ((TryToSplitRegion weightBuilder ⟨0, 2⟩ 0 0).map
        (fun r => (r.2, r.1.byRegionIds))) = some (1, [1, 0, 2]) := by decide!
    have hk2 : k = 1 ∧ tb1.byRegionIds = [1, 0, 2] := by
      rw [hT] at hk
      simpa using hk
    have hf := (TryToSplitRegion_frame weightBuilder ⟨0, 2⟩ 0 0).2 tb1 k hT
    ⟨tb1, k, rfl, hk2.1, hk2.2, hf.1, hf.2.1, hf.2.2.1, hf.2.2.2⟩

/-! ## Node indices -/

theorem Below.le {a b : Nat} (h : Below a b) : a ≤ b := by
  induction h with
  | self => exact Nat.le_refl _
  | left i _ ih => omega
  | right i _ ih => omega

/-- What one iteration of the rounded scan loop does: the row is moved from one accumulator
to the other, `prevValue` becomes its value, and `bestSplit` is kept or replaced by the
candidate of this position. -/
theorem scanStepRounded_cases {tb : treeBuilder} {f : Nat} {input : List ℚ}
    {byValue : List Nat} {st st1 : scanStateRounded} {j : Nat}
    (h : scanStepRounded tb f input byValue st j = some st1) :
    ∃ id value o w, byValue[j]? = some id ∧ input[id]? = some value ∧
      tb.output[id]? = some o ∧ tb.weight[id]? = some w ∧
      st1.spSumWeight = st.spSumWeight.Subtract o w ∧
      st1.exSumWeight = st.exSumWeight.Add o w ∧ st1.prevValue = Flt.fin value ∧
      ((st1.bestSplit = st.bestSplit ∧
          (Flt.lt (Flt.fin value) (Flt.add32 st.prevValue eps32) = true ∨
            (j < tb.minItems ∨ byValue.length < tb.minItems + j) ∨
            Flt.gt (Flt.add64 (gainRounded st.spSumWeight) (gainRounded st.exSumWeight))
              (Flt.add64 st.bestSplit.gain eps64) = false)) ∨
        (st1.bestSplit = ⟨f, ⟨j, byValue.length⟩,
            Flt.div32 (Flt.add32 st.prevValue (Flt.fin value)) (Flt.fin 2),
            Flt.add64 (gainRounded st.spSumWeight) (gainRounded st.exSumWeight)⟩ ∧
          Flt.lt (Flt.fin value) (Flt.add32 st.prevValue eps32) = false ∧
          tb.minItems ≤ j ∧ tb.minItems + j ≤ byValue.length ∧
          Flt.gt (Flt.add64 (gainRounded st.spSumWeight) (gainRounded st.exSumWeight))
            (Flt.add64 st.bestSplit.gain eps64) = true)) := by
  unfold scanStepRounded at h
  cases h1 : byValue[j]? with
  | none => simp [h1] at h
  | some id =>
    cases h2 : input[id]? with
    | none => simp [h1, h2] at h
    | some value =>
      cases h3 : tb.output[id]? with
      | none => simp [h1, h2, h3] at h
      | some o =>
        cases h4 : tb.weight[id]? with
        | none => simp [h1, h2, h3, h4] at h
        | some w =>
          simp only [h1, h2, h3, h4] at h
          refine ⟨id, value, o, w, rfl, h2, h3, h4, ?_⟩
          split at h
          · rename_i hlt
            cases h
            exact ⟨rfl, rfl, rfl, Or.inl ⟨rfl, Or.inl hlt⟩⟩
          · rename_i hlt
            split at h
            · rename_i hmin
              cases h
              refine ⟨rfl, rfl, rfl, Or.inl ⟨rfl, Or.inr (Or.inl ?_)⟩⟩
              rcases hmin with hm | hm
              · exact Or.inl hm
              · exact Or.inr (by omega)
            · rename_i hmin
              split at h
              · rename_i hgt
                cases h
                refine ⟨rfl, rfl, rfl, Or.inr ⟨rfl, by simpa using hlt, by omega, by omega, hgt⟩⟩
              · rename_i hgt
                cases h
                exact ⟨rfl, rfl, rfl, Or.inl ⟨rfl, Or.inr (Or.inr (by simpa using hgt))⟩⟩

theorem gainRounded_zero : gainRounded ⟨Flt.fin 0, Flt.fin 0⟩ = Flt.nan := by
  simp [gainRounded, Flt.div64, Flt.mul64, Flt.div, Flt.mul, Flt.to64]

theorem Flt.add64_nan (a : Flt) : Flt.add64 a Flt.nan = Flt.nan := by
  cases a <;> rfl

/-- A value that is greater than another one is a number or `+Inf`. -/
theorem properGain_of_gt {g x : Flt} (h : Flt.gt g x = true) : ProperGain g := by
  revert h
  cases g <;> cases x <;> simp [Flt.gt, Flt.lt, ProperGain]

theorem scanStepRounded_inv (tb : treeBuilder) (f : Nat) (input : List ℚ) (byValue : List Nat)
    (j : Nat) (st st1 : scanStateRounded) (_hj : j < byValue.length)
    (hinv : ScanInvRounded tb f input byValue j st)
    (h : scanStepRounded tb f input byValue st j = some st1) :
    ScanInvRounded tb f input byValue (j + 1) st1 := by
  obtain ⟨h0, hprev, hbest⟩ := hinv
  obtain ⟨id, value, o, w, h1, h2, _, _, _, _, hpv, hcase⟩ := scanStepRounded_cases h
  refine ⟨by omega, ?_, ?_⟩
  · intro k hk
    have : k = j := by omega
    subst this
    exact ⟨id, value, h1, h2, hpv⟩
  · rcases hcase with ⟨hb, _⟩ | ⟨hb, hlt, hm1, hm2, hgt⟩
    · rw [hb]
      rcases hbest with hb1 | ⟨i, idp, idc, x, y, a1, a2, a3, a4, a5⟩
      · exact Or.inl hb1
      · exact Or.inr ⟨i, idp, idc, x, y, a1, a2, a3, by omega, a5⟩
    · cases j with
      | zero =>
        exfalso
        rw [(h0 rfl).1, gainRounded_zero, Flt.add64_nan, Flt.gt_nan] at hgt
        cases hgt
      | succ k =>
        obtain ⟨idp, x, hk1, hk2, hk3⟩ := hprev k rfl
        right
        rw [hk3] at hlt
        refine ⟨k, idp, id, x, value, by rw [hb], by rw [hb], by rw [hb, hk3], by omega, hk1,
          h1, hk2, h2, hlt, by omega, by omega, ?_⟩
        rw [hb]
        exact properGain_of_gt hgt

/-- Everything `FindBestSplitForInput` computed on the way to its result, in rounded
arithmetic. -/
theorem FindBestSplitForInputRounded_inv {tb : treeBuilder} {region : offsetRange} {f : Nat}
    {s : splitInfo} (h : FindBestSplitForInputRounded tb region f = some s) :
    ∃ sp input ids byValue st, ComputeSumWeightRounded tb region = some sp ∧
      tb.inputs[f]? = some input ∧ tb.byRegionInputs[f]? = some ids ∧
      slice ids region.begin region.end_ = some byValue ∧
      (List.range byValue.length).foldlM (scanStepRounded tb f input byValue)
        ⟨sp, ⟨Flt.fin 0, Flt.fin 0⟩, Flt.ninf, noSplit⟩ = some st ∧ st.bestSplit = s := by
  unfold FindBestSplitForInputRounded at h
  cases h1 : ComputeSumWeightRounded tb region with
  | none => simp [h1] at h
  | some sp =>
  cases h2 : tb.inputs[f]? with
  | none => simp [h1, h2] at h
  | some input =>
  cases h3 : tb.byRegionInputs[f]? with
  | none => simp [h1, h2, h3] at h
  | some ids =>
  cases h4 : slice ids region.begin region.end_ with
  | none => simp [h1, h2, h3, h4] at h
  | some byValue =>
  cases h5 : (List.range byValue.length).foldlM (scanStepRounded tb f input byValue)
      ⟨sp, ⟨Flt.fin 0, Flt.fin 0⟩, Flt.ninf, noSplit⟩ with
  | none =>
    simp only [h1, h2, h3, h4] at h
    rw [show (⟨0, ⟨0, 0⟩, Flt.fin 0, Flt.fin (-1)⟩ : splitInfo) = noSplit from rfl, h5] at h
    cases h
  | some st =>
    simp only [h1, h2, h3, h4] at h
    rw [show (⟨0, ⟨0, 0⟩, Flt.fin 0, Flt.fin (-1)⟩ : splitInfo) = noSplit from rfl, h5] at h
    exact ⟨sp, input, ids, byValue, st, rfl, rfl, rfl, h4, h5, by simpa using h⟩

/-- The result of the rounded `FindBestSplitForInput` satisfies the scan invariant at the end
of the region. -/
theorem FindBestSplitForInputRounded_scanInv {tb : treeBuilder} {region : offsetRange}
    {f : Nat} {s : splitInfo} (h : FindBestSplitForInputRounded tb region f = some s) :
    ∃ input ids byValue st, tb.inputs[f]? = some input ∧ tb.byRegionInputs[f]? = some ids ∧
      slice ids region.begin region.end_ = some byValue ∧ st.bestSplit = s ∧
      ScanInvRounded tb f input byValue byValue.length st := by
  obtain ⟨sp, input, ids, byValue, st, _, h2, h3, h4, h5, h6⟩ :=
    FindBestSplitForInputRounded_inv h
  refine ⟨input, ids, byValue, st, h2, h3, h4, h6, ?_⟩
  exact foldlM_range_invariant (P := ScanInvRounded tb f input byValue) byValue.length
    (fun j st st1 hj hP hs => scanStepRounded_inv tb f input byValue j st st1 hj hP hs)
    _ ⟨fun _ => ⟨rfl, rfl⟩, fun k hk => by omega, Or.inl rfl⟩ _ (Nat.le_refl _) st h5

theorem sumStepRounded_fold_eq (tb : treeBuilder) : ∀ (n b : Nat) (acc sw : sumWeightRounded),
    (List.range' b n).foldlM (sumStepRounded tb) acc = some sw →
      sw = ((tb.byRegionIds.drop b).take n).foldl (addRowRounded tb.output tb.weight) acc := by
  intro n
  induction n with
  | zero =>
    intro b acc sw h
    simp only [List.range'_zero, List.foldlM_nil] at h
    cases h
    simp
  | succ n ih =>
    intro b acc sw h
    rw [List.range'_succ, List.foldlM_cons] at h
    cases hid : tb.byRegionIds[b]? with
    | none => simp [sumStepRounded, hid] at h
    | some id =>
      cases ho : tb.output[id]? with
      | none => simp [sumStepRounded, hid, ho] at h
      | some o =>
        cases hw : tb.weight[id]? with
        | none => simp [sumStepRounded, hid, ho, hw] at h
        | some w =>
          have hs : sumStepRounded tb acc b = some (acc.Add o w) := by
            simp [sumStepRounded, hid, ho, hw]
          rw [hs] at h
          simp only [Option.bind_eq_bind, Option.some_bind] at h
          have := ih (b + 1) _ sw h
          have hb : b < tb.byRegionIds.length := by
            by_contra hc
            rw [List.getElem?_eq_none (by omega)] at hid
            cases hid
          have hd : tb.byRegionIds.drop b = id :: tb.byRegionIds.drop (b + 1) := by
            rw [List.drop_eq_getElem_cons hb]
            rw [List.getElem?_eq_getElem hb] at hid
            cases hid
            rfl
          rw [this, hd]
          simp only [List.take_succ_cons, List.foldl_cons, addRowRounded,
            List.getD_eq_getElem?_getD, ho, hw, Option.getD_some]

theorem sumStepRounded_fold_some (tb : treeBuilder) : ∀ (n b : Nat) (acc : sumWeightRounded),
    b + n ≤ tb.byRegionIds.length →
    (∀ id ∈ (tb.byRegionIds.drop b).take n, id < tb.output.length ∧ id < tb.weight.length) →
    ∃ sw, (List.range' b n).foldlM (sumStepRounded tb) acc = some sw := by
  intro n
  induction n with
  | zero => intro b acc _ _; exact ⟨acc, rfl⟩
  | succ n ih =>
    intro b acc hb hv
    have hb1 : b < tb.byRegionIds.length := by omega
    have hd : tb.byRegionIds.drop b = tb.byRegionIds[b] :: tb.byRegionIds.drop (b + 1) :=
      List.drop_eq_getElem_cons hb1
    rw [hd, List.take_succ_cons] at hv
    obtain ⟨h1, h2⟩ := hv _ (List.mem_cons_self _ _)
    have hs : sumStepRounded tb acc b =
        some (acc.Add tb.output[tb.byRegionIds[b]] tb.weight[tb.byRegionIds[b]]) := by
      simp [sumStepRounded, List.getElem?_eq_getElem hb1, List.getElem?_eq_getElem h1,
        List.getElem?_eq_getElem h2]
    rw [List.range'_succ, List.foldlM_cons, hs]
    simp only [Option.bind_eq_bind, Option.some_bind]
    exact ih (b + 1) _ (by omega) (fun id hid => hv id (List.mem_cons_of_mem _ hid))

/-- When the rounded `ComputeSumWeight` returns, it returns the accumulation over the rows
that the region's slice of `byRegionIds` holds, in their order. -/
theorem ComputeSumWeightRounded_eq {tb : treeBuilder} {region : offsetRange}
    {sw : sumWeightRounded} (h : ComputeSumWeightRounded tb region = some sw) :
    sw = accumulateRounded tb.output tb.weight
      ((tb.byRegionIds.drop region.begin).take region.Size) :=
  sumStepRounded_fold_eq tb _ _ _ _ h

/-- The rounded `ComputeSumWeight` returns when the region lies inside `byRegionIds` and
holds row ids for which an output and a weight exist. -/
theorem ComputeSumWeightRounded_some {tb : treeBuilder} {region : offsetRange}
    (hb : region.begin ≤ region.end_) (he : region.end_ ≤ tb.byRegionIds.length)
    (hv : ∀ id ∈ (tb.byRegionIds.drop region.begin).take region.Size,
      id < tb.output.length ∧ id < tb.weight.length) :
    ComputeSumWeightRounded tb region = some (accumulateRounded tb.output tb.weight
      ((tb.byRegionIds.drop region.begin).take region.Size)) := by
  obtain ⟨sw, h⟩ := sumStepRounded_fold_some tb (region.end_ - region.begin) region.begin
    ⟨Flt.fin 0, Flt.fin 0⟩ (by omega) hv
  have h1 : ComputeSumWeightRounded tb region = some sw := h
  rw [h1, ComputeSumWeightRounded_eq h1]

/-! ## The accumulators of the scan loop in rounded arithmetic -/

theorem Flt.add64_exact {a b : ℚ} (h : Exact64 (a + b)) :
    Flt.add64 (Flt.fin a) (Flt.fin b) = Flt.fin (a + b) := h

theorem Flt.mul64_exact {a b : ℚ} (h : Exact64 (a * b)) :
    Flt.mul64 (Flt.fin a) (Flt.fin b) = Flt.fin (a * b) := h

theorem Flt.sub64_exact {a b c : ℚ} (h : Exact64 c) (hc : a - b = c) :
    Flt.sub64 (Flt.fin a) (Flt.fin b) = Flt.fin c := by
  show round64 (a + -b) = Flt.fin c
  rw [← sub_eq_add_neg, hc]
  exact h

/-- Adding a row to exact sums gives exact sums, when the product and the new sums are
`float64` values. -/
theorem addRowRounded_exact (output weight : List ℚ) (l : List Nat) (id : Nat)
    (h1 : SumsExact output weight [id]) (h2 : SumsExact output weight (l ++ [id])) :
    addRowRounded output weight (exactSumWeight output weight l) id =
      exactSumWeight output weight (l ++ [id]) := by
  obtain ⟨p1, _⟩ := h1
  obtain ⟨s1, s2⟩ := h2
  simp only [weightedSumOver, totalWeightOver, List.map_append, List.sum_append, List.map_cons,
    List.map_nil, List.sum_cons, List.sum_nil, add_zero] at p1 s1 s2
  simp only [addRowRounded, sumWeightRounded.Add, exactSumWeight, weightedSumOver,
    totalWeightOver, List.map_append, List.sum_append, List.map_cons, List.map_nil,
    List.sum_cons, List.sum_nil, add_zero]
  rw [Flt.mul64_exact p1, Flt.add64_exact s1, Flt.add64_exact s2]

theorem weightedSumOver_cons {output weight : List ℚ} {id : Nat} {o w : ℚ} (l : List Nat)
    (ho : output[id]? = some o) (hw : weight[id]? = some w) :
    weightedSumOver output weight (id :: l) = o * w + weightedSumOver output weight l := by
  simp [weightedSumOver, List.getD_eq_getElem?_getD, ho, hw]

theorem totalWeightOver_cons {weight : List ℚ} {id : Nat} {w : ℚ} (l : List Nat)
    (hw : weight[id]? = some w) :
    totalWeightOver weight (id :: l) = w + totalWeightOver weight l := by
  simp [totalWeightOver, List.getD_eq_getElem?_getD, hw]

/-- Taking the first row away from exact sums gives exact sums, when the product and the new
sums are `float64` values. -/
theorem subtractRounded_exact (output weight : List ℚ) (l : List Nat) (id : Nat) (o w : ℚ)
    (ho : output[id]? = some o) (hw : weight[id]? = some w)
    (h1 : SumsExact output weight [id]) (h2 : SumsExact output weight l) :
    (exactSumWeight output weight (id :: l)).Subtract o w = exactSumWeight output weight l := by
  obtain ⟨p1, _⟩ := h1
  obtain ⟨s1, s2⟩ := h2
  rw [weightedSumOver_single ho hw] at p1
  simp only [sumWeightRounded.Subtract, exactSumWeight]
  rw [weightedSumOver_cons l ho hw, totalWeightOver_cons l hw, Flt.mul64_exact p1,
    Flt.sub64_exact s1 (by ring), Flt.sub64_exact s2 (by ring)]

/-- A pass over rows all of whose partial sums and products are `float64` values ends with
the exact sums. -/
theorem accumulateRounded_exact (output weight : List ℚ) (rows : List Nat)
    (hp : ∀ id ∈ rows, SumsExact output weight [id])
    (hs : ∀ k, k ≤ rows.length → SumsExact output weight (rows.take k)) :
    accumulateRounded output weight rows = exactSumWeight output weight rows := by
  have key : ∀ k, k ≤ rows.length →
      (rows.take k).foldl (addRowRounded output weight) ⟨Flt.fin 0, Flt.fin 0⟩ =
        exactSumWeight output weight (rows.take k) := by
    intro k
    induction k with
    | zero =>
      intro _
      simp [exactSumWeight, weightedSumOver, totalWeightOver]
    | succ k ih =>
      intro hk
      have hlt : k < rows.length := by omega
      have ht : rows.take (k + 1) = rows.take k ++ [rows[k]] := by
        rw [List.take_succ, List.getElem?_eq_getElem hlt]
        rfl
      have h2 := hs (k + 1) hk
      rw [ht] at h2 ⊢
      rw [List.foldl_append, ih (by omega)]
      exact addRowRounded_exact output weight _ _ (hp _ (List.getElem_mem hlt)) h2
  have := key rows.length (Nat.le_refl _)
  rw [List.take_length] at this
  exact this

theorem exactSumWeight_perm (output weight : List ℚ) {l1 l2 : List Nat} (h : l1.Perm l2) :
    exactSumWeight output weight l1 = exactSumWeight output weight l2 := by
  simp only [exactSumWeight, weightedSumOver_perm output weight h, totalWeightOver_perm weight h]

/-- The families of row lists that `partialRows` collects. -/
theorem partialRows_mem (regionRows byValue : List Nat) :
    (∀ k, k ≤ regionRows.length → regionRows.take k ∈ partialRows regionRows byValue) ∧
    (∀ k, k ≤ byValue.length → byValue.take k ∈ partialRows regionRows byValue) ∧
    (∀ k, k ≤ byValue.length → byValue.drop k ∈ partialRows regionRows byValue) ∧
    (∀ id ∈ byValue, [id] ∈ partialRows regionRows byValue) := by
  unfold partialRows
  refine ⟨?_, ?_, ?_, ?_⟩
  · intro k hk
    simp only [List.mem_append, List.mem_map, List.mem_range]
    exact Or.inl (Or.inl (Or.inl ⟨k, by omega, rfl⟩))
  · intro k hk
    simp only [List.mem_append, List.mem_map, List.mem_range]
    exact Or.inl (Or.inl (Or.inr ⟨k, by omega, rfl⟩))
  · intro k hk
    simp only [List.mem_append, List.mem_map, List.mem_range]
    exact Or.inl (Or.inr ⟨k, by omega, rfl⟩)
  · intro id hid
    simp only [List.mem_append, List.mem_map, List.mem_range]
    exact Or.inr ⟨id, hid, rfl⟩

/-- One iteration of the rounded scan loop keeps the accumulator invariant when the sums it
forms are `float64` values. -/
theorem scanStepRounded_accInv (tb : treeBuilder) (f : Nat) (input : List ℚ)
    (byValue : List Nat)
    (hp : ∀ id ∈ byValue, SumsExact tb.output tb.weight [id])
    (hpre : ∀ k, k ≤ byValue.length → SumsExact tb.output tb.weight (byValue.take k))
    (hsuf : ∀ k, k ≤ byValue.length → SumsExact tb.output tb.weight (byValue.drop k))
    (j : Nat) (st st1 : scanStateRounded) (hj : j < byValue.length)
    (hinv : AccInvRounded tb byValue j st)
    (h : scanStepRounded tb f input byValue st j = some st1) :
    AccInvRounded tb byValue (j + 1) st1 := by
  obtain ⟨hex, hsp, hbest⟩ := hinv
  obtain ⟨id, value, o, w, h1, _, h3, h4, e1, e2, _, hcase⟩ := scanStepRounded_cases h
  have htake := take_succ_of_getElem h1
  have hmem : id ∈ byValue := List.getElem?_mem h1
  have hdrop : byValue.drop j = id :: byValue.drop (j + 1) := by
    rw [List.drop_eq_getElem_cons hj]
    rw [List.getElem?_eq_getElem hj] at h1
    cases h1
    rfl
  refine ⟨?_, ?_, ?_⟩
  · rw [e2, hex, htake]
    have := addRowRounded_exact tb.output tb.weight (byValue.take j) id (hp id hmem)
      (by rw [← htake]; exact hpre (j + 1) (by omega))
    simpa only [addRowRounded, List.getD_eq_getElem?_getD, h3, h4, Option.getD_some] using this
  · rw [e1, hsp, hdrop]
    exact subtractRounded_exact tb.output tb.weight _ id o w h3 h4 (hp id hmem)
      (hsuf (j + 1) (by omega))
  · rcases hcase with ⟨hb, _⟩ | ⟨hb, _⟩
    · rw [hb]
      rcases hbest with hn | ⟨i, hi, hr, hg⟩
      · exact Or.inl hn
      · exact Or.inr ⟨i, by omega, hr, hg⟩
    · right
      refine ⟨j, by omega, by rw [hb], ?_⟩
      rw [hb]
      simp only
      rw [hsp, hex]
      rfl

/-- Everything `scanStateAtRounded` computed on the way to its result. -/
theorem scanStateAtRounded_inv {tb : treeBuilder} {region : offsetRange} {f i : Nat}
    {st : scanStateRounded} (h : scanStateAtRounded tb region f i = some st) :
    ∃ sp input ids byValue, ComputeSumWeightRounded tb region = some sp ∧
      tb.inputs[f]? = some input ∧ tb.byRegionInputs[f]? = some ids ∧
      slice ids region.begin region.end_ = some byValue ∧
      (List.range i).foldlM (scanStepRounded tb f input byValue)
        ⟨sp, ⟨Flt.fin 0, Flt.fin 0⟩, Flt.ninf, noSplit⟩ = some st := by
  unfold scanStateAtRounded at h
  cases h1 : ComputeSumWeightRounded tb region with
  | none => simp [h1] at h
  | some sp =>
  cases h2 : tb.inputs[f]? with
  | none => simp [h1, h2] at h
  | some input =>
  cases h3 : tb.byRegionInputs[f]? with
  | none => simp [h1, h2, h3] at h
  | some ids =>
  cases h4 : slice ids region.begin region.end_ with
  | none => simp [h1, h2, h3, h4] at h
  | some byValue =>
    simp only [h1, h2, h3, h4] at h
    exact ⟨sp, input, ids, byValue, rfl, rfl, rfl, h4, h⟩

/-- The scan loop reaches no position past the end of the region. -/
theorem foldlM_range_le {σ : Type} {step : σ → Nat → Option σ} (n : Nat)
    (hn : ∀ st, step st n = none) (init : σ) :
    ∀ m st, (List.range m).foldlM step init = some st → m ≤ n := by
  intro m st h
  by_contra hc
  have hm : m = (n + 1) + (m - (n + 1)) := by omega
  rw [hm, List.range_add, List.foldlM_append, List.range_succ, List.foldlM_append] at h
  cases h0 : (List.range n).foldlM step init with
  | none => simp [h0] at h
  | some s0 => simp [h0, hn s0] at h

theorem scanStepRounded_none (tb : treeBuilder) (f : Nat) (input : List ℚ)
    (byValue : List Nat) (st : scanStateRounded) :
    scanStepRounded tb f input byValue st byValue.length = none := by
  simp [scanStepRounded]

theorem scanStepRounded_some (tb : treeBuilder) (f : Nat) (input : List ℚ)
    (byValue : List Nat)
    (hv : ∀ id ∈ byValue, id < input.length ∧ id < tb.output.length ∧ id < tb.weight.length)
    (st : scanStateRounded) (j : Nat) (hj : j < byValue.length) :
    ∃ st1, scanStepRounded tb f input byValue st j = some st1 := by
  obtain ⟨h1, h2, h3⟩ := hv _ (List.getElem_mem hj)
  unfold scanStepRounded
  simp only [List.getElem?_eq_getElem hj, List.getElem?_eq_getElem h1,
    List.getElem?_eq_getElem h2, List.getElem?_eq_getElem h3]
  split
  · exact ⟨_, rfl⟩
  · split
    · exact ⟨_, rfl⟩
    · split
      · exact ⟨_, rfl⟩
      · exact ⟨_, rfl⟩

/-- The rounded scan states exist at every position of a well-formed builder. -/
theorem scanStateAtRounded_some (tb : treeBuilder) (region : offsetRange) (f : Nat)
    (hok : BuilderOk tb) (hb : region.begin ≤ region.end_)
    (he : region.end_ ≤ tb.output.length) (hf : f < tb.inputs.length) :
    ∀ i, i ≤ region.Size → ∃ st, scanStateAtRounded tb region f i = some st := by
  intro i hi
  obtain ⟨k1, k2, k3, k4, k5, k6, _, _⟩ := hok
  have hsum := @ComputeSumWeightRounded_some tb region hb (by omega)
    (fun id hid => by
      have := k4 id (List.mem_of_mem_drop (List.mem_of_mem_take hid))
      omega)
  have hf2 : f < tb.byRegionInputs.length := by omega
  obtain ⟨ha1, ha2⟩ := k6 _ (List.getElem_mem hf2)
  have hcol := k2 _ (List.getElem_mem hf)
  have hsl := slice_some tb.byRegionInputs[f] region.begin region.end_ hb (by omega)
  have hlen := slice_length hsl
  unfold scanStateAtRounded
  simp only [hsum, List.getElem?_eq_getElem hf, List.getElem?_eq_getElem hf2, hsl]
  exact @foldlM_range_some scanStateRounded
    (scanStepRounded tb f tb.inputs[f]
      ((tb.byRegionInputs[f].drop region.begin).take (region.end_ - region.begin)))
    _ (fun st j hj => scanStepRounded_some tb f _ _ (fun id hid => by
        have := ha2 id (List.mem_of_mem_drop (List.mem_of_mem_take hid))
        omega) st j hj)
    ⟨_, ⟨Flt.fin 0, Flt.fin 0⟩, Flt.ninf, ⟨0, ⟨0, 0⟩, Flt.fin 0, Flt.fin (-1)⟩⟩ i
    (by simp only [offsetRange.Size] at hi; omega)

/-- The result of the rounded `FindBestSplitForInput` is `bestSplit` in the state its scan
loop ends in. -/
theorem FindBestSplitForInputRounded_eq_scan (tb : treeBuilder) (region : offsetRange)
    (f : Nat) :
    FindBestSplitForInputRounded tb region f =
      (scanStateAtRounded tb region f region.Size).map scanStateRounded.bestSplit := by
  unfold FindBestSplitForInputRounded scanStateAtRounded
  cases ComputeSumWeightRounded tb region with
  | none => rfl
  | some sp =>
    cases tb.inputs[f]? with
    | none => rfl
    | some input =>
      cases tb.byRegionInputs[f]? with
      | none => rfl
      | some ids =>
        cases h4 : slice ids region.begin region.end_ with
        | none => simp only [h4, Option.map_none']
        | some byValue =>
          simp only [h4, slice_length h4, offsetRange.Size]

/-- C13, counterexample.  Two calls of `FindBestSplitForInput` whose accumulators differ
from direct recomputation.

(1) Rounding.  On the root region of `BuildTree([1, 3], [2^60, 1], [[0, 1]], 1, 0)` (rows in
the order of feature 0: 0, 1; the region's slice of `byRegionIds` holds the same rows) the
first pass leaves `spSumWeight = (2^60, 2^60)`: in `float64` both `2^60 + 3` and `2^60 + 1`
are `2^60`.  At scan position 1, before row 1 is moved, `spSumWeight` is therefore `(0, 0)`,
while direct recomputation over rows `1..1` gives `(3, 1)`, in `float64` as well as exactly.

(2) Rows.  In the run of `BuildTree([9,0,1,0], [1,1,1,1], [[3,1,0,2]], 3, 1)` node 5 is
called for the region `[0, 2)` after node 2 has split `[1, 4)`.  There the region's slice of
`byRegionIds` holds rows 0, 1 and its slice of the ordering of feature 0 holds rows 0, 2.
The first pass sums rows 0, 1 to `(9, 2)`; at scan position 1 `spSumWeight` is `(0, 1)`,
while rows `1..1` of the feature's order (row 2) give `(1, 1)`.  This state does not depend
on the schedule of the goroutines: node 1 holds one row and cannot split, so it writes to no
ordering; node 2 has split before it starts node 5; node 6 works on offsets 2 and 3. -/
theorem FindBestSplitForInput_accumulators_differ :
    ((rootBuilder [1, 3] [2 ^ 60, 1] [[0, 1]] 1 0).byRegionInputs = [[0, 1]] ∧
      (rootBuilder [1, 3] [2 ^ 60, 1] [[0, 1]] 1 0).byRegionIds = [0, 1] ∧
      ComputeSumWeightRounded (rootBuilder [1, 3] [2 ^ 60, 1] [[0, 1]] 1 0) ⟨0, 2⟩ =
        some ⟨Flt.fin (2 ^ 60), Flt.fin (2 ^ 60)⟩ ∧
      (scanStateAtRounded (rootBuilder [1, 3] [2 ^ 60, 1] [[0, 1]] 1 0) ⟨0, 2⟩ 0 1).map
          scanStateRounded.spSumWeight = some ⟨Flt.fin 0, Flt.fin 0⟩ ∧
      accumulateRounded [1, 3] [2 ^ 60, 1] (([0, 1] : List Nat).drop 1) =
        ⟨Flt.fin 3, Flt.fin 1⟩ ∧
      exactSumWeight [1, 3] [2 ^ 60, 1] (([0, 1] : List Nat).drop 1) =
        ⟨Flt.fin 3, Flt.fin 1⟩) ∧
    (unevenBuilderAtNode5.map (fun tb => (tb.byRegionIds, tb.byRegionInputs)) =
        some ([0, 1, 2, 3], [[0, 2, 1, 3]]) ∧
      unevenBuilderAtNode5.map (fun tb => tb.calls.map (fun c => (c.regionIdx, c.spEnd))) =
        some [(0, 1), (1, 0), (2, 2)] ∧
      unevenBuilderAtNode5.bind (fun tb => ComputeSumWeightRounded tb ⟨0, 2⟩) =
        some ⟨Flt.fin 9, Flt.fin 2⟩ ∧
      unevenBuilderAtNode5.bind (fun tb =>
        (scanStateAtRounded tb ⟨0, 2⟩ 0 1).map scanStateRounded.spSumWeight) =
        some ⟨Flt.fin 0, Flt.fin 1⟩ ∧
      accumulateRounded [9, 0, 1, 0] [1, 1, 1, 1] (([0, 2] : List Nat).drop 1) =
        ⟨Flt.fin 1, Flt.fin 1⟩ ∧
      exactSumWeight [9, 0, 1, 0] [1, 1, 1, 1] (([0, 2] : List Nat).drop 1) =
        ⟨Flt.fin 1, Flt.fin 1⟩) := by
  refine ⟨⟨by decide!, by decide!, by decide!, by decide!, by decide!, by decide!⟩,
    ⟨by decide!, by decide!, by decide!, by decide!, by decide!, by decide!⟩⟩

/-- C13, amended.  Let `byValue` be the region's slice of the ordering of feature `f`, and
suppose (a) it holds the rows of the region's slice of `byRegionIds`, and (b) no `float64`
operation of the two passes rounds: the products `output*weight` and the sums over the row
lists of `partialRows` are `float64` values.  Then at every scan position `i` of
`FindBestSplitForInput`, before row `i` is moved, `spSumWeight` holds the weighted sum and
the total weight of rows `i..n-1` and `exSumWeight` those of rows `0..i-1`; so the `curGain`
of position `i`, and with it the gain recorded for an accepted candidate `[i, n)`, is
`gain(rows i..n-1) + gain(rows 0..i-1)` in `float64`.  The scan states are those of
`FindBestSplitForInput`, whose result is `bestSplit` in the last of them, and on a well-formed
builder the scan reaches every position `i <= n`. -/
theorem FindBestSplitForInput_rounded_accumulators (tb : treeBuilder) (region : offsetRange)
    (f : Nat) (ids byValue : List Nat) (hids : tb.byRegionInputs[f]? = some ids)
    (hsl : slice ids region.begin region.end_ = some byValue)
    (hrows : byValue.Perm ((tb.byRegionIds.drop region.begin).take region.Size))
    (hexact : ∀ rows ∈ partialRows ((tb.byRegionIds.drop region.begin).take region.Size)
      byValue, SumsExact tb.output tb.weight rows) :
    FindBestSplitForInputRounded tb region f =
      (scanStateAtRounded tb region f byValue.length).map scanStateRounded.bestSplit ∧
    (∀ i st, scanStateAtRounded tb region f i = some st →
      st.spSumWeight = exactSumWeight tb.output tb.weight (byValue.drop i) ∧
        st.exSumWeight = exactSumWeight tb.output tb.weight (byValue.take i) ∧
        Flt.add64 (gainRounded st.spSumWeight) (gainRounded st.exSumWeight) =
          splitGainRounded tb.output tb.weight byValue i) ∧
    (∀ s, FindBestSplitForInputRounded tb region f = some s → s.region.Empty = false →
      s.region.begin < byValue.length ∧ s.region.end_ = byValue.length ∧
        s.gain = splitGainRounded tb.output tb.weight byValue s.region.begin) ∧
    (BuilderOk tb → region.end_ ≤ tb.output.length → f < tb.inputs.length →
      ∀ i, i ≤ byValue.length → ∃ st, scanStateAtRounded tb region f i = some st) := by
  obtain ⟨m1, m2, m3, m4⟩ := partialRows_mem
    ((tb.byRegionIds.drop region.begin).take region.Size) byValue
  have hp : ∀ id ∈ byValue, SumsExact tb.output tb.weight [id] :=
    fun id hid => hexact _ (m4 id hid)
  have hpre : ∀ k, k ≤ byValue.length → SumsExact tb.output tb.weight (byValue.take k) :=
    fun k hk => hexact _ (m2 k hk)
  have hsuf : ∀ k, k ≤ byValue.length → SumsExact tb.output tb.weight (byValue.drop k) :=
    fun k hk => hexact _ (m3 k hk)
  have hinit : ∀ sp0, ComputeSumWeightRounded tb region = some sp0 →
      sp0 = exactSumWeight tb.output tb.weight byValue := by
    intro sp0 hsum
    rw [ComputeSumWeightRounded_eq hsum, accumulateRounded_exact tb.output tb.weight _
      (fun id hid => hp id (hrows.mem_iff.mpr hid)) (fun k hk => hexact _ (m1 k hk))]
    exact (exactSumWeight_perm tb.output tb.weight hrows).symm
  have hscan : ∀ (input : List ℚ) (sp0 : sumWeightRounded) (i : Nat) (st : scanStateRounded),
      ComputeSumWeightRounded tb region = some sp0 →
      (List.range i).foldlM (scanStepRounded tb f input byValue)
        ⟨sp0, ⟨Flt.fin 0, Flt.fin 0⟩, Flt.ninf, noSplit⟩ = some st →
      i ≤ byValue.length → AccInvRounded tb byValue i st := by
    intro input sp0 i st hsum hfold hi
    exact foldlM_range_invariant (P := AccInvRounded tb byValue) byValue.length
      (fun j st st1 hj hP hs =>
        scanStepRounded_accInv tb f input byValue hp hpre hsuf j st st1 hj hP hs)
      _ ⟨by simp [exactSumWeight, weightedSumOver, totalWeightOver],
        by rw [List.drop_zero]; exact hinit sp0 hsum, Or.inl rfl⟩ i hi st hfold
  have hacc : ∀ i st, scanStateAtRounded tb region f i = some st →
      AccInvRounded tb byValue i st := by
    intro i st h
    obtain ⟨sp0, input, ids1, byValue1, hsum, _, hids1, hsl1, hfold⟩ := scanStateAtRounded_inv h
    rw [hids] at hids1
    cases hids1
    rw [hsl] at hsl1
    cases hsl1
    exact hscan input sp0 i st hsum hfold
      (foldlM_range_le byValue.length (scanStepRounded_none tb f input byValue) _ i st hfold)
  refine ⟨?_, ?_, ?_, ?_⟩
  · rw [FindBestSplitForInputRounded_eq_scan]
    simp only [offsetRange.Size, slice_length hsl]
  · intro i st h
    obtain ⟨h1, h2, _⟩ := hacc i st h
    exact ⟨h2, h1, by rw [h1, h2]; rfl⟩
  · intro s h hne
    rw [FindBestSplitForInputRounded_eq_scan] at h
    cases hst : scanStateAtRounded tb region f region.Size with
    | none => simp [hst] at h
    | some st =>
      simp only [hst, Option.map_some', Option.some.injEq] at h
      obtain ⟨_, _, hbest⟩ := hacc _ st hst
      rw [h] at hbest
      have hlen : region.Size = byValue.length := by
        simp only [offsetRange.Size, slice_length hsl]
      rcases hbest with hb | ⟨i, hi, hr, hg⟩
      · rw [hb] at hne
        exact absurd hne (by decide)
      · rw [hr, hg]
        refine ⟨?_, rfl, rfl⟩
        show i < byValue.length
        omega
  · intro hok he hf i hi
    have hb := (slice_eq_some hsl).1
    exact scanStateAtRounded_some tb region f hok hb he hf i
      (by rw [slice_length hsl] at hi; exact hi)

/-- Witness of C13 (amended) on the root region of the first tree of `TestWeight`, whose rows
in the order of feature 0 are 0, 1, 2. -/
theorem FindBestSplitForInput_rounded_accumulators_witness :
    FindBestSplitForInputRounded (rootBuilder [0, 2, 5] [1, 1, 1] [[0, 1, 2]] 1 0) ⟨0, 3⟩ 0 =
        some ⟨0, ⟨2, 3⟩, Flt.fin (3 / 2), Flt.fin 27⟩ ∧
      FindBestSplitForInputRounded (rootBuilder [0, 2, 5] [1, 1, 1] [[0, 1, 2]] 1 0) ⟨0, 3⟩ 0 =
        (scanStateAtRounded (rootBuilder [0, 2, 5] [1, 1, 1] [[0, 1, 2]] 1 0) ⟨0, 3⟩ 0
          ([0, 1, 2] : List Nat).length).map scanStateRounded.bestSplit ∧
      (∀ i st,
        scanStateAtRounded (rootBuilder [0, 2, 5] [1, 1, 1] [[0, 1, 2]] 1 0) ⟨0, 3⟩ 0 i =
          some st →
        st.spSumWeight = exactSumWeight [0, 2, 5] [1, 1, 1] (([0, 1, 2] : List Nat).drop i) ∧
          st.exSumWeight =
            exactSumWeight [0, 2, 5] [1, 1, 1] (([0, 1, 2] : List Nat).take i) ∧
          Flt.add64 (gainRounded st.spSumWeight) (gainRounded st.exSumWeight) =
            splitGainRounded [0, 2, 5] [1, 1, 1] [0, 1, 2] i) :=
  ⟨by decide!,
    (FindBestSplitForInput_rounded_accumulators
      (rootBuilder [0, 2, 5] [1, 1, 1] [[0, 1, 2]] 1 0) ⟨0, 3⟩ 0 [0, 1, 2] [0, 1, 2]
      (by decide!) (by decide!) (List.Perm.refl _) (by decide!)).1,
    (FindBestSplitForInput_rounded_accumulators
      (rootBuilder [0, 2, 5] [1, 1, 1] [[0, 1, 2]] 1 0) ⟨0, 3⟩ 0 [0, 1, 2] [0, 1, 2]
      (by decide!) (by decide!) (List.Perm.refl _) (by decide!)).2.1⟩

/-! ## The depth-1 tree in rounded arithmetic -/

theorem splitResultsRounded_mem {tb : treeBuilder} {region : offsetRange}
    {results : List splitInfo} (h : splitResultsRounded tb region = some results) :
    ∀ a ∈ results, ∃ f, FindBestSplitForInputRounded tb region f = some a := by
  intro a ha
  have h2 := (mapOpt_eq_some_iff _ _ _).mp h
  obtain ⟨k, hk, hka⟩ := List.getElem_of_mem ha
  have hlen := h2.length_eq
  have := (List.forall₂_iff_get.mp h2).2 k (by omega) hk
  refine ⟨(List.range tb.inputs.length).get ⟨k, by omega⟩, ?_⟩
  rw [this, List.get_eq_getElem, hka]

theorem splitResultsRounded_properGain {tb : treeBuilder} {region : offsetRange}
    {results : List splitInfo} (h : splitResultsRounded tb region = some results) :
    ∀ a ∈ results, ProperGain a.gain := by
  intro a ha
  obtain ⟨f, hf⟩ := splitResultsRounded_mem h a ha
  obtain ⟨_, _, _, st, _, _, _, hst, _, _, hbest⟩ := FindBestSplitForInputRounded_scanInv hf
  rw [hst] at hbest
  rcases hbest with hb | ⟨_, _, _, _, _, _, _, _, _, _, _, _, _, _, _, _, hp⟩
  · rw [hb]; exact Or.inr ⟨-1, rfl⟩
  · exact hp

theorem log2Aux_spec : ∀ fuel n, n ≤ fuel → 1 ≤ n →
    2 ^ log2Aux fuel n ≤ n ∧ n < 2 ^ (log2Aux fuel n + 1) := by
  intro fuel
  induction fuel with
  | zero => intro n h0 h1; omega
  | succ fuel ih =>
    intro n hn h1
    by_cases h2 : n < 2
    · have : n = 1 := by omega
      subst this
      simp [log2Aux]
    · have hrec : log2Aux (fuel + 1) n = log2Aux fuel (n / 2) + 1 := by
        simp [log2Aux, h2]
      obtain ⟨a, b⟩ := ih (n / 2) (by omega) (by omega)
      rw [hrec]
      rw [pow_succ] at b ⊢
      rw [pow_succ]
      constructor <;> omega

theorem natLog2_mono {a b : Nat} (ha : 1 ≤ a) (hab : a < b) : natLog2 a ≤ natLog2 b := by
  obtain ⟨a1, _⟩ := log2Aux_spec a a (Nat.le_refl _) ha
  obtain ⟨_, b2⟩ := log2Aux_spec b b (Nat.le_refl _) (by omega)
  unfold natLog2
  by_contra hc
  have h1 : 2 ^ (log2Aux b b + 1) ≤ 2 ^ log2Aux a a :=
    Nat.pow_le_pow_right (by norm_num) (by omega)
  omega

theorem pow2_pos (k : Int) : 0 < pow2 k := by
  unfold pow2
  split
  · positivity
  · positivity

/-- The exponent of a number between 0 and 1 is not positive. -/
theorem floorLog2_le_zero {a : ℚ} (h0 : 0 < a) (h1 : a < 1) : floorLog2 a ≤ 0 := by
  have hnum : 0 < a.num := Rat.num_pos.mpr h0
  have hlt : a.num < (a.den : Int) := Rat.lt_one_iff_num_lt_denom.mp h1
  have hk : natLog2 a.num.natAbs ≤ natLog2 a.den :=
    natLog2_mono (by omega) (by omega)
  unfold floorLog2
  simp only
  split <;> omega

theorem pow2_nonpos {k : Int} (hk : k ≤ 0) : pow2 k = 1 / ((2 ^ (-k).toNat : Nat) : ℚ) := by
  unfold pow2
  split
  · have : k = 0 := by omega
    subst this
    simp
  · rfl

/-- The integer part of a non-negative number, as the rounding computes it, is not above
the number. -/
theorem natFloor_le {x : ℚ} (hx : 0 ≤ x) : ((x.num.natAbs / x.den : Nat) : ℚ) ≤ x := by
  have h1 : x.num.natAbs / x.den * x.den ≤ x.num.natAbs := Nat.div_mul_le_self _ _
  have h2 : ((x.num.natAbs : Nat) : ℚ) = (x.num : ℚ) := by
    rw [← Int.cast_natCast, Int.natAbs_of_nonneg (Rat.num_nonneg.mpr hx)]
  have h3 : ((x.num.natAbs / x.den : Nat) : ℚ) * (x.den : ℚ) ≤ (x.num : ℚ) := by
    rw [← h2]
    exact_mod_cast h1
  have hden : (0 : ℚ) < x.den := by exact_mod_cast x.den_pos
  have h4 : x * (x.den : ℚ) = (x.num : ℚ) := Rat.mul_den_eq_num x
  rw [← h4] at h3
  exact le_of_mul_le_mul_right h3 hden

/-- Rounding a number between 0 and 1 to a multiple of `1/N` gives at most 1. -/
theorem roundCore_le_one (a ulp : ℚ) (N : Nat) (hN : ulp = 1 / (N : ℚ)) (hNpos : 1 ≤ N)
    (ha0 : 0 ≤ a) (ha1 : a < 1) (n : Nat)
    (hn : n ≤ (a / ulp).num.natAbs / (a / ulp).den + 1) : (n : ℚ) * ulp ≤ 1 := by
  have hNq : (0 : ℚ) < N := by exact_mod_cast hNpos
  have hx : a / ulp = a * N := by
    rw [hN]
    field_simp
  have hx0 : 0 ≤ a / ulp := by rw [hx]; positivity
  have hxN : a / ulp < N := by
    rw [hx]
    calc a * N < 1 * N := by exact mul_lt_mul_of_pos_right ha1 hNq
      _ = N := one_mul _
  have hf := natFloor_le hx0
  have hfN : (a / ulp).num.natAbs / (a / ulp).den < N := by
    have : (((a / ulp).num.natAbs / (a / ulp).den : Nat) : ℚ) < (N : ℚ) := lt_of_le_of_lt hf hxN
    exact_mod_cast this
  have hnN : n ≤ N := by omega
  rw [hN]
  have : (n : ℚ) ≤ N := by exact_mod_cast hnN
  rw [mul_one_div]
  exact (div_le_one hNq).mpr this

theorem nearestEven_le (x : ℚ) : nearestEven x ≤ x.num.natAbs / x.den + 1 := by
  unfold nearestEven
  simp only
  split_ifs <;> omega

/-- Rounding never crosses `-1`: a number above `-1` is rounded to a value that is not
below `-1`. -/
theorem roundTo_ge_neg_one (p : Nat) (emin emax : Int) (hp : 1 ≤ p) (hemin : emin ≤ 0)
    (hemax : 0 ≤ emax) (r : ℚ) (hr : -1 < r) :
    Flt.le (Flt.fin (-1)) (roundTo p emin emax r) = true := by
  by_cases h0 : r = 0
  · subst h0
    simp [roundTo, Flt.le]
  by_cases hpos : 0 < r
  · unfold roundTo
    simp only [h0, if_false, hpos, if_true]
    split
    · rfl
    · simp only [Flt.le, decide_eq_true_eq]
      exact le_trans (by norm_num : (-1 : ℚ) ≤ 0)
        (mul_nonneg (Nat.cast_nonneg _) (pow2_pos _).le)
  · have hneg : r < 0 := lt_of_le_of_ne (not_lt.mp hpos) h0
    have habs : |r| = -r := abs_of_neg hneg
    have ha0 : 0 < |r| := by rw [habs]; linarith
    have ha1 : |r| < 1 := by rw [habs]; linarith
    have hE : max (floorLog2 |r|) emin - ((p : Int) - 1) ≤ 0 := by
      have := floorLog2_le_zero ha0 ha1
      have h2 : max (floorLog2 |r|) emin ≤ 0 := max_le this hemin
      omega
    have hulp := pow2_nonpos hE
    have hNpos : 1 ≤ 2 ^ (-(max (floorLog2 |r|) emin - ((p : Int) - 1))).toNat :=
      Nat.one_le_two_pow
    have hbig : (1 : ℚ) < pow2 (emax + 1) := by
      unfold pow2
      rw [if_pos (by omega)]
      have : 1 < 2 ^ (emax + 1).toNat := Nat.one_lt_two_pow (by omega)
      exact_mod_cast this
    have key := roundCore_le_one |r| _ _ hulp hNpos ha0.le ha1 _ (nearestEven_le _)
    unfold roundTo
    simp only [h0, if_false, hpos]
    split
    · rename_i hov
      exfalso
      linarith
    · simp only [Flt.le, decide_eq_true_eq]
      linarith

theorem round64_ge_neg_one (r : ℚ) (hr : -1 < r) :
    Flt.le (Flt.fin (-1)) (round64 r) = true :=
  roundTo_ge_neg_one 53 (-1022) 1023 (by norm_num) (by norm_num) (by norm_num) r hr

theorem Flt.lt_of_le_of_lt {a b c : Flt} (h1 : Flt.le a b = true) (h2 : Flt.lt b c = true) :
    Flt.lt a c = true := by
  revert h1 h2
  cases a <;> cases b <;> cases c <;> simp [Flt.le, Flt.lt]
  intro h1 h2
  linarith

theorem Flt.le_of_lt {a b : Flt} (h : Flt.lt a b = true) : Flt.le a b = true := by
  revert h
  cases a <;> cases b <;> simp [Flt.le, Flt.lt]
  intro h
  linarith

/-- The sum of a gain above `-1` and `1e-6`, in `float64`, is not below `-1`. -/
theorem add64_eps_ge_neg_one {g : Flt} (h : Flt.le (Flt.fin (-1)) g = true) :
    Flt.le (Flt.fin (-1)) (Flt.add64 g eps64) = true := by
  have heps : eps64 = Flt.fin (4722366482869645 / 2 ^ 72) := by decide!
  rw [heps]
  cases g with
  | fin q =>
    have hq : (-1 : ℚ) ≤ q := by simpa [Flt.le] using h
    exact round64_ge_neg_one _ (by
      have : (0 : ℚ) < 4722366482869645 / 2 ^ 72 := by norm_num
      linarith)
  | pinf => rfl
  | ninf => simp [Flt.le] at h
  | nan => simp [Flt.le] at h

theorem scanStepRounded_goodBest (tb : treeBuilder) (f : Nat) (input : List ℚ)
    (byValue : List Nat) (st : scanStateRounded) (j : Nat) (st1 : scanStateRounded)
    (hg : GoodBestRounded f st.bestSplit)
    (h : scanStepRounded tb f input byValue st j = some st1) :
    GoodBestRounded f st1.bestSplit := by
  obtain ⟨_, _, _, _, _, _, _, _, _, _, _, hcase⟩ := scanStepRounded_cases h
  rcases hcase with ⟨hb, _⟩ | ⟨hb, _, _, _, hgt⟩
  · rw [hb]; exact hg
  · right
    rw [hb]
    refine ⟨rfl, ?_⟩
    have hge : Flt.le (Flt.fin (-1)) st.bestSplit.gain = true := by
      rcases hg with hn | ⟨_, hl⟩
      · rw [hn]; decide
      · exact Flt.le_of_lt hl
    exact Flt.lt_of_le_of_lt (add64_eps_ge_neg_one hge) hgt

/-- The result of the rounded search for feature `f` is the initial `bestSplit` or a
candidate of feature `f`. -/
theorem FindBestSplitForInputRounded_goodBest {tb : treeBuilder} {region : offsetRange}
    {f : Nat} {s : splitInfo} (h : FindBestSplitForInputRounded tb region f = some s) :
    GoodBestRounded f s := by
  obtain ⟨sp, input, ids, byValue, st, _, _, _, _, h5, rfl⟩ :=
    FindBestSplitForInputRounded_inv h
  exact foldlM_invariant (P := fun st => GoodBestRounded f st.bestSplit)
    (fun st a st1 hP hs => scanStepRounded_goodBest tb f input byValue st a st1 hP hs)
    _ _ _ (Or.inl rfl) h5

/-- Two rounded results of one region with the same gain and the same feature index are the
same result. -/
theorem splitResultsRounded_key_injective {tb : treeBuilder} {region : offsetRange}
    {results : List splitInfo} (h : splitResultsRounded tb region = some results) :
    ∀ a ∈ results, ∀ b ∈ results, Flt.eq a.gain b.gain = true → a.inputIdx = b.inputIdx →
      a = b := by
  intro a ha b hb hgain hidx
  obtain ⟨fa, hfa⟩ := splitResultsRounded_mem h a ha
  obtain ⟨fb, hfb⟩ := splitResultsRounded_mem h b hb
  rcases FindBestSplitForInputRounded_goodBest hfa with ha1 | ⟨ha1, ha2⟩ <;>
    rcases FindBestSplitForInputRounded_goodBest hfb with hb1 | ⟨hb1, hb2⟩
  · rw [ha1, hb1]
  · exfalso
    rw [ha1] at hgain
    revert hgain hb2
    cases b.gain <;> simp [noSplit, Flt.eq, Flt.lt]
    intro h1
    rw [← h1]
  · exfalso
    rw [hb1] at hgain
    revert hgain ha2
    cases a.gain <;> simp [noSplit, Flt.eq, Flt.lt]
    intro h1
    rw [h1]
  · have : fa = fb := by rw [← ha1, ← hb1, hidx]
    subst this
    rw [hfa] at hfb
    exact Option.some.inj hfb

/-! ## The reduction over the results of a region -/

/-- C7: the reduction of the per-feature results of a region to one winner does not depend
on the order in which the results arrive.  For the results of the searches of any region,
computed with exact or with rounded arithmetic, and every permutation `arrival` of them, the
reduction returns the same value; when there is a result at all a winner is selected, the
same for both orders; the winner is one of the results, it has the greatest gain, and among
the results with exactly the greatest gain it has the lowest feature index. -/
theorem reduceSplits_order_independent (tb : treeBuilder) (region : offsetRange)
    (results arrival : List splitInfo)
    (h : splitResults tb region = some results ∨ splitResultsRounded tb region = some results)
    (hp : arrival.Perm results) :
    reduceSplits arrival = reduceSplits results ∧
      (results ≠ [] → ∃ w, reduceSplits arrival = some w ∧ reduceSplits results = some w) ∧
      ∀ w, reduceSplits arrival = some w →
        w ∈ results ∧ (∀ s ∈ results, Flt.le s.gain w.gain = true) ∧
          ∀ s ∈ results, Flt.eq s.gain w.gain = true → w.inputIdx ≤ s.inputIdx := by
  rcases h with h | h
  · exact reduceSplits_perm results arrival (splitResults_properGain h)
      (splitResults_key_injective h) hp
  · exact reduceSplits_perm results arrival (splitResultsRounded_properGain h)
      (splitResultsRounded_key_injective h) hp

/-- Witness of C7: the two features of `tieBuilder` tie at gain `105/2` (in rounded
arithmetic as well as exactly); received in either order, the result of feature 0 is the
winner. -/
theorem reduceSplits_order_independent_witness :
    reduceSplits [⟨1, ⟨2, 5⟩, Flt.fin (1 / 2), Flt.fin (105 / 2)⟩,
        ⟨0, ⟨2, 5⟩, Flt.fin (1 / 2), Flt.fin (105 / 2)⟩] =
        some ⟨0, ⟨2, 5⟩, Flt.fin (1 / 2), Flt.fin (105 / 2)⟩ ∧
      reduceSplits [⟨1, ⟨2, 5⟩, Flt.fin (1 / 2), Flt.fin (105 / 2)⟩,
        ⟨0, ⟨2, 5⟩, Flt.fin (1 / 2), Flt.fin (105 / 2)⟩] =
      reduceSplits [⟨0, ⟨2, 5⟩, Flt.fin (1 / 2), Flt.fin (105 / 2)⟩,
        ⟨1, ⟨2, 5⟩, Flt.fin (1 / 2), Flt.fin (105 / 2)⟩] ∧
      (([⟨0, ⟨2, 5⟩, Flt.fin (1 / 2), Flt.fin (105 / 2)⟩,
          ⟨1, ⟨2, 5⟩, Flt.fin (1 / 2), Flt.fin (105 / 2)⟩] : List splitInfo) ≠ [] →
        ∃ w, reduceSplits [⟨1, ⟨2, 5⟩, Flt.fin (1 / 2), Flt.fin (105 / 2)⟩,
            ⟨0, ⟨2, 5⟩, Flt.fin (1 / 2), Flt.fin (105 / 2)⟩] = some w ∧
          reduceSplits [⟨0, ⟨2, 5⟩, Flt.fin (1 / 2), Flt.fin (105 / 2)⟩,
            ⟨1, ⟨2, 5⟩, Flt.fin (1 / 2), Flt.fin (105 / 2)⟩] = some w) ∧
      ∀ w, reduceSplits [⟨1, ⟨2, 5⟩, Flt.fin (1 / 2), Flt.fin (105 / 2)⟩,
          ⟨0, ⟨2, 5⟩, Flt.fin (1 / 2), Flt.fin (105 / 2)⟩] = some w →
        w ∈ [(⟨0, ⟨2, 5⟩, Flt.fin (1 / 2), Flt.fin (105 / 2)⟩ : splitInfo),
          ⟨1, ⟨2, 5⟩, Flt.fin (1 / 2), Flt.fin (105 / 2)⟩] ∧
        (∀ s ∈ [(⟨0, ⟨2, 5⟩, Flt.fin (1 / 2), Flt.fin (105 / 2)⟩ : splitInfo),
          ⟨1, ⟨2, 5⟩, Flt.fin (1 / 2), Flt.fin (105 / 2)⟩], Flt.le s.gain w.gain = true) ∧
          ∀ s ∈ [(⟨0, ⟨2, 5⟩, Flt.fin (1 / 2), Flt.fin (105 / 2)⟩ : splitInfo),
            ⟨1, ⟨2, 5⟩, Flt.fin (1 / 2), Flt.fin (105 / 2)⟩],
            Flt.eq s.gain w.gain = true → w.inputIdx ≤ s.inputIdx :=
  ⟨by decide!,
    reduceSplits_order_independent tieBuilder ⟨0, 5⟩ _ _ (Or.inr (by decide!))
      (List.Perm.swap _ _ _)⟩

end Goml
